import Mathlib

/-!
# Shallow embedding of the `cloudtiff` library core

This file embeds the data model and operations of the `cloudtiff` Rust
library (TIFF/BigTIFF container codec, COG pyramid model, render engine)
into Lean 4, and proves or refutes a fixed list of specification claims
about it.

Modelling conventions:
* Rust machine integers (`u8`/`u16`/`u32`/`u64`/`usize`) are modelled as
  `Nat`; truncating casts (`as u32` etc.) insert an explicit `% 2^w` or a
  saturating clamp where the source can actually overflow or saturate.
* Rust `f64`/`f32` arithmetic is modelled by exact rational arithmetic
  (`ℚ`).  Division by zero, which produces `inf`/`NaN` followed by a
  saturating integer cast in Rust, is modelled explicitly in the helper
  functions that mirror those cast sites; theorems about code paths where
  an `f64` division's divisor may vanish carry hypotheses excluding that.
* Fallible Rust code returns `Except`/`Option`.  Code that can panic
  (asserts, out-of-bounds indexing, division by zero on integers) is
  modelled with the `PanicOr` monad-like wrapper below, so that a panic
  is distinguishable from both success and a returned error.
* Byte streams are `List Nat` (each element intended `< 256`) with
  explicit positions; `Read + Seek` cursors become position arguments.
-/

/-- Outcome of running Rust code that may panic: either a panic (assert
failure, out-of-bounds index, integer division by zero) or a value. -/
inductive PanicOr (α : Type) where
  | panic : PanicOr α
  | ok : α → PanicOr α
deriving DecidableEq, Repr

instance {ε α : Type} [DecidableEq ε] [DecidableEq α] : DecidableEq (Except ε α) := fun x y =>
  match x, y with
  | .ok a, .ok b =>
    if h : a = b then isTrue (by rw [h]) else isFalse (by simp [h])
  | .error a, .error b =>
    if h : a = b then isTrue (by rw [h]) else isFalse (by simp [h])
  | .ok _, .error _ => isFalse (by simp)
  | .error _, .ok _ => isFalse (by simp)

/-! ## Endian codec (src/tiff/endian.rs)

Only the unsigned-integer subset of the endian codec is needed by the
claims; it is the code path used for the TIFF header, tag records and
tag payloads handled below. -/

/-- Byte order, as in `enum Endian { Big, Little }`. -/
inductive Endian where
  | Big : Endian
  | Little : Endian
deriving DecidableEq, Repr

/-- `Endian::decode` for an unsigned integer of `bs.length` bytes:
little-endian folds from the low byte, big-endian from the high byte. -/
def Endian.decodeBytes : Endian → List Nat → Nat
  | .Little, bs => bs.foldr (fun b acc => b + 256 * acc) 0
  | .Big, bs => bs.foldl (fun acc b => acc * 256 + b) 0

/-- `Endian::encode` of value `v` as an unsigned integer into `n` bytes
(the value is reduced mod `2^(8n)`, matching the fixed-width integer
being written). -/
def Endian.encodeUint (e : Endian) (n : Nat) (v : Nat) : List Nat :=
  match e with
  | .Little => (List.range n).map (fun i => v / 256 ^ i % 256)
  | .Big => (List.range n).map (fun i => v / 256 ^ (n - 1 - i) % 256)

theorem Endian.encodeUint_length (e : Endian) (n v : Nat) :
    (e.encodeUint n v).length = n := by
  cases e <;> simp [Endian.encodeUint]

theorem Endian.encodeUint_lt (e : Endian) (n v : Nat) :
    ∀ b ∈ e.encodeUint n v, b < 256 := by
  cases e <;>
    · intro b hb
      simp only [Endian.encodeUint, List.mem_map] at hb
      obtain ⟨i, _, rfl⟩ := hb
      exact Nat.mod_lt _ (by norm_num)

/-- Arithmetic splitting of a modulus `256 * B` into low byte and rest. -/
theorem Endian.mod_mul_split (v B : Nat) (hB : 0 < B) :
    v % (256 * B) = v % 256 + 256 * (v / 256 % B) := by
  have h1 : v = 256 * B * (v / 256 / B) + (256 * (v / 256 % B) + v % 256) := by
    have h2 := Nat.div_add_mod v 256
    have h3 := Nat.div_add_mod (v / 256) B
    calc v = 256 * (v / 256) + v % 256 := (Nat.div_add_mod v 256).symm
    _ = 256 * (B * (v / 256 / B) + v / 256 % B) + v % 256 := by rw [h3]
    _ = 256 * B * (v / 256 / B) + (256 * (v / 256 % B) + v % 256) := by ring
  have hlt : 256 * (v / 256 % B) + v % 256 < 256 * B := by
    have ha : v / 256 % B < B := Nat.mod_lt _ hB
    have hb : v % 256 < 256 := Nat.mod_lt _ (by norm_num)
    omega
  calc v % (256 * B)
      = (256 * B * (v / 256 / B) + (256 * (v / 256 % B) + v % 256)) % (256 * B) := by
        rw [← h1]
    _ = (256 * (v / 256 % B) + v % 256) % (256 * B) := by
        rw [Nat.add_comm, Nat.add_mul_mod_self_left]
    _ = 256 * (v / 256 % B) + v % 256 := Nat.mod_eq_of_lt hlt
    _ = v % 256 + 256 * (v / 256 % B) := by ring

/-- Little-endian byte decomposition round-trips. -/
theorem Endian.decode_encode_little (n v : Nat) :
    Endian.Little.decodeBytes (Endian.Little.encodeUint n v) = v % 256 ^ n := by
  induction n generalizing v with
  | zero => simp [Endian.decodeBytes, Endian.encodeUint, Nat.mod_one]
  | succ n ih =>
    have hrange : List.range (n + 1) = 0 :: (List.range n).map (· + 1) :=
      List.range_succ_eq_map n
    have hmap :
        (List.range n).map ((fun i => v / 256 ^ i % 256) ∘ (· + 1)) =
          Endian.Little.encodeUint n (v / 256) := by
      apply List.map_congr_left
      intro i _
      simp only [Function.comp_apply, pow_succ, pow_zero]
      rw [Nat.div_div_eq_div_mul, mul_comm (256 ^ i) 256, ← Nat.div_div_eq_div_mul]
    simp only [Endian.encodeUint, hrange, List.map_cons, List.map_map, hmap,
      Endian.decodeBytes, List.foldr_cons, pow_zero, Nat.div_one] at *
    rw [ih (v / 256)]
    rw [pow_succ, mul_comm (256 ^ n) 256, Endian.mod_mul_split v (256 ^ n) (by positivity)]

/-- Big-endian byte decomposition round-trips. -/
theorem Endian.decode_encode_big (n v : Nat) :
    Endian.Big.decodeBytes (Endian.Big.encodeUint n v) = v % 256 ^ n := by
  induction n generalizing v with
  | zero => simp [Endian.decodeBytes, Endian.encodeUint, Nat.mod_one]
  | succ n ih =>
    have hmap :
        (List.range n).map (fun i => v / 256 ^ (n - i) % 256) =
          Endian.Big.encodeUint n (v / 256) := by
      simp only [Endian.encodeUint]
      apply List.map_congr_left
      intro i hi
      simp only [List.mem_range] at hi
      have h4 : n - i = (n - 1 - i) + 1 := by omega
      rw [h4, pow_succ, mul_comm (256 ^ (n - 1 - i)) 256, ← Nat.div_div_eq_div_mul]
    simp only [Endian.encodeUint, List.range_succ, List.map_append, List.map_cons,
      List.map_nil, Nat.add_sub_cancel, hmap] at *
    simp only [Endian.decodeBytes, List.foldl_append, List.foldl_cons, List.foldl_nil] at *
    rw [ih (v / 256)]
    rw [Nat.sub_self, pow_zero, Nat.div_one, pow_succ, mul_comm (256 ^ n) 256,
      Endian.mod_mul_split v (256 ^ n) (by positivity)]
    ring

/-- Decoding inverts encoding (mod the field width), for both endians. -/
theorem Endian.decode_encode (e : Endian) (n v : Nat) :
    e.decodeBytes (e.encodeUint n v) = v % 256 ^ n := by
  cases e with
  | Little => exact Endian.decode_encode_little n v
  | Big => exact Endian.decode_encode_big n v

theorem Endian.decode_encode_of_lt (e : Endian) (n v : Nat) (h : v < 256 ^ n) :
    e.decodeBytes (e.encodeUint n v) = v := by
  rw [Endian.decode_encode, Nat.mod_eq_of_lt h]

/-! ## TIFF data model (src/tiff/mod.rs, src/tiff/tag/mod.rs) -/

/-- `enum TiffVariant { Normal, Big }`. -/
inductive TiffVariant where
  | Normal : TiffVariant
  | Big : TiffVariant
deriving DecidableEq, Repr

/-- `TiffVariant::offset_bytesize`. -/
def TiffVariant.offset_bytesize : TiffVariant → Nat
  | .Normal => 4
  | .Big => 8

/-- `TiffVariant::write_offset`: Normal truncates to `u32` (the
truncation is the `% 2^32` built into `encodeUint`), Big writes `u64`. -/
def TiffVariant.writeOffsetBytes (v : TiffVariant) (e : Endian) (offset : Nat) : List Nat :=
  match v with
  | .Normal => e.encodeUint 4 offset
  | .Big => e.encodeUint 8 offset

/-- `enum TagType`, the seventeen TIFF tag datatypes. -/
inductive TagType where
  | Byte | Ascii | Short | Long | Rational | SByte | Undefined
  | SShort | SLong | SRational | Float | Double | Ifd
  | Long8 | SLong8 | Ifd8 | Unknown
deriving DecidableEq, Repr

/-- The `#[repr(u16)]` discriminant of each `TagType` variant. -/
def TagType.toU16 : TagType → Nat
  | .Byte => 1 | .Ascii => 2 | .Short => 3 | .Long => 4 | .Rational => 5
  | .SByte => 6 | .Undefined => 7 | .SShort => 8 | .SLong => 9
  | .SRational => 10 | .Float => 11 | .Double => 12 | .Ifd => 13
  | .Long8 => 16 | .SLong8 => 17 | .Ifd8 => 18 | .Unknown => 0xFFFF

/-- `impl FromPrimitive for TagType` (via `num_enum`): unknown
discriminants map to the `Unknown` default. -/
def TagType.ofU16 : Nat → TagType
  | 1 => .Byte | 2 => .Ascii | 3 => .Short | 4 => .Long | 5 => .Rational
  | 6 => .SByte | 7 => .Undefined | 8 => .SShort | 9 => .SLong
  | 10 => .SRational | 11 => .Float | 12 => .Double | 13 => .Ifd
  | 16 => .Long8 | 17 => .SLong8 | 18 => .Ifd8 | _ => .Unknown

/-- `TagType::size_in_bytes`. -/
def TagType.size_in_bytes : TagType → Nat
  | .Byte => 1 | .Ascii => 1 | .Short => 2 | .Long => 4 | .Rational => 8
  | .SByte => 1 | .Undefined => 1 | .SShort => 2 | .SLong => 4
  | .SRational => 8 | .Float => 4 | .Double => 8 | .Ifd => 4
  | .Long8 => 8 | .SLong8 => 8 | .Ifd8 => 8 | .Unknown => 1

theorem TagType.ofU16_toU16 (t : TagType) : TagType.ofU16 t.toU16 = t := by
  cases t <;> rfl

theorem TagType.toU16_lt (t : TagType) : t.toU16 < 2 ^ 16 := by
  cases t <;> simp [TagType.toU16]

/-- `struct Tag { code: u16, datatype: TagType, count: usize,
data: Vec<u8>, endian: Endian }`. -/
structure Tag where
  code : Nat
  datatype : TagType
  count : Nat
  data : List Nat
  endian : Endian
deriving DecidableEq, Repr

/-- `struct Ifd(pub Vec<Tag>)`. -/
abbrev Ifd := List Tag

/-- `struct Tiff { endian, variant, ifds }`. -/
structure Tiff where
  endian : Endian
  variant : TiffVariant
  ifds : List Ifd
deriving DecidableEq, Repr

/-- The TIFF error taxonomy (`enum TiffError`); IO errors threaded from
the reader are collapsed into the single `ReadError` constructor. -/
inductive TiffError where
  | BadMagicBytes : TiffError
  | NoIfd0 : TiffError
  | ReadError : TiffError
  | MissingTag : Nat → TiffError
  | BadTag : Nat → TiffError
deriving DecidableEq, Repr

/-! ## TIFF encoder (Tiff::encode, Ifd::encode) -/

/-- The 12-byte (Normal) / 20-byte (Big) size of one tag record. -/
def TiffVariant.tag_size : TiffVariant → Nat
  | .Normal => 12
  | .Big => 20

/-- One iteration of the tag loop in `Ifd::encode`: the tag-table record
and extra-data contribution of `tag`, given the absolute offset
`extra_data_offset` of the IFD's extra-data area and the number `k` of
extra bytes already appended by earlier tags. -/
def tagRecordBytes (e : Endian) (v : TiffVariant) (extra_data_offset k : Nat)
    (tag : Tag) : List Nat × List Nat :=
  let offset_size := v.offset_bytesize
  let header := e.encodeUint 2 tag.code ++ e.encodeUint 2 tag.datatype.toU16 ++
    v.writeOffsetBytes e tag.count
  if tag.data.length > offset_size then
    (header ++ v.writeOffsetBytes e (extra_data_offset + k), tag.data)
  else
    (header ++ (tag.data ++ List.replicate offset_size 0).take offset_size, [])

/-- The tag loop of `Ifd::encode`: builds the tag table and the
auxiliary extra-data buffer, walking the tags in order. -/
def encodeTags (e : Endian) (v : TiffVariant) (extra_data_offset : Nat) :
    List Tag → Nat → List Nat × List Nat
  | [], _ => ([], [])
  | tag :: rest, k =>
    let rec1 := tagRecordBytes e v extra_data_offset k tag
    let rest1 := encodeTags e v extra_data_offset rest (k + rec1.2.length)
    (rec1.1 ++ rest1.1, rec1.2 ++ rest1.2)

/-- Number of bytes `Ifd::encode` writes for the tag count. -/
def TiffVariant.count_size : TiffVariant → Nat
  | .Normal => 2
  | .Big => 8

/-- The tag-count field: `u16` for Normal, `u64` for BigTIFF. -/
def countBytesOf (e : Endian) (v : TiffVariant) (n : Nat) : List Nat :=
  match v with
  | .Normal => e.encodeUint 2 n
  | .Big => e.encodeUint 8 n

/-- `Ifd::encode`: tag count, tag records in list order, next-IFD
offset, then the auxiliary extra-data buffer.  `startPos` is the stream
position at which the IFD begins; `last_ifd` selects a zero next-IFD
offset. -/
def Ifd.encode (ifd : Ifd) (e : Endian) (v : TiffVariant) (startPos : Nat)
    (last_ifd : Bool) : List Nat :=
  let tag_count := ifd.length
  let countBytes : List Nat := countBytesOf e v tag_count
  let offset_size := v.offset_bytesize
  let extra_data_offset :=
    (startPos + countBytes.length) + v.tag_size * tag_count + offset_size
  let tagsOut := encodeTags e v extra_data_offset ifd 0
  let nextField : List Nat :=
    if last_ifd then v.writeOffsetBytes e 0
    else
      let current_pos := startPos + countBytes.length + v.tag_size * tag_count
      v.writeOffsetBytes e (current_pos + tagsOut.2.length + offset_size)
  countBytes ++ tagsOut.1 ++ nextField ++ tagsOut.2

/-- The IFD loop of `Tiff::encode`: writes each IFD at the running
stream position, marking the last one. -/
def encodeIfds (e : Endian) (v : TiffVariant) : List Ifd → Nat → List Nat
  | [], _ => []
  | [ifd], pos => Ifd.encode ifd e v pos true
  | ifd :: rest, pos =>
    let b := Ifd.encode ifd e v pos false
    b ++ encodeIfds e v rest (pos + b.length)

/-- Header bytes of `Tiff::encode`: magic, version marker, the BigTIFF
extension when applicable, and the first-IFD offset (8 / 16). -/
def Tiff.headerBytes (t : Tiff) : List Nat :=
  let magic : List Nat :=
    match t.endian with
    | .Little => [0x49, 0x49]
    | .Big => [0x4D, 0x4D]
  let marker : List Nat :=
    match t.variant with
    | .Normal => t.endian.encodeUint 2 0x002A
    | .Big => t.endian.encodeUint 2 0x002B
  let ext : List Nat :=
    match t.variant with
    | .Normal => []
    | .Big => t.endian.encodeUint 2 0x0008 ++ t.endian.encodeUint 2 0x0000
  let firstIfd : List Nat :=
    match t.variant with
    | .Normal => t.endian.encodeUint 4 8
    | .Big => t.endian.encodeUint 8 16
  magic ++ marker ++ ext ++ firstIfd

/-- `Tiff::encode`: header followed by the chained IFDs. -/
def Tiff.encode (t : Tiff) : List Nat :=
  let header := t.headerBytes
  header ++ encodeIfds t.endian t.variant t.ifds header.length

/-! ## TIFF parser (Tiff::open, Ifd::parse)

The `Read + Seek` stream becomes a byte list plus explicit positions;
`read_exact` fails (as `ReadError`, the image of the IO error) when the
requested range runs past the end of the stream. -/

/-- `stream.read_exact` of `n` bytes at absolute position `pos`. -/
def readExact (bs : List Nat) (pos n : Nat) : Except TiffError (List Nat) :=
  if pos + n ≤ bs.length then .ok ((bs.drop pos).take n) else .error .ReadError

/-- `TiffVariant::read_offset`: a `u32` (Normal) or `u64` (Big) read. -/
def readOffsetAt (bs : List Nat) (pos : Nat) (e : Endian) (v : TiffVariant) :
    Except TiffError Nat := do
  let raw ← readExact bs pos v.offset_bytesize
  pure (e.decodeBytes raw)

/-- One tag record of `Ifd::parse`: reads `code`, `datatype`, `count`
and the tag data (inline, truncated to `data_size`, or indirect at the
absolute offset read from the field).  Returns the tag and the position
just past the 12/20-byte record. -/
def parseTag (bs : List Nat) (pos : Nat) (e : Endian) (v : TiffVariant) :
    Except TiffError (Tag × Nat) := do
  let codeRaw ← readExact bs pos 2
  let code := e.decodeBytes codeRaw
  let dtRaw ← readExact bs (pos + 2) 2
  let datatype := TagType.ofU16 (e.decodeBytes dtRaw)
  let offset_size := v.offset_bytesize
  let count ← readOffsetAt bs (pos + 4) e v
  let data_size := count * datatype.size_in_bytes
  let fieldPos := pos + 4 + offset_size
  if data_size > offset_size then do
    let data_offset ← readOffsetAt bs fieldPos e v
    let data ← readExact bs data_offset (max data_size offset_size)
    pure (⟨code, datatype, count, data, e⟩, fieldPos + offset_size)
  else do
    let raw ← readExact bs fieldPos offset_size
    let data := if data_size < offset_size then raw.take data_size else raw
    pure (⟨code, datatype, count, data, e⟩, fieldPos + offset_size)

/-- The `for _ in 0..tag_count` loop of `Ifd::parse`. -/
def parseTags (bs : List Nat) (e : Endian) (v : TiffVariant) :
    Nat → Nat → Except TiffError (List Tag × Nat)
  | pos, 0 => .ok ([], pos)
  | pos, n + 1 => do
    let (tag, pos') ← parseTag bs pos e v
    let (rest, pos'') ← parseTags bs e v pos' n
    pure (tag :: rest, pos'')

/-- The tag-count read at the start of `Ifd::parse`: a `u16` read for
Normal, a `u64` read for BigTIFF.  Returns the count and the position
just past it. -/
def readTagCount (bs : List Nat) (offset : Nat) (e : Endian) (v : TiffVariant) :
    Except TiffError (Nat × Nat) :=
  match v with
  | TiffVariant.Normal => do
      let raw ← readExact bs offset 2
      pure (e.decodeBytes raw, offset + 2)
  | TiffVariant.Big => do
      let raw ← readExact bs offset 8
      pure (e.decodeBytes raw, offset + 8)

/-- `Ifd::parse`: seek to `offset`, read the tag count, the tag records
and the next-IFD offset. -/
def Ifd.parse (bs : List Nat) (offset : Nat) (e : Endian) (v : TiffVariant) :
    Except TiffError (Ifd × Nat) := do
  let (tag_count, pos0) ← readTagCount bs offset e v
  let (tags, pos1) ← parseTags bs e v pos0 tag_count
  let next ← readOffsetAt bs pos1 e v
  pure (tags, next)

/-- The `while ifd_offset != 0` loop of `Tiff::open`.  The Rust loop can
run forever on cyclic offset chains, so the model carries fuel; fuel
exhaustion is reported as `ReadError` and is unreachable on encoder
output (fuel is chosen larger than the byte count, and every encoded
IFD occupies at least one byte). -/
def parseIfds (bs : List Nat) (e : Endian) (v : TiffVariant) :
    Nat → Nat → Except TiffError (List Ifd)
  | _, 0 => .error .ReadError
  | offset, fuel + 1 =>
    if offset = 0 then .ok []
    else do
      let (ifd, next) ← Ifd.parse bs offset e v
      let rest ← parseIfds bs e v next fuel
      pure (ifd :: rest)

/-- The endian selection of `Tiff::open`: `b"II"` is little, `b"MM"`
big, anything else `BadMagicBytes`. -/
def openHeaderEndian (buf : List Nat) : Except TiffError Endian :=
  match buf.take 2 with
  | [0x49, 0x49] => .ok .Little
  | [0x4D, 0x4D] => .ok .Big
  | _ => .error .BadMagicBytes

/-- The variant selection of `Tiff::open`: the version marker bytes are
matched as `b"\0*" | b"*\0"` (Normal) and `b"\0+" | b"+\0"` (BigTIFF),
i.e. in either byte order, anything else `BadMagicBytes`. -/
def openHeaderVariant (buf : List Nat) : Except TiffError TiffVariant :=
  match buf.drop 2 with
  | [0x00, 0x2A] => .ok .Normal
  | [0x2A, 0x00] => .ok .Normal
  | [0x00, 0x2B] => .ok .Big
  | [0x2B, 0x00] => .ok .Big
  | _ => .error .BadMagicBytes

/-- `Tiff::open`: magic bytes, version marker, the BigTIFF header
extension, then the IFD chain.  Each `match` mirrors one `?` early
return of the Rust function. -/
def Tiff.open (bs : List Nat) : Except TiffError Tiff :=
  match readExact bs 0 4 with
  | .error err => .error err
  | .ok buf =>
    match openHeaderEndian buf with
    | .error err => .error err
    | .ok endian =>
      match openHeaderVariant buf with
      | .error err => .error err
      | .ok variant =>
        let posResult : Except TiffError Nat :=
          match variant with
          | .Normal => .ok 4
          | .Big =>
            match readExact bs 4 2 with
            | .error err => .error err
            | .ok _ =>
              match readExact bs 6 2 with
              | .error err => .error err
              | .ok _ => .ok 8
        match posResult with
        | .error err => .error err
        | .ok pos =>
          match readOffsetAt bs pos endian variant with
          | .error err => .error err
          | .ok ifd_offset =>
            match parseIfds bs endian variant ifd_offset (bs.length + 1) with
            | .error err => .error err
            | .ok ifds => .ok ⟨endian, variant, ifds⟩

/-! ## Round-trip proof machinery (claim C1)

`SliceAt bs pos m` says that the byte list `m` appears in `bs` at
absolute position `pos`; every stream read in the parser is discharged
through it. -/

/-- `m` occupies positions `pos ..< pos + m.length` of `bs`. -/
def SliceAt (bs : List Nat) (pos : Nat) (m : List Nat) : Prop :=
  (bs.drop pos).take m.length = m ∧ pos + m.length ≤ bs.length

theorem readExact_of_sliceAt {bs : List Nat} {pos : Nat} {m : List Nat}
    (h : SliceAt bs pos m) : readExact bs pos m.length = .ok m := by
  simp [readExact, h.2, h.1]

theorem sliceAt_nil {bs : List Nat} {pos : Nat} (h : pos ≤ bs.length) :
    SliceAt bs pos [] := by
  simp [SliceAt, h]

theorem sliceAt_append {bs : List Nat} {pos : Nat} {m1 m2 : List Nat}
    (h : SliceAt bs pos (m1 ++ m2)) :
    SliceAt bs pos m1 ∧ SliceAt bs (pos + m1.length) m2 := by
  obtain ⟨htake, hlen⟩ := h
  simp only [List.length_append] at hlen
  have hd : bs.length - pos ≥ m1.length + m2.length := by omega
  have hsplit : (bs.drop pos).take (m1.length + m2.length) =
      (bs.drop pos).take m1.length ++ ((bs.drop pos).drop m1.length).take m2.length := by
    rw [List.take_add]
  rw [List.length_append, hsplit] at htake
  have hlen1 : ((bs.drop pos).take m1.length).length = m1.length := by
    rw [List.length_take, List.length_drop]
    omega
  have heq := List.append_inj htake (by rw [hlen1])
  obtain ⟨h1, h2⟩ := heq
  refine ⟨⟨h1, by omega⟩, ?_, by omega⟩
  rw [List.drop_drop] at h2
  exact h2

theorem sliceAt_prefix (pre m post : List Nat) :
    SliceAt (pre ++ (m ++ post)) pre.length m := by
  constructor
  · rw [List.drop_left, List.take_left]
  · simp only [List.length_append]
    omega

theorem sliceAt_self (pre m : List Nat) : SliceAt (pre ++ m) pre.length m := by
  have h := sliceAt_prefix pre m []
  simpa using h

/-- Decoding a written offset field recovers the value when it fits the
field width. -/
theorem readOffset_of_sliceAt {bs : List Nat} {pos n : Nat} {e : Endian}
    {v : TiffVariant} (h : SliceAt bs pos (v.writeOffsetBytes e n))
    (hlt : n < 256 ^ v.offset_bytesize) :
    readOffsetAt bs pos e v = .ok n := by
  have hb : (v.writeOffsetBytes e n).length = v.offset_bytesize := by
    cases v <;> simp [TiffVariant.writeOffsetBytes, TiffVariant.offset_bytesize,
      Endian.encodeUint_length]
  have hread := readExact_of_sliceAt h
  rw [hb] at hread
  cases v <;>
    simp_all [readOffsetAt, TiffVariant.writeOffsetBytes, TiffVariant.offset_bytesize] <;>
    exact Endian.decode_encode_of_lt _ _ _ hlt

/-- A single tag is well-formed for a container of endian `e` and
variant `v`: its endian matches the container, its code fits `u16`, its
count fits the offset field, its data is the byte image of `count`
elements, and its bytes are bytes. -/
def TagValid (e : Endian) (v : TiffVariant) (tag : Tag) : Prop :=
  tag.endian = e ∧ tag.code < 2 ^ 16 ∧ tag.count < 256 ^ v.offset_bytesize ∧
  tag.data.length = tag.count * tag.datatype.size_in_bytes ∧
  ∀ b ∈ tag.data, b < 256

/-- An IFD is well-formed: its tag count fits the count field and each
tag is well-formed. -/
def IfdValid (e : Endian) (v : TiffVariant) (ifd : Ifd) : Prop :=
  ifd.length < 256 ^ v.count_size ∧ ∀ tag ∈ ifd, TagValid e v tag

/-- A `Tiff` value is valid: at least one IFD, well-formed IFDs, and an
encoding that fits the offset width of its variant (file offsets are
representable). -/
def Tiff.Valid (t : Tiff) : Prop :=
  t.ifds ≠ [] ∧ (∀ ifd ∈ t.ifds, IfdValid t.endian t.variant ifd) ∧
  t.encode.length < 256 ^ t.variant.offset_bytesize

instance (e : Endian) (v : TiffVariant) (tag : Tag) : Decidable (TagValid e v tag) := by
  unfold TagValid; infer_instance

instance (e : Endian) (v : TiffVariant) (ifd : Ifd) : Decidable (IfdValid e v ifd) := by
  unfold IfdValid; infer_instance

instance (t : Tiff) : Decidable t.Valid := by
  unfold Tiff.Valid; infer_instance

theorem tagRecordBytes_fst_length (e : Endian) (v : TiffVariant) (edo k : Nat)
    (tag : Tag) : (tagRecordBytes e v edo k tag).1.length = v.tag_size := by
  cases v <;>
    · simp only [tagRecordBytes, TiffVariant.offset_bytesize, TiffVariant.tag_size,
        TiffVariant.writeOffsetBytes]
      split <;>
        simp [Endian.encodeUint_length, List.length_take, List.length_append,
          List.length_replicate]

theorem encodeTags_fst_length (e : Endian) (v : TiffVariant) (edo : Nat)
    (tags : List Tag) (k : Nat) :
    (encodeTags e v edo tags k).1.length = v.tag_size * tags.length := by
  induction tags generalizing k with
  | nil => simp [encodeTags]
  | cons tag rest ih =>
    simp only [encodeTags, List.length_append, List.length_cons,
      tagRecordBytes_fst_length, ih]
    ring

/-- Parsing one encoded tag record recovers the tag and advances by one
record width.  `edo` is the IFD's extra-data offset; `k` the extra bytes
already appended by earlier tags. -/
theorem parseTag_roundtrip (bs : List Nat) (e : Endian) (v : TiffVariant)
    (tag : Tag) (edo k pos : Nat) (hvalid : TagValid e v tag)
    (htbl : SliceAt bs pos (tagRecordBytes e v edo k tag).1)
    (hex : tag.data.length > v.offset_bytesize →
      SliceAt bs (edo + k) tag.data ∧ edo + k < 256 ^ v.offset_bytesize) :
    parseTag bs pos e v = .ok (tag, pos + v.tag_size) := by
  obtain ⟨hend, hcode, hcount, hdata, _⟩ := hvalid
  unfold tagRecordBytes at htbl
  by_cases hind : tag.data.length > v.offset_bytesize
  · -- indirect storage
    rw [if_pos hind] at htbl
    rw [List.append_assoc, List.append_assoc] at htbl
    obtain ⟨hc, htbl1⟩ := sliceAt_append htbl
    rw [Endian.encodeUint_length] at htbl1
    obtain ⟨hdt, htbl2⟩ := sliceAt_append htbl1
    rw [Endian.encodeUint_length] at htbl2
    obtain ⟨hcnt, hfld0⟩ := sliceAt_append htbl2
    have hcntlen : (v.writeOffsetBytes e tag.count).length = v.offset_bytesize := by
      cases v <;> simp [TiffVariant.writeOffsetBytes, TiffVariant.offset_bytesize,
        Endian.encodeUint_length]
    rw [hcntlen] at hfld0
    have hfld : SliceAt bs (pos + 2 + 2 + v.offset_bytesize)
        (v.writeOffsetBytes e (edo + k)) := by
      have := hfld0
      simpa using this
    obtain ⟨hexdata, hexlt⟩ := hex hind
    unfold parseTag
    have h1 := readExact_of_sliceAt hc
    rw [Endian.encodeUint_length] at h1
    have h2 := readExact_of_sliceAt hdt
    rw [Endian.encodeUint_length] at h2
    have h2' : readExact bs (pos + 2) 2 = .ok (e.encodeUint 2 tag.datatype.toU16) := by
      simpa using h2
    have h3 : readOffsetAt bs (pos + 4) e v = .ok tag.count := by
      apply readOffset_of_sliceAt _ hcount
      simpa [Nat.add_assoc] using hcnt
    have h4 : readOffsetAt bs (pos + 4 + v.offset_bytesize) e v = .ok (edo + k) := by
      apply readOffset_of_sliceAt _ hexlt
      simpa [show pos + 2 + 2 + v.offset_bytesize = pos + 4 + v.offset_bytesize by omega]
        using hfld
    have hsz : tag.count * tag.datatype.size_in_bytes > v.offset_bytesize := by
      omega
    have hmax : max (tag.count * tag.datatype.size_in_bytes) v.offset_bytesize =
        tag.data.length := by omega
    simp only [h1, h2', h3, h4, bind, Except.bind, pure, Except.pure,
      Endian.decode_encode_of_lt e 2 tag.code hcode,
      Endian.decode_encode_of_lt e 2 tag.datatype.toU16 (TagType.toU16_lt _),
      TagType.ofU16_toU16, hsz, if_true, hmax, readExact_of_sliceAt hexdata,
      Except.ok.injEq, Prod.mk.injEq]
    constructor
    · cases tag
      simp_all
    · cases v <;> simp [TiffVariant.tag_size, TiffVariant.offset_bytesize]
  · -- inline storage
    rw [if_neg hind] at htbl
    rw [List.append_assoc, List.append_assoc] at htbl
    obtain ⟨hc, htbl1⟩ := sliceAt_append htbl
    rw [Endian.encodeUint_length] at htbl1
    obtain ⟨hdt, htbl2⟩ := sliceAt_append htbl1
    rw [Endian.encodeUint_length] at htbl2
    obtain ⟨hcnt, hfld0⟩ := sliceAt_append htbl2
    have hcntlen : (v.writeOffsetBytes e tag.count).length = v.offset_bytesize := by
      cases v <;> simp [TiffVariant.writeOffsetBytes, TiffVariant.offset_bytesize,
        Endian.encodeUint_length]
    rw [hcntlen] at hfld0
    have hfldlen : ((tag.data ++ List.replicate v.offset_bytesize 0).take
        v.offset_bytesize).length = v.offset_bytesize := by
      simp only [List.length_take, List.length_append, List.length_replicate]
      omega
    unfold parseTag
    have h1 := readExact_of_sliceAt hc
    rw [Endian.encodeUint_length] at h1
    have h2 := readExact_of_sliceAt hdt
    rw [Endian.encodeUint_length] at h2
    have h2' : readExact bs (pos + 2) 2 = .ok (e.encodeUint 2 tag.datatype.toU16) := by
      simpa using h2
    have h3 : readOffsetAt bs (pos + 4) e v = .ok tag.count := by
      apply readOffset_of_sliceAt _ hcount
      simpa [Nat.add_assoc] using hcnt
    have h5 : readExact bs (pos + 4 + v.offset_bytesize) v.offset_bytesize =
        .ok ((tag.data ++ List.replicate v.offset_bytesize 0).take v.offset_bytesize) := by
      have := readExact_of_sliceAt hfld0
      rw [hfldlen] at this
      simpa [show pos + 2 + 2 + v.offset_bytesize = pos + 4 + v.offset_bytesize by omega]
        using this
    have hsz : ¬ (tag.count * tag.datatype.size_in_bytes > v.offset_bytesize) := by
      omega
    simp only [h1, h2', h3, h5, bind, Except.bind, pure, Except.pure,
      Endian.decode_encode_of_lt e 2 tag.code hcode,
      Endian.decode_encode_of_lt e 2 tag.datatype.toU16 (TagType.toU16_lt _),
      TagType.ofU16_toU16, hsz, if_false, Except.ok.injEq, Prod.mk.injEq]
    constructor
    · have hres : (if tag.count * tag.datatype.size_in_bytes < v.offset_bytesize then
          ((tag.data ++ List.replicate v.offset_bytesize 0).take
            v.offset_bytesize).take (tag.count * tag.datatype.size_in_bytes)
        else (tag.data ++ List.replicate v.offset_bytesize 0).take v.offset_bytesize) =
          tag.data := by
        by_cases hlt : tag.count * tag.datatype.size_in_bytes < v.offset_bytesize
        · rw [if_pos hlt, List.take_take, min_eq_left (le_of_lt hlt), ← hdata,
            List.take_left]
        · rw [if_neg hlt]
          have : tag.data.length = v.offset_bytesize := by omega
          rw [← this, List.take_left]
      rw [hres]
      cases tag
      simp_all
    · cases v <;> simp [TiffVariant.tag_size, TiffVariant.offset_bytesize]

/-- The extra-data buffer appended by a tag list: the concatenation of
the payloads too large for inline storage.  (The buffer contents do not
depend on the offset bookkeeping.) -/
def extraData (v : TiffVariant) : List Tag → List Nat
  | [] => []
  | tag :: rest =>
    (if tag.data.length > v.offset_bytesize then tag.data else []) ++ extraData v rest

theorem encodeTags_snd_eq (e : Endian) (v : TiffVariant) (edo : Nat)
    (tags : List Tag) (k : Nat) :
    (encodeTags e v edo tags k).2 = extraData v tags := by
  induction tags generalizing k with
  | nil => simp [encodeTags, extraData]
  | cons tag rest ih =>
    simp only [encodeTags, extraData]
    by_cases h : tag.data.length > v.offset_bytesize <;>
      simp [tagRecordBytes, h, ih]

/-- Parsing the encoded tag table recovers the tags in order and leaves
the cursor just past the table. -/
theorem parseTags_roundtrip (bs : List Nat) (e : Endian) (v : TiffVariant)
    (edo : Nat) (tags : List Tag) : ∀ (pos k : Nat),
    (∀ tag ∈ tags, TagValid e v tag) →
    SliceAt bs pos (encodeTags e v edo tags k).1 →
    SliceAt bs (edo + k) (encodeTags e v edo tags k).2 →
    edo + k + (encodeTags e v edo tags k).2.length ≤ 256 ^ v.offset_bytesize →
    parseTags bs e v pos tags.length = .ok (tags, pos + v.tag_size * tags.length) := by
  induction tags with
  | nil =>
    intro pos k _ _ _ _
    simp [parseTags]
  | cons tag rest ih =>
    intro pos k hvalid htbl hex hbound
    simp only [encodeTags] at htbl hex hbound
    obtain ⟨htbl1, htbl2⟩ := sliceAt_append htbl
    rw [tagRecordBytes_fst_length] at htbl2
    obtain ⟨hex1, hex2⟩ := sliceAt_append hex
    rw [List.length_append] at hbound
    have htag : parseTag bs pos e v = .ok (tag, pos + v.tag_size) := by
      apply parseTag_roundtrip bs e v tag edo k pos (hvalid tag (by simp)) htbl1
      intro hind
      have hrec2 : (tagRecordBytes e v edo k tag).2 = tag.data := by
        simp [tagRecordBytes, hind]
      rw [hrec2] at hex1 hbound
      exact ⟨hex1, by omega⟩
    have hrest := ih (pos + v.tag_size) (k + (tagRecordBytes e v edo k tag).2.length)
      (fun t ht => hvalid t (by simp [ht]))
      htbl2
      (by rw [show edo + (k + (tagRecordBytes e v edo k tag).2.length) =
          edo + k + (tagRecordBytes e v edo k tag).2.length by omega]; exact hex2)
      (by omega)
    simp only [List.length_cons, parseTags, htag, hrest, bind, Except.bind, pure,
      Except.pure, Except.ok.injEq, Prod.mk.injEq, true_and, and_true]
    ring

theorem countBytesOf_length (e : Endian) (v : TiffVariant) (n : Nat) :
    (countBytesOf e v n).length = v.count_size := by
  cases v <;> simp [countBytesOf, TiffVariant.count_size, Endian.encodeUint_length]

theorem readTagCount_roundtrip (bs : List Nat) (e : Endian) (v : TiffVariant)
    (offset n : Nat) (hslice : SliceAt bs offset (countBytesOf e v n))
    (hn : n < 256 ^ v.count_size) :
    readTagCount bs offset e v = .ok (n, offset + v.count_size) := by
  cases v
  case Normal =>
    simp only [countBytesOf] at hslice
    have h := readExact_of_sliceAt hslice
    rw [Endian.encodeUint_length] at h
    have hd : e.decodeBytes (e.encodeUint 2 n) = n :=
      Endian.decode_encode_of_lt e 2 n (by
        simpa [TiffVariant.count_size] using hn)
    simp [readTagCount, h, bind, Except.bind, pure, Except.pure, hd,
      TiffVariant.count_size]
  case Big =>
    simp only [countBytesOf] at hslice
    have h := readExact_of_sliceAt hslice
    rw [Endian.encodeUint_length] at h
    have hd : e.decodeBytes (e.encodeUint 8 n) = n :=
      Endian.decode_encode_of_lt e 8 n (by
        simpa [TiffVariant.count_size] using hn)
    simp [readTagCount, h, bind, Except.bind, pure, Except.pure, hd,
      TiffVariant.count_size]

theorem Ifd.encode_length (ifd : Ifd) (e : Endian) (v : TiffVariant)
    (pos : Nat) (last : Bool) :
    (Ifd.encode ifd e v pos last).length =
      v.count_size + v.tag_size * ifd.length + v.offset_bytesize +
        (extraData v ifd).length := by
  have hfld : ∀ n : Nat, (v.writeOffsetBytes e n).length = v.offset_bytesize := by
    intro n
    cases v <;> simp [TiffVariant.writeOffsetBytes, TiffVariant.offset_bytesize,
      Endian.encodeUint_length]
  simp only [Ifd.encode, List.length_append, countBytesOf_length,
    encodeTags_fst_length, encodeTags_snd_eq]
  by_cases h : last <;> simp [h, hfld]

/-- Parsing an encoded IFD at its position recovers the tags and the
next-IFD offset (zero for the last IFD, else the position just past this
IFD's bytes, where the next IFD begins). -/
theorem ifd_parse_roundtrip (bs : List Nat) (e : Endian) (v : TiffVariant)
    (ifd : Ifd) (pos : Nat) (last : Bool)
    (hvalid : IfdValid e v ifd)
    (hslice : SliceAt bs pos (Ifd.encode ifd e v pos last))
    (hb1 : pos + (Ifd.encode ifd e v pos last).length ≤ 256 ^ v.offset_bytesize)
    (hb2 : last = false →
      pos + (Ifd.encode ifd e v pos last).length < 256 ^ v.offset_bytesize) :
    Ifd.parse bs pos e v =
      .ok (ifd, if last then 0
        else pos + (Ifd.encode ifd e v pos last).length) := by
  obtain ⟨hcount, htags⟩ := hvalid
  have hofflt : 0 < 256 ^ v.offset_bytesize := by positivity
  have hlen := Ifd.encode_length ifd e v pos last
  have hfldlen : ∀ n : Nat, (v.writeOffsetBytes e n).length = v.offset_bytesize := by
    intro n
    cases v <;> simp [TiffVariant.writeOffsetBytes, TiffVariant.offset_bytesize,
      Endian.encodeUint_length]
  -- decompose the encoded IFD into its four regions
  unfold Ifd.encode at hslice
  simp only at hslice
  rw [List.append_assoc, List.append_assoc] at hslice
  obtain ⟨hs1, hrest1⟩ := sliceAt_append hslice
  rw [countBytesOf_length] at hrest1
  obtain ⟨hs2, hrest2⟩ := sliceAt_append hrest1
  rw [encodeTags_fst_length] at hrest2
  obtain ⟨hs3, hs4⟩ := sliceAt_append hrest2
  rw [apply_ite List.length, hfldlen, hfldlen, ite_self] at hs4
  -- parse back the tag table
  have hparse := parseTags_roundtrip bs e v
    (pos + v.count_size + v.tag_size * ifd.length + v.offset_bytesize) ifd
    (pos + v.count_size) 0 htags hs2
    (by simpa using hs4)
    (by rw [Nat.add_zero, encodeTags_snd_eq]; omega)
  have hread := readTagCount_roundtrip bs e v pos ifd.length hs1 hcount
  have hnext : readOffsetAt bs (pos + v.count_size + v.tag_size * ifd.length) e v =
      .ok (if last then 0 else pos + (Ifd.encode ifd e v pos last).length) := by
    by_cases h : last
    · subst h
      rw [if_pos rfl] at hs3 ⊢
      exact readOffset_of_sliceAt hs3 hofflt
    · have hX : pos + v.count_size + v.tag_size * ifd.length +
          (encodeTags e v
            (pos + v.count_size + v.tag_size * ifd.length + v.offset_bytesize)
            ifd 0).2.length + v.offset_bytesize =
          pos + (Ifd.encode ifd e v pos last).length := by
        rw [hlen, encodeTags_snd_eq]
        omega
      rw [if_neg (by simpa using h)] at hs3
      rw [if_neg h]
      rw [hX] at hs3
      exact readOffset_of_sliceAt hs3 (hb2 (by simpa using h))
  unfold Ifd.parse
  simp only [hread, hparse, hnext, bind, Except.bind, pure, Except.pure]

theorem encodeIfds_length_ge (e : Endian) (v : TiffVariant) (ifds : List Ifd) :
    ∀ pos : Nat, ifds.length ≤ (encodeIfds e v ifds pos).length := by
  induction ifds with
  | nil => intro pos; simp [encodeIfds]
  | cons ifd rest ih =>
    intro pos
    have hone : ∀ (p : Nat) (b : Bool), 1 ≤ (Ifd.encode ifd e v p b).length := by
      intro p b
      rw [Ifd.encode_length]
      have : 2 ≤ v.count_size := by cases v <;> simp [TiffVariant.count_size]
      omega
    cases rest with
    | nil => simpa [encodeIfds] using hone pos true
    | cons r rs =>
      have := ih (pos + (Ifd.encode ifd e v pos false).length)
      simp only [encodeIfds, List.length_append, List.length_cons] at *
      have h1 := hone pos false
      omega

/-- Parsing the encoded IFD chain at its start position recovers the
IFD list, for any sufficient fuel. -/
theorem parseIfds_roundtrip (bs : List Nat) (e : Endian) (v : TiffVariant)
    (ifds : List Ifd) :
    ∀ (pos fuel : Nat), ifds ≠ [] → 0 < pos →
    (∀ ifd ∈ ifds, IfdValid e v ifd) →
    SliceAt bs pos (encodeIfds e v ifds pos) →
    pos + (encodeIfds e v ifds pos).length ≤ 256 ^ v.offset_bytesize →
    ifds.length < fuel →
    parseIfds bs e v pos fuel = .ok ifds := by
  induction ifds with
  | nil => intro pos fuel hne; exact absurd rfl hne
  | cons ifd rest ih =>
    intro pos fuel _ hpos hvalid hslice hbound hfuel
    obtain ⟨f, rfl⟩ : ∃ f, fuel = f + 1 := by
      cases fuel with
      | zero => omega
      | succ f => exact ⟨f, rfl⟩
    cases rest with
    | nil =>
      simp only [encodeIfds] at hslice hbound
      have hparse := ifd_parse_roundtrip bs e v ifd pos true (hvalid ifd (by simp))
        hslice hbound (by simp)
      have hf : 0 < f := by simpa using hfuel
      obtain ⟨f', rfl⟩ : ∃ f', f = f' + 1 := by
        cases f with
        | zero => omega
        | succ f' => exact ⟨f', rfl⟩
      simp [parseIfds, Nat.pos_iff_ne_zero.mp hpos, hparse, bind, Except.bind,
        pure, Except.pure]
    | cons r rs =>
      have hchain : encodeIfds e v (ifd :: r :: rs) pos =
          Ifd.encode ifd e v pos false ++
            encodeIfds e v (r :: rs) (pos + (Ifd.encode ifd e v pos false).length) :=
        rfl
      rw [hchain] at hslice hbound
      obtain ⟨hs1, hs2⟩ := sliceAt_append hslice
      rw [List.length_append] at hbound
      have hrestlen := encodeIfds_length_ge e v (r :: rs)
        (pos + (Ifd.encode ifd e v pos false).length)
      have hparse := ifd_parse_roundtrip bs e v ifd pos false (hvalid ifd (by simp))
        hs1 (by simp only [List.length_cons] at hrestlen; omega)
        (fun _ => by simp only [List.length_cons] at hrestlen; omega)
      have hrest := ih (pos + (Ifd.encode ifd e v pos false).length) f
        (by simp) (by omega)
        (fun i hi => hvalid i (by simp [hi]))
        hs2 (by omega) (by simpa using hfuel)
      simp [parseIfds, Nat.pos_iff_ne_zero.mp hpos, hparse, hrest, bind,
        Except.bind, pure, Except.pure]

theorem sliceAt_zero (m rest : List Nat) : SliceAt (m ++ rest) 0 m := by
  simpa using sliceAt_prefix [] m rest

/-- The IFD chain of an encoded valid TIFF parses back, at the position
right after the header, with the fuel `Tiff.open` supplies. -/
theorem tiff_encode_chain_parses (t : Tiff) (hne : t.ifds ≠ [])
    (hvalid : ∀ ifd ∈ t.ifds, IfdValid t.endian t.variant ifd)
    (hbound : t.encode.length < 256 ^ t.variant.offset_bytesize) :
    parseIfds t.encode t.endian t.variant t.headerBytes.length
      (t.encode.length + 1) = .ok t.ifds := by
  have hhdrpos : 0 < t.headerBytes.length := by
    obtain ⟨e, v, ifds⟩ := t
    cases e <;> cases v <;> simp [Tiff.headerBytes, Endian.encodeUint_length]
  have hslice : SliceAt t.encode t.headerBytes.length
      (encodeIfds t.endian t.variant t.ifds t.headerBytes.length) := by
    rw [Tiff.encode]
    exact sliceAt_self _ _
  have hlen : t.encode.length =
      t.headerBytes.length +
        (encodeIfds t.endian t.variant t.ifds t.headerBytes.length).length := by
    rw [Tiff.encode, List.length_append]
  have hge := encodeIfds_length_ge t.endian t.variant t.ifds t.headerBytes.length
  exact parseIfds_roundtrip t.encode t.endian t.variant t.ifds
    t.headerBytes.length (t.encode.length + 1) hne hhdrpos hvalid hslice
    (by omega) (by omega)

/-- C1.  For every valid `Tiff` value, encoding with `Tiff::encode` and
re-parsing the produced bytes with `Tiff::open` recovers the `Tiff`
exactly: same endian, same variant, the same number of IFDs, and at
every tag position a tag with equal code, datatype, count, raw data and
endian (hence equal decoded values). -/
theorem tiff_roundtrip (t : Tiff) (h : t.Valid) : Tiff.open t.encode = .ok t := by
  obtain ⟨hne, hvalid, hbound⟩ := h
  have hchain := tiff_encode_chain_parses t hne hvalid hbound
  obtain ⟨e, v, ifds⟩ := t
  cases e <;> cases v
  case Little.Normal =>
    have hm1 : Endian.Little.encodeUint 2 0x2A = [0x2A, 0x00] := by decide
    have hm2 : Endian.Little.encodeUint 4 8 = [8, 0, 0, 0] := by decide
    have hsplit : Tiff.encode ⟨.Little, .Normal, ifds⟩ =
        [0x49, 0x49, 0x2A, 0x00] ++ (Endian.Little.encodeUint 4 8 ++
          encodeIfds .Little .Normal ifds 8) := by
      simp [Tiff.encode, Tiff.headerBytes, hm1, hm2]
    have hhdrlen : (Tiff.headerBytes ⟨.Little, .Normal, ifds⟩).length = 8 := by
      simp [Tiff.headerBytes, hm1, hm2]
    have hs1 : SliceAt (Tiff.encode ⟨.Little, .Normal, ifds⟩) 0
        [0x49, 0x49, 0x2A, 0x00] := by
      rw [hsplit]; exact sliceAt_zero _ _
    have h1 : readExact (Tiff.encode ⟨.Little, .Normal, ifds⟩) 0 4 =
        .ok [0x49, 0x49, 0x2A, 0x00] := by
      have h0 := readExact_of_sliceAt hs1
      simpa using h0
    have hs2 : SliceAt (Tiff.encode ⟨.Little, .Normal, ifds⟩) 4
        (TiffVariant.Normal.writeOffsetBytes Endian.Little 8) := by
      rw [hsplit]
      exact sliceAt_prefix [0x49, 0x49, 0x2A, 0x00] _ _
    have h2 : readOffsetAt (Tiff.encode ⟨.Little, .Normal, ifds⟩) 4
        Endian.Little TiffVariant.Normal = .ok 8 :=
      readOffset_of_sliceAt hs2 (by norm_num [TiffVariant.offset_bytesize])
    rw [hhdrlen] at hchain
    unfold Tiff.open
    simp [h1, h2, hchain, openHeaderEndian, openHeaderVariant]
  case Little.Big =>
    have hm1 : Endian.Little.encodeUint 2 0x2B = [0x2B, 0x00] := by decide
    have hm2 : Endian.Little.encodeUint 2 0x0008 = [8, 0] := by decide
    have hm3 : Endian.Little.encodeUint 2 0x0000 = [0, 0] := by decide
    have hm4 : Endian.Little.encodeUint 8 16 = [16, 0, 0, 0, 0, 0, 0, 0] := by decide
    have hsplit : Tiff.encode ⟨.Little, .Big, ifds⟩ =
        [0x49, 0x49, 0x2B, 0x00] ++ ([8, 0] ++ ([0, 0] ++
          (Endian.Little.encodeUint 8 16 ++ encodeIfds .Little .Big ifds 16))) := by
      simp [Tiff.encode, Tiff.headerBytes, hm1, hm2, hm3, hm4]
    have hhdrlen : (Tiff.headerBytes ⟨.Little, .Big, ifds⟩).length = 16 := by
      simp [Tiff.headerBytes, hm1, hm2, hm3, hm4]
    have hs1 : SliceAt (Tiff.encode ⟨.Little, .Big, ifds⟩) 0
        [0x49, 0x49, 0x2B, 0x00] := by
      rw [hsplit]; exact sliceAt_zero _ _
    have h1 : readExact (Tiff.encode ⟨.Little, .Big, ifds⟩) 0 4 =
        .ok [0x49, 0x49, 0x2B, 0x00] := by
      have h0 := readExact_of_sliceAt hs1
      simpa using h0
    have hsa : SliceAt (Tiff.encode ⟨.Little, .Big, ifds⟩) 4 [8, 0] := by
      rw [hsplit]
      exact sliceAt_prefix [0x49, 0x49, 0x2B, 0x00] _ _
    have h1a : readExact (Tiff.encode ⟨.Little, .Big, ifds⟩) 4 2 = .ok [8, 0] := by
      have h0 := readExact_of_sliceAt hsa
      simpa using h0
    have hres6 : Tiff.encode ⟨.Little, .Big, ifds⟩ =
        [0x49, 0x49, 0x2B, 0x00, 8, 0] ++ ([0, 0] ++
          (Endian.Little.encodeUint 8 16 ++ encodeIfds .Little .Big ifds 16)) := by
      rw [hsplit]; simp
    have hsb : SliceAt (Tiff.encode ⟨.Little, .Big, ifds⟩) 6 [0, 0] := by
      rw [hres6]
      exact sliceAt_prefix [0x49, 0x49, 0x2B, 0x00, 8, 0] _ _
    have h1b : readExact (Tiff.encode ⟨.Little, .Big, ifds⟩) 6 2 = .ok [0, 0] := by
      have h0 := readExact_of_sliceAt hsb
      simpa using h0
    have hres8 : Tiff.encode ⟨.Little, .Big, ifds⟩ =
        [0x49, 0x49, 0x2B, 0x00, 8, 0, 0, 0] ++
          (Endian.Little.encodeUint 8 16 ++ encodeIfds .Little .Big ifds 16) := by
      rw [hsplit]; simp
    have hs2 : SliceAt (Tiff.encode ⟨.Little, .Big, ifds⟩) 8
        (TiffVariant.Big.writeOffsetBytes Endian.Little 16) := by
      rw [hres8]
      exact sliceAt_prefix [0x49, 0x49, 0x2B, 0x00, 8, 0, 0, 0] _ _
    have h2 : readOffsetAt (Tiff.encode ⟨.Little, .Big, ifds⟩) 8
        Endian.Little TiffVariant.Big = .ok 16 :=
      readOffset_of_sliceAt hs2 (by norm_num [TiffVariant.offset_bytesize])
    rw [hhdrlen] at hchain
    unfold Tiff.open
    simp [h1, h1a, h1b, h2, hchain, openHeaderEndian, openHeaderVariant]
  case Big.Normal =>
    have hm1 : Endian.Big.encodeUint 2 0x2A = [0x00, 0x2A] := by decide
    have hm2 : Endian.Big.encodeUint 4 8 = [0, 0, 0, 8] := by decide
    have hsplit : Tiff.encode ⟨.Big, .Normal, ifds⟩ =
        [0x4D, 0x4D, 0x00, 0x2A] ++ (Endian.Big.encodeUint 4 8 ++
          encodeIfds .Big .Normal ifds 8) := by
      simp [Tiff.encode, Tiff.headerBytes, hm1, hm2]
    have hhdrlen : (Tiff.headerBytes ⟨.Big, .Normal, ifds⟩).length = 8 := by
      simp [Tiff.headerBytes, hm1, hm2]
    have hs1 : SliceAt (Tiff.encode ⟨.Big, .Normal, ifds⟩) 0
        [0x4D, 0x4D, 0x00, 0x2A] := by
      rw [hsplit]; exact sliceAt_zero _ _
    have h1 : readExact (Tiff.encode ⟨.Big, .Normal, ifds⟩) 0 4 =
        .ok [0x4D, 0x4D, 0x00, 0x2A] := by
      have h0 := readExact_of_sliceAt hs1
      simpa using h0
    have hs2 : SliceAt (Tiff.encode ⟨.Big, .Normal, ifds⟩) 4
        (TiffVariant.Normal.writeOffsetBytes Endian.Big 8) := by
      rw [hsplit]
      exact sliceAt_prefix [0x4D, 0x4D, 0x00, 0x2A] _ _
    have h2 : readOffsetAt (Tiff.encode ⟨.Big, .Normal, ifds⟩) 4
        Endian.Big TiffVariant.Normal = .ok 8 :=
      readOffset_of_sliceAt hs2 (by norm_num [TiffVariant.offset_bytesize])
    rw [hhdrlen] at hchain
    unfold Tiff.open
    simp [h1, h2, hchain, openHeaderEndian, openHeaderVariant]
  case Big.Big =>
    have hm1 : Endian.Big.encodeUint 2 0x2B = [0x00, 0x2B] := by decide
    have hm2 : Endian.Big.encodeUint 2 0x0008 = [0, 8] := by decide
    have hm3 : Endian.Big.encodeUint 2 0x0000 = [0, 0] := by decide
    have hm4 : Endian.Big.encodeUint 8 16 = [0, 0, 0, 0, 0, 0, 0, 16] := by decide
    have hsplit : Tiff.encode ⟨.Big, .Big, ifds⟩ =
        [0x4D, 0x4D, 0x00, 0x2B] ++ ([0, 8] ++ ([0, 0] ++
          (Endian.Big.encodeUint 8 16 ++ encodeIfds .Big .Big ifds 16))) := by
      simp [Tiff.encode, Tiff.headerBytes, hm1, hm2, hm3, hm4]
    have hhdrlen : (Tiff.headerBytes ⟨.Big, .Big, ifds⟩).length = 16 := by
      simp [Tiff.headerBytes, hm1, hm2, hm3, hm4]
    have hs1 : SliceAt (Tiff.encode ⟨.Big, .Big, ifds⟩) 0
        [0x4D, 0x4D, 0x00, 0x2B] := by
      rw [hsplit]; exact sliceAt_zero _ _
    have h1 : readExact (Tiff.encode ⟨.Big, .Big, ifds⟩) 0 4 =
        .ok [0x4D, 0x4D, 0x00, 0x2B] := by
      have h0 := readExact_of_sliceAt hs1
      simpa using h0
    have hsa : SliceAt (Tiff.encode ⟨.Big, .Big, ifds⟩) 4 [0, 8] := by
      rw [hsplit]
      exact sliceAt_prefix [0x4D, 0x4D, 0x00, 0x2B] _ _
    have h1a : readExact (Tiff.encode ⟨.Big, .Big, ifds⟩) 4 2 = .ok [0, 8] := by
      have h0 := readExact_of_sliceAt hsa
      simpa using h0
    have hres6 : Tiff.encode ⟨.Big, .Big, ifds⟩ =
        [0x4D, 0x4D, 0x00, 0x2B, 0, 8] ++ ([0, 0] ++
          (Endian.Big.encodeUint 8 16 ++ encodeIfds .Big .Big ifds 16)) := by
      rw [hsplit]; simp
    have hsb : SliceAt (Tiff.encode ⟨.Big, .Big, ifds⟩) 6 [0, 0] := by
      rw [hres6]
      exact sliceAt_prefix [0x4D, 0x4D, 0x00, 0x2B, 0, 8] _ _
    have h1b : readExact (Tiff.encode ⟨.Big, .Big, ifds⟩) 6 2 = .ok [0, 0] := by
      have h0 := readExact_of_sliceAt hsb
      simpa using h0
    have hres8 : Tiff.encode ⟨.Big, .Big, ifds⟩ =
        [0x4D, 0x4D, 0x00, 0x2B, 0, 8, 0, 0] ++
          (Endian.Big.encodeUint 8 16 ++ encodeIfds .Big .Big ifds 16) := by
      rw [hsplit]; simp
    have hs2 : SliceAt (Tiff.encode ⟨.Big, .Big, ifds⟩) 8
        (TiffVariant.Big.writeOffsetBytes Endian.Big 16) := by
      rw [hres8]
      exact sliceAt_prefix [0x4D, 0x4D, 0x00, 0x2B, 0, 8, 0, 0] _ _
    have h2 : readOffsetAt (Tiff.encode ⟨.Big, .Big, ifds⟩) 8
        Endian.Big TiffVariant.Big = .ok 16 :=
      readOffset_of_sliceAt hs2 (by norm_num [TiffVariant.offset_bytesize])
    rw [hhdrlen] at hchain
    unfold Tiff.open
    simp [h1, h1a, h1b, h2, hchain, openHeaderEndian, openHeaderVariant]

/-- A concrete valid TIFF (two IFDs, one tag with indirect data) used to
witness the round-trip theorem. -/
def tiffWitnessValue : Tiff :=
  ⟨.Little, .Normal,
    [[⟨256, .Long, 1, Endian.Little.encodeUint 4 512, .Little⟩,
      ⟨258, .Short, 3, [8, 0, 8, 0, 8, 0], .Little⟩],
     [⟨300, .Byte, 6, [1, 2, 3, 4, 5, 6], .Little⟩]]⟩

/-- Witness for C1 at a concrete two-IFD little-endian TIFF. -/
theorem tiff_roundtrip_witness :
    tiffWitnessValue.Valid ∧
      Tiff.open tiffWitnessValue.encode = .ok tiffWitnessValue :=
  ⟨by decide, tiff_roundtrip tiffWitnessValue (by decide)⟩

/-! ## Claim C3: header acceptance of `Tiff::open`

The parser rejects non-`II`/`MM` leaders and unrecognized version
markers with `BadMagicBytes`, but it matches the version marker bytes
`\\0*`, `*\\0`, `\\0+`, `+\\0` without regard to the endianness declared
by the leader. -/

/-- The set of four-byte headers `Tiff::open` gets past without
`BadMagicBytes`: an `II`/`MM` leader and a version marker that is
`0x2A`/`0x2B` in either byte order. -/
def headerAccepted (bs : List Nat) : Prop :=
  (bs.take 2 = [0x49, 0x49] ∨ bs.take 2 = [0x4D, 0x4D]) ∧
  ((bs.drop 2).take 2 = [0x00, 0x2A] ∨ (bs.drop 2).take 2 = [0x2A, 0x00] ∨
    (bs.drop 2).take 2 = [0x00, 0x2B] ∨ (bs.drop 2).take 2 = [0x2B, 0x00])

instance (bs : List Nat) : Decidable (headerAccepted bs) := by
  unfold headerAccepted; infer_instance

theorem readExact_error_eq (bs : List Nat) (pos n : Nat) (err : TiffError)
    (h : readExact bs pos n = .error err) : err = .ReadError := by
  unfold readExact at h
  split at h <;> simp_all

theorem readOffsetAt_error_eq (bs : List Nat) (pos : Nat) (e : Endian)
    (v : TiffVariant) (err : TiffError)
    (h : readOffsetAt bs pos e v = .error err) : err = .ReadError := by
  unfold readOffsetAt at h
  simp only [bind, Except.bind, pure, Except.pure] at h
  split at h
  · rename_i e2 heq
    cases h
    exact readExact_error_eq _ _ _ _ heq
  · cases h

theorem parseTag_error_eq (bs : List Nat) (pos : Nat) (e : Endian)
    (v : TiffVariant) (err : TiffError)
    (h : parseTag bs pos e v = .error err) : err = .ReadError := by
  unfold parseTag at h
  simp only [bind, Except.bind, pure, Except.pure] at h
  split at h
  · rename_i e2 heq
    cases h
    exact readExact_error_eq _ _ _ _ heq
  rename_i raw1 _
  split at h
  · rename_i e2 heq
    cases h
    exact readExact_error_eq _ _ _ _ heq
  rename_i raw2 _
  split at h
  · rename_i e2 heq
    cases h
    exact readOffsetAt_error_eq _ _ _ _ _ heq
  rename_i cnt _
  split at h
  · split at h
    · rename_i e2 heq
      cases h
      exact readOffsetAt_error_eq _ _ _ _ _ heq
    rename_i doff _
    split at h
    · rename_i e2 heq
      cases h
      exact readExact_error_eq _ _ _ _ heq
    · cases h
  · split at h
    · rename_i e2 heq
      cases h
      exact readExact_error_eq _ _ _ _ heq
    · cases h

theorem parseTags_error_eq (bs : List Nat) (e : Endian) (v : TiffVariant) :
    ∀ (n pos : Nat) (err : TiffError),
    parseTags bs e v pos n = .error err → err = .ReadError := by
  intro n
  induction n with
  | zero => intro pos err h; simp [parseTags] at h
  | succ n ih =>
    intro pos err h
    simp only [parseTags, bind, Except.bind, pure, Except.pure] at h
    split at h
    · rename_i e2 heq
      cases h
      exact parseTag_error_eq _ _ _ _ _ heq
    rename_i p1 _
    split at h
    · rename_i e2 heq
      cases h
      exact ih _ _ heq
    · cases h

theorem readTagCount_error_eq (bs : List Nat) (offset : Nat) (e : Endian)
    (v : TiffVariant) (err : TiffError)
    (h : readTagCount bs offset e v = .error err) : err = .ReadError := by
  unfold readTagCount at h
  cases v <;>
    · simp only [bind, Except.bind, pure, Except.pure] at h
      split at h
      · rename_i e2 heq
        cases h
        exact readExact_error_eq _ _ _ _ heq
      · cases h

theorem ifd_parse_error_eq (bs : List Nat) (offset : Nat) (e : Endian)
    (v : TiffVariant) (err : TiffError)
    (h : Ifd.parse bs offset e v = .error err) : err = .ReadError := by
  unfold Ifd.parse at h
  simp only [bind, Except.bind, pure, Except.pure] at h
  split at h
  · rename_i e2 heq
    cases h
    exact readTagCount_error_eq _ _ _ _ _ heq
  rename_i p1 _
  split at h
  · rename_i e2 heq
    cases h
    exact parseTags_error_eq _ _ _ _ _ _ heq
  rename_i p2 _
  split at h
  · rename_i e2 heq
    cases h
    exact readOffsetAt_error_eq _ _ _ _ _ heq
  · cases h

theorem parseIfds_error_eq (bs : List Nat) (e : Endian) (v : TiffVariant) :
    ∀ (fuel offset : Nat) (err : TiffError),
    parseIfds bs e v offset fuel = .error err → err = .ReadError := by
  intro fuel
  induction fuel with
  | zero => intro offset err h; simp only [parseIfds] at h; cases h; rfl
  | succ f ih =>
    intro offset err h
    simp only [parseIfds, bind, Except.bind, pure, Except.pure] at h
    split at h
    · cases h
    split at h
    · rename_i e2 heq
      cases h
      exact ifd_parse_error_eq _ _ _ _ _ heq
    rename_i p1 _
    split at h
    · rename_i e2 heq
      cases h
      exact ih _ _ heq
    · cases h



/-- C3 (amended).  For inputs of at least the four header bytes,
`Tiff::open` returns `BadMagicBytes` exactly when the header is not one
of the accepted ones: leader `II`/`MM` and a version marker that is
`0x2A` (Normal) or `0x2B` (BigTIFF) in EITHER byte order — the marker
is matched without regard to the endianness the leader declares. -/
theorem open_badmagic_iff (bs : List Nat) (h4 : 4 ≤ bs.length) :
    Tiff.open bs = .error .BadMagicBytes ↔ ¬ headerAccepted bs := by
  have hbuf : readExact bs 0 4 = .ok (bs.take 4) := by
    unfold readExact
    rw [if_pos (by omega)]
    simp
  have htt : (bs.take 4).take 2 = bs.take 2 := by
    rw [List.take_take]
    norm_num
  have hdt : (bs.take 4).drop 2 = (bs.drop 2).take 2 := by
    rw [List.drop_take]
  unfold Tiff.open
  simp only [hbuf]
  constructor
  · intro h hAcc
    obtain ⟨hm, hv⟩ := hAcc
    obtain ⟨e, he⟩ : ∃ e, openHeaderEndian (bs.take 4) = .ok e := by
      unfold openHeaderEndian
      rw [htt]
      rcases hm with hm | hm <;> rw [hm]
      · exact ⟨.Little, rfl⟩
      · exact ⟨.Big, rfl⟩
    obtain ⟨v, hvv⟩ : ∃ v, openHeaderVariant (bs.take 4) = .ok v := by
      unfold openHeaderVariant
      rw [hdt]
      rcases hv with hv | hv | hv | hv <;> rw [hv]
      · exact ⟨.Normal, rfl⟩
      · exact ⟨.Normal, rfl⟩
      · exact ⟨.Big, rfl⟩
      · exact ⟨.Big, rfl⟩
    cases v
    case Normal =>
      simp only [he, hvv] at h
      split at h
      · rename_i e2 heq
        cases h
        exact absurd (readOffsetAt_error_eq _ _ _ _ _ heq) (by simp)
      rename_i off _
      split at h
      · rename_i e2 heq
        cases h
        exact absurd (parseIfds_error_eq _ _ _ _ _ _ heq) (by simp)
      · cases h
    case Big =>
      simp only [he, hvv] at h
      cases hr1 : readExact bs 4 2 with
      | error e2 =>
        simp only [hr1] at h
        have h1 := readExact_error_eq _ _ _ _ hr1
        simp_all
      | ok raw1 =>
        simp only [hr1] at h
        cases hr2 : readExact bs 6 2 with
        | error e3 =>
          simp only [hr2] at h
          have h1 := readExact_error_eq _ _ _ _ hr2
          simp_all
        | ok raw2 =>
          simp only [hr2] at h
          split at h
          · rename_i e2 heq
            cases h
            exact absurd (readOffsetAt_error_eq _ _ _ _ _ heq) (by simp)
          rename_i off _
          split at h
          · rename_i e2 heq
            cases h
            exact absurd (parseIfds_error_eq _ _ _ _ _ _ heq) (by simp)
          · cases h
  · intro hna
    by_cases hm : bs.take 2 = [0x49, 0x49] ∨ bs.take 2 = [0x4D, 0x4D]
    · have hv : ¬ ((bs.drop 2).take 2 = [0x00, 0x2A] ∨
          (bs.drop 2).take 2 = [0x2A, 0x00] ∨
          (bs.drop 2).take 2 = [0x00, 0x2B] ∨
          (bs.drop 2).take 2 = [0x2B, 0x00]) :=
        fun hv => hna ⟨hm, hv⟩
      have hvariant : openHeaderVariant (bs.take 4) = .error .BadMagicBytes := by
        unfold openHeaderVariant
        rw [hdt]
        split
        · exact absurd (Or.inl (by assumption)) hv
        · exact absurd (Or.inr (Or.inl (by assumption))) hv
        · exact absurd (Or.inr (Or.inr (Or.inl (by assumption)))) hv
        · exact absurd (Or.inr (Or.inr (Or.inr (by assumption)))) hv
        · rfl
      obtain ⟨e, he⟩ : ∃ e, openHeaderEndian (bs.take 4) = .ok e := by
        unfold openHeaderEndian
        rw [htt]
        rcases hm with hm | hm <;> rw [hm]
        · exact ⟨.Little, rfl⟩
        · exact ⟨.Big, rfl⟩
      simp [he, hvariant]
    · have hendian : openHeaderEndian (bs.take 4) = .error .BadMagicBytes := by
        unfold openHeaderEndian
        rw [htt]
        split
        · exact absurd (Or.inl (by assumption)) hm
        · exact absurd (Or.inr (by assumption)) hm
        · rfl
      simp [hendian]

/-! ## COG pyramid model (src/cog/level.rs, src/cog/mod.rs)

`f64` quantities are modelled as `ℚ`.  TIFF enumerations that the
claims never inspect (photometric interpretation, sample format, extra
samples) are carried as their raw `u16` codes. -/

/-- `enum Compression`: only `Uncompressed`, `Lzw` and `DeflateAdobe`
have behaviour in `decode`/`encode`; every other code falls into the
catch-all arm, modelled by `Other code`. -/
inductive Compression where
  | Uncompressed : Compression
  | Lzw : Compression
  | DeflateAdobe : Compression
  | Other : Nat → Compression
deriving DecidableEq, Repr

/-- `enum Predictor { No = 1, Horizontal = 2, FloatingPoint = 3, Unknown }`. -/
inductive Predictor where
  | No : Predictor
  | Horizontal : Predictor
  | FloatingPoint : Predictor
  | Unknown : Predictor
deriving DecidableEq, Repr

/-- `enum DecompressError` (payload details collapsed). -/
inductive DecompressError where
  | LzwDecodeError : DecompressError
  | LzwEncodeError : DecompressError
  | CompressionNotSupported : Compression → DecompressError
  | PredictorNotSupported : Predictor → DecompressError
  | IoError : DecompressError
deriving DecidableEq, Repr

/-- `enum RasterError` (payload details collapsed). -/
inductive RasterError where
  | BufferSize : RasterError
  | NotSupported : RasterError
deriving DecidableEq, Repr

/-- `enum CloudTiffError` (the constructors exercised by the claims). -/
inductive CloudTiffError where
  | BadTiff : TiffError → CloudTiffError
  | NoLevels : CloudTiffError
  | TileLevelOutOfRange : Nat → Nat → CloudTiffError
  | TileIndexOutOfRange : Nat → Nat → CloudTiffError
  | ImageCoordOutOfRange : ℚ → ℚ → CloudTiffError
  | RegionOutOfBounds : CloudTiffError
  | ReadError : CloudTiffError
  | Decompress : DecompressError → CloudTiffError
  | RasterizationError : RasterError → CloudTiffError
deriving DecidableEq, Repr

/-- A closed rational interval, modelling `Interval<UnitFloat>` /
`Interval<f64>`. -/
structure IntervalQ where
  min : ℚ
  max : ℚ
deriving DecidableEq, Repr

/-- `Region`, as a pair of intervals. -/
structure RegionQ where
  x : IntervalQ
  y : IntervalQ
deriving DecidableEq, Repr

/-- `Region::unit()`, the full `[0,1]²` crop. -/
def RegionQ.unit : RegionQ := ⟨⟨0, 1⟩, ⟨0, 1⟩⟩

/-- `struct Level` (src/cog/level.rs). -/
structure Level where
  overview : Option Nat
  dimensions : Nat × Nat
  tile_width : Nat
  tile_height : Nat
  compression : Compression
  predictor : Predictor
  interpretation : Nat
  bits_per_sample : List Nat
  sample_format : List Nat
  extra_samples : List Nat
  endian : Endian
  offsets : List Nat
  byte_counts : List Nat
deriving DecidableEq, Repr

def Level.width (l : Level) : Nat := l.dimensions.1

def Level.height (l : Level) : Nat := l.dimensions.2

/-- `Level::megapixels`. -/
def Level.megapixels (l : Level) : ℚ :=
  ((l.dimensions.1 : ℚ) * (l.dimensions.2 : ℚ)) / 1000000

/-- Models `(a as f64 / b as f64).ceil() as usize` for natural `a`, `b`:
`0/0` is `NaN` and casts to `0`; `a/0` with `a > 0` is `+inf` and
saturates to `usize::MAX`; otherwise the cast is exact (the operands,
being `u32`s, are exactly representable and the claims' hypotheses keep
the divisor nonzero). -/
def natDivCeilCast (a b : Nat) : Nat :=
  if b = 0 then (if a = 0 then 0 else 2 ^ 64 - 1)
  else (⌈(a : ℚ) / (b : ℚ)⌉).toNat

/-- `Level::col_count`. -/
def Level.col_count (l : Level) : Nat := natDivCeilCast l.width l.tile_width

/-- `Level::row_count`. -/
def Level.row_count (l : Level) : Nat := natDivCeilCast l.height l.tile_height

/-- `Level::tile_coord_from_image_coord`. -/
def Level.tile_coord_from_image_coord (l : Level) (x y : ℚ) : ℚ × ℚ :=
  (x * (l.width : ℚ) / (l.tile_width : ℚ), y * (l.height : ℚ) / (l.tile_height : ℚ))

/-- `Level::index_from_image_coords`: the tile a normalized image point
falls in plus the fractional within-tile pixel offset.  The `as usize`
casts of the (nonnegative) floors are `Int.toNat ∘ Int.floor`. -/
def Level.index_from_image_coords (l : Level) (x y : ℚ) :
    Except CloudTiffError (Nat × ℚ × ℚ) :=
  if x < 0 ∨ x > 1 ∨ y < 0 ∨ y > 1 then
    .error (.ImageCoordOutOfRange x y)
  else
    let cr := l.tile_coord_from_image_coord x y
    let col := cr.1
    let row := cr.2
    let tile_index := (⌊row⌋).toNat * l.col_count + (⌊col⌋).toNat
    let tile_x := (col - ⌊col⌋) * (l.tile_width : ℚ)
    let tile_y := (row - ⌊row⌋) * (l.tile_height : ℚ)
    .ok (tile_index, tile_x, tile_y)

/-- `Level::tile_indices_within_image_crop`: floor of the left/top tile
coordinate clamped at 0, ceiling of the right/bottom one clamped at the
column/row count, then the row-major rectangle of indices. -/
def Level.tile_indices_within_image_crop (l : Level) (crop : RegionQ) : List Nat :=
  let lt := l.tile_coord_from_image_coord crop.x.min crop.y.min
  let rb := l.tile_coord_from_image_coord crop.x.max crop.y.max
  let col_count := l.col_count
  let row_count := l.row_count
  let col_min := (max ⌊lt.1⌋ 0).toNat
  let col_max := (min ⌈rb.1⌉ (col_count : ℤ)).toNat
  let row_min := (max ⌊lt.2⌋ 0).toNat
  let row_max := (min ⌈rb.2⌉ (row_count : ℤ)).toNat
  (List.range' row_min (row_max - row_min)).flatMap (fun row =>
    (List.range' col_min (col_max - col_min)).map (fun col =>
      row * col_count + col))

/-- `Level::tile_byte_range`.  When both tile arrays are empty the Rust
code panics (`min(..) - 1` underflows in debug; the subsequent
`offsets[index]` indexes out of bounds in release), modelled as
`PanicOr.panic`. -/
def Level.tile_byte_range (l : Level) (index : Nat) :
    PanicOr (Except CloudTiffError (Nat × Nat)) :=
  if l.offsets.length.min l.byte_counts.length = 0 then .panic
  else
    let max_valid_index := l.offsets.length.min l.byte_counts.length - 1
    if index > max_valid_index then
      .ok (.error (.TileIndexOutOfRange index max_valid_index))
    else
      let offset := l.offsets.getD index 0
      let byte_count := l.byte_counts.getD index 0
      .ok (.ok (offset, offset + byte_count))

/-- `Level::tile_bounds` (the `index / col_count` usize division is
total in the model; the claims using it assume `col_count > 0`, where
the Rust division cannot panic either). -/
def Level.tile_bounds (l : Level) (index : Nat) : ℚ × ℚ × ℚ × ℚ :=
  let col_count := l.col_count
  let row := ((index / col_count : Nat) : ℚ)
  let col := ((index % col_count : Nat) : ℚ)
  let left := col * (l.tile_width : ℚ) / (l.dimensions.1 : ℚ)
  let top := row * (l.tile_height : ℚ) / (l.dimensions.2 : ℚ)
  let right := (col + 1) * (l.tile_width : ℚ) / (l.dimensions.1 : ℚ)
  let bottom := (row + 1) * (l.tile_height : ℚ) / (l.dimensions.2 : ℚ)
  (left, top, right, bottom)

/-- `struct Projection` (origin and scale; the opaque geodesy handle
and unit gain play no part in the claims below). -/
structure Projection where
  epsg : Nat
  origin : ℚ × ℚ × ℚ
  scale : ℚ × ℚ × ℚ
deriving DecidableEq, Repr

/-- `struct CloudTiff`. -/
structure CloudTiff where
  levels : List Level
  projection : Projection
deriving DecidableEq, Repr

/-- `CloudTiff::pixel_scales`: for each level, both the X and the Y
world scale are divided by `level.dimensions.0`, the level's width. -/
def CloudTiff.pixel_scales (c : CloudTiff) : List (ℚ × ℚ) :=
  let scale := c.projection.scale
  c.levels.map (fun level =>
    (scale.1 / (level.dimensions.1 : ℚ), scale.2.1 / (level.dimensions.1 : ℚ)))

/-! ## Concrete example values used by witnesses and counterexamples -/

/-- A full-resolution 1024×1024 level with 256×256 tiles. -/
def c2Level0 : Level :=
  ⟨none, (1024, 1024), 256, 256, .Uncompressed, .No, 1, [8], [1], [], .Little, [0], [0]⟩

/-- A 512×512 overview of `c2Level0`. -/
def c2Level1 : Level :=
  ⟨some 1, (512, 512), 256, 256, .Uncompressed, .No, 1, [8], [1], [], .Little, [0], [0]⟩

/-- A two-level COG with unit world scale. -/
def c2Cog : CloudTiff := ⟨[c2Level0, c2Level1], ⟨4326, (0, 0, 0), (1, 1, 1)⟩⟩

/-- C3 counterexample: the header `49 49 00 2A` declares little
endianness, under which the version marker bytes `00 2A` decode to
`0x2A00`, which is neither `0x002A` nor `0x002B`; the claim therefore
requires `BadMagicBytes`, yet `Tiff::open` accepts the file, because the
code compares the marker bytes positionally (`[0x00, 0x2A] | [0x2A, 0x00]`)
without consulting the endianness. -/
theorem open_badmagic_counterexample :
    Endian.Little.decodeBytes [0x00, 0x2A] ≠ 0x2A ∧
    Endian.Little.decodeBytes [0x00, 0x2A] ≠ 0x2B ∧
    Tiff.open [0x49, 0x49, 0x00, 0x2A, 8, 0, 0, 0, 0, 0, 0, 0, 0, 0] =
      .ok ⟨.Little, .Normal, [[]]⟩ := by
  refine ⟨by decide, by decide, ?_⟩
  decide

/-- Closed instance of `open_badmagic_iff` at a 4-byte input. -/
theorem open_badmagic_iff_witness :
    4 ≤ ([0, 0, 0, 0] : List Nat).length ∧
    (Tiff.open [0, 0, 0, 0] = .error .BadMagicBytes ↔
      ¬ headerAccepted [0, 0, 0, 0]) :=
  ⟨by decide, open_badmagic_iff [0, 0, 0, 0] (by decide)⟩

/-- C4: `pixel_scales` maps each level, in order, to
`(scale.x / width, scale.y / width)` — both the X and the Y world scale
are divided by the level's X dimension. -/
theorem pixel_scales_divide_by_width (c : CloudTiff) (i : Nat) (lvl : Level)
    (h : c.levels[i]? = some lvl) :
    c.pixel_scales.length = c.levels.length ∧
    c.pixel_scales[i]? =
      some (c.projection.scale.1 / (lvl.dimensions.1 : ℚ),
            c.projection.scale.2.1 / (lvl.dimensions.1 : ℚ)) := by
  constructor
  · simp [CloudTiff.pixel_scales]
  · simp [CloudTiff.pixel_scales, h]

/-- Closed instance of `pixel_scales_divide_by_width` on `c2Cog`. -/
theorem pixel_scales_divide_by_width_witness :
    c2Cog.levels[1]? = some c2Level1 ∧
    (c2Cog.pixel_scales.length = c2Cog.levels.length ∧
     c2Cog.pixel_scales[1]? =
       some (c2Cog.projection.scale.1 / (c2Level1.dimensions.1 : ℚ),
             c2Cog.projection.scale.2.1 / (c2Level1.dimensions.1 : ℚ))) :=
  ⟨by decide, pixel_scales_divide_by_width c2Cog 1 c2Level1 (by decide)⟩

/-! ## Render level selection (src/render/util.rs) -/

/-- Models `((a as f64) / d).ceil() as u32` for natural `a` and real
(here rational) `d`: `0/0` is `NaN` and casts to 0; `a/0` with `a > 0`
is `+inf` and saturates to `u32::MAX`; a negative quotient's ceiling
casts to 0; a huge one saturates at `u32::MAX`. -/
def ceilDivCastU32 (a : Nat) (d : ℚ) : Nat :=
  if d = 0 then (if a = 0 then 0 else 4294967295)
  else
    let c : ℤ := ⌈(a : ℚ) / d⌉
    if c ≤ 0 then 0 else min c.toNat 4294967295

/-- `render_level_from_crop` (src/render/util.rs).  `crop.to_f64()`
yields `(left, top, right, bottom) = (x.min, y.min, x.max, y.max)`, so
the height threshold divides by `top - bottom = y.min - y.max`.  The
`unwrap_or(&cog.levels[0])` argument is evaluated eagerly, so an empty
level list panics. -/
def render_level_from_crop (cog : CloudTiff) (crop : RegionQ)
    (dimensions : Nat × Nat) : PanicOr Level :=
  match cog.levels with
  | [] => .panic
  | l0 :: _ =>
    let min_w := ceilDivCastU32 dimensions.1 (crop.x.max - crop.x.min)
    let min_h := ceilDivCastU32 dimensions.2 (crop.y.min - crop.y.max)
    .ok ((cog.levels.reverse.find? (fun level =>
      decide (min_w < level.dimensions.1 ∧ min_h < level.dimensions.2))).getD l0)

/-- C2 as the specification words it: the height threshold is
`out_h / crop_height` with the positive height `y.max - y.min`. -/
def render_level_from_crop_claimspec (cog : CloudTiff) (crop : RegionQ)
    (dimensions : Nat × Nat) : PanicOr Level :=
  match cog.levels with
  | [] => .panic
  | l0 :: _ =>
    let min_w := ceilDivCastU32 dimensions.1 (crop.x.max - crop.x.min)
    let min_h := ceilDivCastU32 dimensions.2 (crop.y.max - crop.y.min)
    .ok ((cog.levels.reverse.find? (fun level =>
      decide (min_w < level.dimensions.1 ∧ min_h < level.dimensions.2))).getD l0)

/-- Evaluates `ceilDivCastU32` when the true ceiling is a small
positive integer. -/
theorem ceilDivCastU32_eq_of_ceil (a : Nat) (d : ℚ) (n : Nat) (hd : d ≠ 0)
    (hc : (⌈(a : ℚ) / d⌉ : ℤ) = (n : ℤ)) (hn : 0 < n) (hb : n < 4294967296) :
    ceilDivCastU32 a d = n := by
  unfold ceilDivCastU32
  rw [if_neg hd]
  simp only [hc]
  rw [if_neg (Int.not_le.mpr (by exact_mod_cast hn))]
  rw [Int.toNat_natCast]
  omega

/-- Evaluates `ceilDivCastU32` when the true ceiling is nonpositive:
the `as u32` cast saturates to 0. -/
theorem ceilDivCastU32_of_ceil_nonpos (a : Nat) (d : ℚ) (hd : d ≠ 0)
    (hc : (⌈(a : ℚ) / d⌉ : ℤ) ≤ 0) : ceilDivCastU32 a d = 0 := by
  unfold ceilDivCastU32
  rw [if_neg hd]
  simp only [if_pos hc]

/-- C2 counterexample: with two levels 1024×1024 and 512×512, the unit
crop and output size 100×600, the claim (height must exceed
`out_h / crop_h` = 600) forces level 0, but the code divides by
`y.min - y.max = -1`, the ceiling `-600` casts to 0, and the 512×512
overview passes the test, so the code returns level 1. -/
theorem render_level_counterexample :
    render_level_from_crop c2Cog RegionQ.unit (100, 600) = .ok c2Level1 ∧
    render_level_from_crop_claimspec c2Cog RegionQ.unit (100, 600) = .ok c2Level0 ∧
    c2Level1 ≠ c2Level0 := by
  have hw : ceilDivCastU32 100 (RegionQ.unit.x.max - RegionQ.unit.x.min) = 100 := by
    show ceilDivCastU32 100 ((1 : ℚ) - 0) = 100
    exact ceilDivCastU32_eq_of_ceil 100 _ 100 (by norm_num) (by norm_num)
      (by norm_num) (by norm_num)
  have hh : ceilDivCastU32 600 (RegionQ.unit.y.min - RegionQ.unit.y.max) = 0 := by
    show ceilDivCastU32 600 ((0 : ℚ) - 1) = 0
    exact ceilDivCastU32_of_ceil_nonpos 600 _ (by norm_num)
      (Int.ceil_le.mpr (by norm_num))
  have hh2 : ceilDivCastU32 600 (RegionQ.unit.y.max - RegionQ.unit.y.min) = 600 := by
    show ceilDivCastU32 600 ((1 : ℚ) - 0) = 600
    exact ceilDivCastU32_eq_of_ceil 600 _ 600 (by norm_num) (by norm_num)
      (by norm_num) (by norm_num)
  refine ⟨?_, ?_, by decide⟩
  · unfold render_level_from_crop
    simp only [c2Cog]
    simp only [hw, hh]
    simp [c2Level0, c2Level1, List.find?]
  · unfold render_level_from_crop_claimspec
    simp only [c2Cog]
    simp only [hw, hh2]
    simp [c2Level0, c2Level1, List.find?]

/-- C2 amended: for a crop of positive height, the code's height
threshold saturates to 0, so the selected level is the coarsest
(iterating from the last level backwards) whose width exceeds
`ceil(out_w / crop_w)` and whose height is merely positive, falling
back to level 0 when none qualifies. -/
theorem render_level_from_crop_eq (cog : CloudTiff) (crop : RegionQ)
    (dims : Nat × Nat) (l0 : Level) (rest : List Level)
    (hlev : cog.levels = l0 :: rest) (hy : crop.y.min < crop.y.max) :
    render_level_from_crop cog crop dims =
      .ok ((cog.levels.reverse.find? (fun level =>
        decide (ceilDivCastU32 dims.1 (crop.x.max - crop.x.min) < level.dimensions.1 ∧
          0 < level.dimensions.2))).getD l0) := by
  have hdneg : crop.y.min - crop.y.max < 0 := by linarith
  have hq : (dims.2 : ℚ) / (crop.y.min - crop.y.max) ≤ 0 :=
    div_nonpos_of_nonneg_of_nonpos (by positivity) (le_of_lt hdneg)
  have hmh : ceilDivCastU32 dims.2 (crop.y.min - crop.y.max) = 0 := by
    unfold ceilDivCastU32
    rw [if_neg (ne_of_lt hdneg), if_pos (Int.ceil_le.mpr (by exact_mod_cast hq))]
  unfold render_level_from_crop
  rw [hlev]
  simp only [hmh]

/-- Closed instance of `render_level_from_crop_eq` on `c2Cog`. -/
theorem render_level_from_crop_eq_witness :
    c2Cog.levels = c2Level0 :: [c2Level1] ∧
    RegionQ.unit.y.min < RegionQ.unit.y.max ∧
    render_level_from_crop c2Cog RegionQ.unit (100, 600) =
      .ok ((c2Cog.levels.reverse.find? (fun level =>
        decide (ceilDivCastU32 (100, 600).1
            (RegionQ.unit.x.max - RegionQ.unit.x.min) < level.dimensions.1 ∧
          0 < level.dimensions.2))).getD c2Level0) :=
  ⟨rfl, by show (0 : ℚ) < 1; norm_num,
    render_level_from_crop_eq c2Cog RegionQ.unit (100, 600) c2Level0 [c2Level1]
      rfl (by show (0 : ℚ) < 1; norm_num)⟩

/-! ## Claim C5: Level.tile_byte_range -/

/-- A level whose tile offset and byte-count arrays are empty. -/
def c5EmptyLevel : Level :=
  ⟨none, (1, 1), 1, 1, .Uncompressed, .No, 1, [8], [1], [], .Little, [], []⟩

/-- A two-tile level with concrete offsets and byte counts. -/
def c5Level : Level :=
  ⟨none, (2, 2), 1, 1, .Uncompressed, .No, 1, [8], [1], [], .Little, [10, 20], [3, 4]⟩

/-- C5 counterexample: the claim promises `Err(TileIndexOutOfRange)`
for every index `i ≥ min(offsets.len, byte_counts.len)`; with both
arrays empty every index qualifies, yet the code computes
`min(..) - 1`, which underflows, and panics instead of returning an
error. -/
theorem tile_byte_range_counterexample :
    c5EmptyLevel.tile_byte_range 0 = .panic := by
  decide

/-- C5 amended: when at least one tile is indexed by both arrays,
`tile_byte_range i` returns `Ok((offsets[i], offsets[i] +
byte_counts[i]))` — so `end - start = byte_counts[i]` — for
`i < min(offsets.len, byte_counts.len)`, and
`Err(TileIndexOutOfRange)` for `i ≥` that minimum; the empty case
panics instead. -/
theorem tile_byte_range_eq (l : Level) (i : Nat)
    (h : 0 < l.offsets.length.min l.byte_counts.length) :
    l.tile_byte_range i =
      (if i < l.offsets.length.min l.byte_counts.length then
        .ok (.ok (l.offsets.getD i 0, l.offsets.getD i 0 + l.byte_counts.getD i 0))
      else
        .ok (.error (.TileIndexOutOfRange i
          (l.offsets.length.min l.byte_counts.length - 1)))) := by
  unfold Level.tile_byte_range
  rw [if_neg (by omega)]
  by_cases hi : i < l.offsets.length.min l.byte_counts.length
  · rw [if_neg (by omega), if_pos hi]
  · rw [if_pos (by omega), if_neg hi]

/-- Closed instance of `tile_byte_range_eq` on `c5Level`. -/
theorem tile_byte_range_eq_witness :
    0 < c5Level.offsets.length.min c5Level.byte_counts.length ∧
    c5Level.tile_byte_range 1 =
      (if 1 < c5Level.offsets.length.min c5Level.byte_counts.length then
        .ok (.ok (c5Level.offsets.getD 1 0,
          c5Level.offsets.getD 1 0 + c5Level.byte_counts.getD 1 0))
      else
        .ok (.error (.TileIndexOutOfRange 1
          (c5Level.offsets.length.min c5Level.byte_counts.length - 1)))) :=
  ⟨by decide, tile_byte_range_eq c5Level 1 (by decide)⟩

/-! ## Claim C6: Level.tile_indices_within_image_crop -/

/-- A level whose X dimension is zero (its tile grid has no columns). -/
def c6ZeroLevel : Level :=
  ⟨none, (0, 1), 1, 1, .Uncompressed, .No, 1, [8], [1], [], .Little, [0], [0]⟩

/-- C6 counterexample: for a level of width 0, the unit crop still
contains the point `(1/2, 1/2)`, but `tile_indices_within_image_crop`
returns no indices at all, so the union of the returned tiles' bounds
cannot cover the crop. -/
theorem tile_indices_counterexample :
    c6ZeroLevel.tile_indices_within_image_crop RegionQ.unit = [] ∧
    (RegionQ.unit.x.min ≤ 1/2 ∧ (1/2 : ℚ) ≤ RegionQ.unit.x.max ∧
     RegionQ.unit.y.min ≤ 1/2 ∧ (1/2 : ℚ) ≤ RegionQ.unit.y.max) ∧
    ¬ ∃ i ∈ c6ZeroLevel.tile_indices_within_image_crop RegionQ.unit,
        ((c6ZeroLevel.tile_bounds i).1 ≤ 1/2 ∧
         (1/2 : ℚ) ≤ (c6ZeroLevel.tile_bounds i).2.2.1 ∧
         (c6ZeroLevel.tile_bounds i).2.1 ≤ 1/2 ∧
         (1/2 : ℚ) ≤ (c6ZeroLevel.tile_bounds i).2.2.2) := by
  have hempty : c6ZeroLevel.tile_indices_within_image_crop RegionQ.unit = [] := by
    unfold Level.tile_indices_within_image_crop Level.tile_coord_from_image_coord
      Level.col_count Level.row_count natDivCeilCast Level.width Level.height
    norm_num [c6ZeroLevel, RegionQ.unit]
  refine ⟨hempty, by norm_num [RegionQ.unit], ?_⟩
  rintro ⟨i, hi, _⟩
  rw [hempty] at hi
  exact absurd hi (List.not_mem_nil i)

/-- The clamped column lower bound of a crop's tile rectangle
(`left.floor().max(0.0) as usize`). -/
def Level.cropColMin (l : Level) (crop : RegionQ) : Nat :=
  (max ⌊(l.tile_coord_from_image_coord crop.x.min crop.y.min).1⌋ 0).toNat

/-- The clamped column upper bound
(`right.ceil().min(col_count as f64) as usize`). -/
def Level.cropColMax (l : Level) (crop : RegionQ) : Nat :=
  (min ⌈(l.tile_coord_from_image_coord crop.x.max crop.y.max).1⌉ (l.col_count : ℤ)).toNat

/-- The clamped row lower bound (`top.floor().max(0.0) as usize`). -/
def Level.cropRowMin (l : Level) (crop : RegionQ) : Nat :=
  (max ⌊(l.tile_coord_from_image_coord crop.x.min crop.y.min).2⌋ 0).toNat

/-- The clamped row upper bound
(`bottom.ceil().min(row_count as f64) as usize`). -/
def Level.cropRowMax (l : Level) (crop : RegionQ) : Nat :=
  (min ⌈(l.tile_coord_from_image_coord crop.x.max crop.y.max).2⌉ (l.row_count : ℤ)).toNat

/-- `tile_indices_within_image_crop`, written with the four clamped
bounds named. -/
theorem tile_indices_eq (l : Level) (crop : RegionQ) :
    l.tile_indices_within_image_crop crop =
      (List.range' (l.cropRowMin crop) (l.cropRowMax crop - l.cropRowMin crop)).flatMap
        (fun row =>
          (List.range' (l.cropColMin crop) (l.cropColMax crop - l.cropColMin crop)).map
            (fun col => row * l.col_count + col)) := rfl

/-- `tile_bounds` at a row-major index with an in-range column. -/
theorem tile_bounds_eq (l : Level) (row col : Nat) (hcol : col < l.col_count) :
    l.tile_bounds (row * l.col_count + col) =
      ((col : ℚ) * (l.tile_width : ℚ) / (l.dimensions.1 : ℚ),
       (row : ℚ) * (l.tile_height : ℚ) / (l.dimensions.2 : ℚ),
       ((col : ℚ) + 1) * (l.tile_width : ℚ) / (l.dimensions.1 : ℚ),
       ((row : ℚ) + 1) * (l.tile_height : ℚ) / (l.dimensions.2 : ℚ)) := by
  have hcc : 0 < l.col_count := lt_of_le_of_lt (Nat.zero_le col) hcol
  have hdiv : (row * l.col_count + col) / l.col_count = row := by
    rw [mul_comm, Nat.mul_add_div hcc, Nat.div_eq_of_lt hcol, Nat.add_zero]
  have hmod : (row * l.col_count + col) % l.col_count = col := by
    rw [mul_comm, Nat.mul_add_mod, Nat.mod_eq_of_lt hcol]
  simp only [Level.tile_bounds, hdiv, hmod]

/-- One axis of the tile-grid coverage argument: any point of
`[a, b] ⊆ [0, 1]` with `a < b` lies inside a grid cell whose index the
clamped floor/ceil range keeps. -/
theorem grid_cover_1d (w tw : Nat) (hw : 0 < w) (htw : 0 < tw)
    (a b p : ℚ) (ha0 : 0 ≤ a) (hab : a < b) (hb1 : b ≤ 1)
    (hap : a ≤ p) (hpb : p ≤ b) :
    ∃ col : Nat,
      (max ⌊a * (w : ℚ) / (tw : ℚ)⌋ 0).toNat ≤ col ∧
      col < (min ⌈b * (w : ℚ) / (tw : ℚ)⌉ (natDivCeilCast w tw : ℤ)).toNat ∧
      (col : ℚ) * (tw : ℚ) / (w : ℚ) ≤ p ∧ p ≤ ((col : ℚ) + 1) * (tw : ℚ) / (w : ℚ) := by
  have hwQ : (0 : ℚ) < (w : ℚ) := by exact_mod_cast hw
  have htwQ : (0 : ℚ) < (tw : ℚ) := by exact_mod_cast htw
  have hp0 : 0 ≤ p := le_trans ha0 hap
  have hb0 : 0 < b := lt_of_le_of_lt ha0 hab
  have hqaq : a * (w : ℚ) / (tw : ℚ) ≤ p * (w : ℚ) / (tw : ℚ) := by gcongr
  have hqqb : p * (w : ℚ) / (tw : ℚ) ≤ b * (w : ℚ) / (tw : ℚ) := by gcongr
  have hqa0 : 0 ≤ a * (w : ℚ) / (tw : ℚ) := by positivity
  have hq0 : 0 ≤ p * (w : ℚ) / (tw : ℚ) := by positivity
  have hqbpos : 0 < b * (w : ℚ) / (tw : ℚ) := by positivity
  have hqa_lt_r : a * (w : ℚ) / (tw : ℚ) < (w : ℚ) / (tw : ℚ) := by
    rw [div_lt_div_iff htwQ htwQ]
    have ha1 : a < 1 := lt_of_lt_of_le hab hb1
    nlinarith [mul_lt_mul_of_pos_right ha1 (mul_pos hwQ htwQ)]
  have hqb_le_r : b * (w : ℚ) / (tw : ℚ) ≤ (w : ℚ) / (tw : ℚ) := by
    rw [div_le_div_iff htwQ htwQ]
    nlinarith [mul_le_mul_of_nonneg_right hb1 (le_of_lt (mul_pos hwQ htwQ))]
  have hrpos : (0 : ℚ) < (w : ℚ) / (tw : ℚ) := by positivity
  have hCeq : (natDivCeilCast w tw : ℤ) = ⌈(w : ℚ) / (tw : ℚ)⌉ := by
    unfold natDivCeilCast
    rw [if_neg (Nat.pos_iff_ne_zero.mp htw)]
    exact Int.toNat_of_nonneg (le_of_lt (Int.ceil_pos.mpr hrpos))
  have hC1 : 1 ≤ ⌈(w : ℚ) / (tw : ℚ)⌉ := Int.ceil_pos.mpr hrpos
  have hcb1 : 1 ≤ ⌈b * (w : ℚ) / (tw : ℚ)⌉ := Int.ceil_pos.mpr hqbpos
  have hfq0 : 0 ≤ ⌊p * (w : ℚ) / (tw : ℚ)⌋ := Int.floor_nonneg.mpr hq0
  have hffle : ⌊a * (w : ℚ) / (tw : ℚ)⌋ ≤ ⌊p * (w : ℚ) / (tw : ℚ)⌋ :=
    Int.floor_le_floor hqaq
  have hflt1 : ⌊a * (w : ℚ) / (tw : ℚ)⌋ < ⌈b * (w : ℚ) / (tw : ℚ)⌉ := by
    have h1 : (⌊a * (w : ℚ) / (tw : ℚ)⌋ : ℚ) < (⌈b * (w : ℚ) / (tw : ℚ)⌉ : ℚ) := by
      have hlt : a * (w : ℚ) / (tw : ℚ) < b * (w : ℚ) / (tw : ℚ) := by
        rw [div_lt_div_iff htwQ htwQ]
        nlinarith [mul_lt_mul_of_pos_right hab (mul_pos hwQ htwQ)]
      calc (⌊a * (w : ℚ) / (tw : ℚ)⌋ : ℚ) ≤ a * (w : ℚ) / (tw : ℚ) := Int.floor_le _
        _ < b * (w : ℚ) / (tw : ℚ) := hlt
        _ ≤ (⌈b * (w : ℚ) / (tw : ℚ)⌉ : ℚ) := Int.le_ceil _
    exact_mod_cast h1
  have hflt2 : ⌊a * (w : ℚ) / (tw : ℚ)⌋ < ⌈(w : ℚ) / (tw : ℚ)⌉ := by
    have h1 : (⌊a * (w : ℚ) / (tw : ℚ)⌋ : ℚ) < (⌈(w : ℚ) / (tw : ℚ)⌉ : ℚ) :=
      calc (⌊a * (w : ℚ) / (tw : ℚ)⌋ : ℚ) ≤ a * (w : ℚ) / (tw : ℚ) := Int.floor_le _
        _ < (w : ℚ) / (tw : ℚ) := hqa_lt_r
        _ ≤ (⌈(w : ℚ) / (tw : ℚ)⌉ : ℚ) := Int.le_ceil _
    exact_mod_cast h1
  have hfq_lt1 : ⌊p * (w : ℚ) / (tw : ℚ)⌋ < ⌈b * (w : ℚ) / (tw : ℚ)⌉ + 1 := by
    have h1 : (⌊p * (w : ℚ) / (tw : ℚ)⌋ : ℚ) ≤ (⌈b * (w : ℚ) / (tw : ℚ)⌉ : ℚ) :=
      calc (⌊p * (w : ℚ) / (tw : ℚ)⌋ : ℚ) ≤ p * (w : ℚ) / (tw : ℚ) := Int.floor_le _
        _ ≤ b * (w : ℚ) / (tw : ℚ) := hqqb
        _ ≤ (⌈b * (w : ℚ) / (tw : ℚ)⌉ : ℚ) := Int.le_ceil _
    have h2 : ⌊p * (w : ℚ) / (tw : ℚ)⌋ ≤ ⌈b * (w : ℚ) / (tw : ℚ)⌉ := by exact_mod_cast h1
    omega
  refine ⟨(min ⌊p * (w : ℚ) / (tw : ℚ)⌋
      (min ⌈b * (w : ℚ) / (tw : ℚ)⌉ ⌈(w : ℚ) / (tw : ℚ)⌉ - 1)).toNat, ?_, ?_, ?_, ?_⟩
  · rw [hCeq] at *
    omega
  · rw [hCeq]
    omega
  · have hcolZ0 : 0 ≤ min ⌊p * (w : ℚ) / (tw : ℚ)⌋
        (min ⌈b * (w : ℚ) / (tw : ℚ)⌉ ⌈(w : ℚ) / (tw : ℚ)⌉ - 1) := by omega
    have hcast : ((min ⌊p * (w : ℚ) / (tw : ℚ)⌋
        (min ⌈b * (w : ℚ) / (tw : ℚ)⌉ ⌈(w : ℚ) / (tw : ℚ)⌉ - 1)).toNat : ℚ) =
        ((min ⌊p * (w : ℚ) / (tw : ℚ)⌋
        (min ⌈b * (w : ℚ) / (tw : ℚ)⌉ ⌈(w : ℚ) / (tw : ℚ)⌉ - 1) : ℤ) : ℚ) := by
      exact_mod_cast congrArg (Int.cast : ℤ → ℚ) (Int.toNat_of_nonneg hcolZ0)
    rw [hcast, div_le_iff hwQ]
    have hle : ((min ⌊p * (w : ℚ) / (tw : ℚ)⌋
        (min ⌈b * (w : ℚ) / (tw : ℚ)⌉ ⌈(w : ℚ) / (tw : ℚ)⌉ - 1) : ℤ) : ℚ) ≤
        p * (w : ℚ) / (tw : ℚ) := by
      have h1 : ((min ⌊p * (w : ℚ) / (tw : ℚ)⌋
          (min ⌈b * (w : ℚ) / (tw : ℚ)⌉ ⌈(w : ℚ) / (tw : ℚ)⌉ - 1) : ℤ) : ℚ) ≤
          ((⌊p * (w : ℚ) / (tw : ℚ)⌋ : ℤ) : ℚ) := by
        exact_mod_cast min_le_left _ _
      exact le_trans h1 (Int.floor_le _)
    calc ((min ⌊p * (w : ℚ) / (tw : ℚ)⌋
          (min ⌈b * (w : ℚ) / (tw : ℚ)⌉ ⌈(w : ℚ) / (tw : ℚ)⌉ - 1) : ℤ) : ℚ) * (tw : ℚ)
        ≤ p * (w : ℚ) / (tw : ℚ) * (tw : ℚ) :=
          mul_le_mul_of_nonneg_right hle (le_of_lt htwQ)
      _ = p * (w : ℚ) := div_mul_cancel₀ _ (ne_of_gt htwQ)
  · have hcolZ0 : 0 ≤ min ⌊p * (w : ℚ) / (tw : ℚ)⌋
        (min ⌈b * (w : ℚ) / (tw : ℚ)⌉ ⌈(w : ℚ) / (tw : ℚ)⌉ - 1) := by omega
    have hcast : ((min ⌊p * (w : ℚ) / (tw : ℚ)⌋
        (min ⌈b * (w : ℚ) / (tw : ℚ)⌉ ⌈(w : ℚ) / (tw : ℚ)⌉ - 1)).toNat : ℚ) =
        ((min ⌊p * (w : ℚ) / (tw : ℚ)⌋
        (min ⌈b * (w : ℚ) / (tw : ℚ)⌉ ⌈(w : ℚ) / (tw : ℚ)⌉ - 1) : ℤ) : ℚ) := by
      exact_mod_cast congrArg (Int.cast : ℤ → ℚ) (Int.toNat_of_nonneg hcolZ0)
    rw [hcast, le_div_iff hwQ]
    have hge : p * (w : ℚ) / (tw : ℚ) ≤ ((min ⌊p * (w : ℚ) / (tw : ℚ)⌋
        (min ⌈b * (w : ℚ) / (tw : ℚ)⌉ ⌈(w : ℚ) / (tw : ℚ)⌉ - 1) : ℤ) : ℚ) + 1 := by
      rcases le_or_lt ⌊p * (w : ℚ) / (tw : ℚ)⌋
          (min ⌈b * (w : ℚ) / (tw : ℚ)⌉ ⌈(w : ℚ) / (tw : ℚ)⌉ - 1) with hle | hlt
      · rw [min_eq_left hle]
        have := Int.lt_floor_add_one (p * (w : ℚ) / (tw : ℚ))
        push_cast at this ⊢
        linarith
      · rw [min_eq_right (by omega)]
        have h1 : p * (w : ℚ) / (tw : ℚ) ≤
            ((⌈b * (w : ℚ) / (tw : ℚ)⌉ : ℤ) : ℚ) :=
          le_trans hqqb (Int.le_ceil _)
        have h2 : p * (w : ℚ) / (tw : ℚ) ≤ ((⌈(w : ℚ) / (tw : ℚ)⌉ : ℤ) : ℚ) :=
          le_trans (le_trans hqqb hqb_le_r) (Int.le_ceil _)
        have h3 : p * (w : ℚ) / (tw : ℚ) ≤
            ((min ⌈b * (w : ℚ) / (tw : ℚ)⌉ ⌈(w : ℚ) / (tw : ℚ)⌉ : ℤ) : ℚ) := by
          rcases min_cases ⌈b * (w : ℚ) / (tw : ℚ)⌉ ⌈(w : ℚ) / (tw : ℚ)⌉ with h | h <;>
            rw [h.1] <;> [exact h1; exact h2]
        push_cast at h3 ⊢
        linarith
    have h4 : p * (w : ℚ) ≤ (((min ⌊p * (w : ℚ) / (tw : ℚ)⌋
        (min ⌈b * (w : ℚ) / (tw : ℚ)⌉ ⌈(w : ℚ) / (tw : ℚ)⌉ - 1) : ℤ) : ℚ) + 1) * (tw : ℚ) := by
      have := mul_le_mul_of_nonneg_right hge (le_of_lt htwQ)
      rw [div_mul_cancel₀ _ (ne_of_gt htwQ)] at this
      exact this
    exact h4

/-- C6 amended: for a level of positive dimensions and tile sizes and
a crop `[x.min, x.max] × [y.min, y.max] ⊆ [0,1]²` of positive width and
height, `tile_indices_within_image_crop` returns
`(col_max - col_min) * (row_max - row_min)` row-major indices of the
clamped floor/ceil tile rectangle, and every point of the crop lies
within the `tile_bounds` of one of the returned indices; a level with a
zero dimension instead returns no indices while the crop may be
nonempty. -/
theorem tile_indices_within_image_crop_spec (l : Level) (crop : RegionQ)
    (hw : 0 < l.dimensions.1) (hh : 0 < l.dimensions.2)
    (htw : 0 < l.tile_width) (hth : 0 < l.tile_height)
    (hx0 : 0 ≤ crop.x.min) (hxlt : crop.x.min < crop.x.max) (hx1 : crop.x.max ≤ 1)
    (hy0 : 0 ≤ crop.y.min) (hylt : crop.y.min < crop.y.max) (hy1 : crop.y.max ≤ 1) :
    (l.tile_indices_within_image_crop crop).length =
      (l.cropColMax crop - l.cropColMin crop) * (l.cropRowMax crop - l.cropRowMin crop) ∧
    ∀ px py : ℚ, crop.x.min ≤ px → px ≤ crop.x.max →
      crop.y.min ≤ py → py ≤ crop.y.max →
      ∃ i ∈ l.tile_indices_within_image_crop crop,
        (l.tile_bounds i).1 ≤ px ∧ px ≤ (l.tile_bounds i).2.2.1 ∧
        (l.tile_bounds i).2.1 ≤ py ∧ py ≤ (l.tile_bounds i).2.2.2 := by
  constructor
  · rw [tile_indices_eq, List.length_flatMap]
    simp only [Function.comp_def, List.length_map, List.length_range', List.map_const']
    rw [List.sum_replicate, smul_eq_mul, Nat.mul_comm]
  · intro px py hpx1 hpx2 hpy1 hpy2
    obtain ⟨col, hc1, hc2, hc3, hc4⟩ :=
      grid_cover_1d l.dimensions.1 l.tile_width hw htw
        crop.x.min crop.x.max px hx0 hxlt hx1 hpx1 hpx2
    obtain ⟨row, hr1, hr2, hr3, hr4⟩ :=
      grid_cover_1d l.dimensions.2 l.tile_height hh hth
        crop.y.min crop.y.max py hy0 hylt hy1 hpy1 hpy2
    have hc1' : l.cropColMin crop ≤ col := hc1
    have hc2' : col < l.cropColMax crop := hc2
    have hr1' : l.cropRowMin crop ≤ row := hr1
    have hr2' : row < l.cropRowMax crop := hr2
    have hccle : l.cropColMax crop ≤ l.col_count := by
      unfold Level.cropColMax
      omega
    have hcolcc : col < l.col_count := by omega
    refine ⟨row * l.col_count + col, ?_, ?_⟩
    · rw [tile_indices_eq]
      apply List.mem_flatMap.mpr
      refine ⟨row,
        List.mem_range'.mpr ⟨row - l.cropRowMin crop, by omega, by omega⟩, ?_⟩
      exact List.mem_map.mpr
        ⟨col, List.mem_range'.mpr ⟨col - l.cropColMin crop, by omega, by omega⟩, rfl⟩
    · rw [tile_bounds_eq l row col hcolcc]
      exact ⟨hc3, hc4, hr3, hr4⟩

/-- A 2×2 level tiled 1×1. -/
def c6Level : Level :=
  ⟨none, (2, 2), 1, 1, .Uncompressed, .No, 1, [8], [1], [], .Little,
    [0, 0, 0, 0], [0, 0, 0, 0]⟩

/-- Closed instance of `tile_indices_within_image_crop_spec` on
`c6Level` and the unit crop. -/
theorem tile_indices_within_image_crop_spec_witness :
    (0 < c6Level.dimensions.1 ∧ 0 < c6Level.dimensions.2 ∧
     0 < c6Level.tile_width ∧ 0 < c6Level.tile_height ∧
     (0 : ℚ) ≤ RegionQ.unit.x.min ∧ RegionQ.unit.x.min < RegionQ.unit.x.max ∧
     RegionQ.unit.x.max ≤ 1 ∧ (0 : ℚ) ≤ RegionQ.unit.y.min ∧
     RegionQ.unit.y.min < RegionQ.unit.y.max ∧ RegionQ.unit.y.max ≤ 1) ∧
    ((c6Level.tile_indices_within_image_crop RegionQ.unit).length =
      (c6Level.cropColMax RegionQ.unit - c6Level.cropColMin RegionQ.unit) *
        (c6Level.cropRowMax RegionQ.unit - c6Level.cropRowMin RegionQ.unit) ∧
     ∀ px py : ℚ, RegionQ.unit.x.min ≤ px → px ≤ RegionQ.unit.x.max →
       RegionQ.unit.y.min ≤ py → py ≤ RegionQ.unit.y.max →
       ∃ i ∈ c6Level.tile_indices_within_image_crop RegionQ.unit,
         (c6Level.tile_bounds i).1 ≤ px ∧ px ≤ (c6Level.tile_bounds i).2.2.1 ∧
         (c6Level.tile_bounds i).2.1 ≤ py ∧ py ≤ (c6Level.tile_bounds i).2.2.2) :=
  ⟨⟨by decide, by decide, by decide, by decide,
    by norm_num [RegionQ.unit], by norm_num [RegionQ.unit], by norm_num [RegionQ.unit],
    by norm_num [RegionQ.unit], by norm_num [RegionQ.unit], by norm_num [RegionQ.unit]⟩,
   tile_indices_within_image_crop_spec c6Level RegionQ.unit
     (by decide) (by decide) (by decide) (by decide)
     (by norm_num [RegionQ.unit]) (by norm_num [RegionQ.unit]) (by norm_num [RegionQ.unit])
     (by norm_num [RegionQ.unit]) (by norm_num [RegionQ.unit]) (by norm_num [RegionQ.unit])⟩

/-! ## Claim C7: Predictor::predict (src/cog/compression.rs)

The Rust function mutates `buffer` in place and returns
`Result<(), DecompressError>`; the model returns the final buffer
content paired with the returned value.  Bytes are `Nat`s kept below
256; `wrapping_add` is `% 256`. -/

/-- One iteration of the Horizontal-predictor loop at byte index `i`:
skip the first pixel of each row, otherwise add the byte
`samples_per_pixel` positions back (which the in-place loop has already
processed). -/
def horizStep (buf : List Nat) (row_bytes spp i : Nat) : List Nat :=
  if i % row_bytes < spp then buf
  else buf.set i ((buf.getD i 0 + buf.getD (i - spp) 0) % 256)

/-- The Horizontal loop run over byte indices `0..n`. -/
def horizFold (buffer : List Nat) (row_bytes spp n : Nat) : List Nat :=
  (List.range n).foldl (fun b i => horizStep b row_bytes spp i) buffer

/-- `Predictor::predict`.  `assert!(bit_depth <= 8)` panics for the
Horizontal predictor beyond 8 bits; when `row_bytes = 0` and the buffer
is nonempty the first `i % row_bytes` panics (division by zero). -/
def Predictor.predict (p : Predictor) (buffer : List Nat)
    (width bit_depth samples_per_pixel : Nat) :
    PanicOr (List Nat × Except DecompressError Unit) :=
  match p with
  | .No => .ok (buffer, .ok ())
  | .Horizontal =>
    if 8 < bit_depth then .panic
    else
      let row_bytes := width * samples_per_pixel * bit_depth / 8
      if buffer.length ≠ 0 ∧ row_bytes = 0 then .panic
      else .ok (horizFold buffer row_bytes samples_per_pixel buffer.length, .ok ())
  | other => .ok (buffer, .error (.PredictorNotSupported other))

/-- `List.set` away from an index leaves `getD` unchanged. -/
theorem getD_set_ne (l : List Nat) (i j v : Nat) (h : i ≠ j) :
    (l.set i v).getD j 0 = l.getD j 0 := by
  simp [List.getD_eq_getElem?_getD, List.getElem?_set_ne h]

/-- `List.set` at an in-bounds index updates `getD` there. -/
theorem getD_set_self (l : List Nat) (i v : Nat) (h : i < l.length) :
    (l.set i v).getD i 0 = v := by
  simp [List.getD_eq_getElem?_getD, List.getElem?_set_self, h]

/-- `horizStep` preserves the buffer length. -/
theorem horizStep_length (buf : List Nat) (rb spp i : Nat) :
    (horizStep buf rb spp i).length = buf.length := by
  unfold horizStep
  split
  · rfl
  · rw [List.length_set]

/-- Peeling the last index off the Horizontal loop. -/
theorem horizFold_succ (buffer : List Nat) (rb spp n : Nat) :
    horizFold buffer rb spp (n + 1) = horizStep (horizFold buffer rb spp n) rb spp n := by
  unfold horizFold
  rw [List.range_succ, List.foldl_append]
  rfl

/-- The Horizontal loop preserves the buffer length. -/
theorem horizFold_length (buffer : List Nat) (rb spp n : Nat) :
    (horizFold buffer rb spp n).length = buffer.length := by
  induction n with
  | zero => rfl
  | succ n ih => rw [horizFold_succ, horizStep_length, ih]

/-- Indices not yet reached still hold their original byte. -/
theorem horizFold_getD_of_le (buffer : List Nat) (rb spp n j : Nat) (h : n ≤ j) :
    (horizFold buffer rb spp n).getD j 0 = buffer.getD j 0 := by
  induction n with
  | zero => rfl
  | succ n ih =>
    rw [horizFold_succ]
    unfold horizStep
    split
    · exact ih (by omega)
    · rw [getD_set_ne _ _ _ _ (by omega : n ≠ j)]
      exact ih (by omega)

/-- Indices already processed are never touched again. -/
theorem horizFold_getD_stable (buffer : List Nat) (rb spp m n j : Nat)
    (hj : j < m) (hmn : m ≤ n) :
    (horizFold buffer rb spp n).getD j 0 = (horizFold buffer rb spp m).getD j 0 := by
  induction n with
  | zero => omega
  | succ n ih =>
    rcases Nat.lt_or_ge m (n + 1) with hlt | hge
    · have hmn' : m ≤ n := by omega
      rw [horizFold_succ]
      unfold horizStep
      split
      · exact ih hmn'
      · rw [getD_set_ne _ _ _ _ (by omega : n ≠ j)]
        exact ih hmn'
    · have : m = n + 1 := by omega
      rw [this]

/-- C7 counterexample: with `width = samples_per_pixel = bit_depth = 1`
(a bit depth at most 8), the row length `1 * 1 * 1 / 8` truncates to 0
bytes, and the first loop iteration evaluates `i % 0`, which panics —
the claim instead promises a normal in-place update for every such
input. -/
theorem predict_counterexample :
    Predictor.predict .Horizontal [5] 1 1 1 = .panic := by
  decide

/-- C7 amended: when `bit_depth ≤ 8` and the computed row length
`width * samples_per_pixel * bit_depth / 8` is positive, the Horizontal
predictor succeeds and returns a buffer of the same length in which a
byte whose offset within its row is below `samples_per_pixel` is
unchanged and every other byte is the original plus the already-updated
byte `samples_per_pixel` positions back, mod 256 (increasing index
order); the FloatingPoint predictor returns `PredictorNotSupported`
and leaves the buffer unchanged.  A zero row length panics instead. -/
theorem predict_spec (buffer : List Nat) (width bd spp : Nat)
    (hbd : bd ≤ 8) (hrb : 0 < width * spp * bd / 8) :
    (∃ r : List Nat,
      Predictor.predict .Horizontal buffer width bd spp = .ok (r, .ok ()) ∧
      r.length = buffer.length ∧
      ∀ i, i < buffer.length →
        r.getD i 0 =
          if i % (width * spp * bd / 8) < spp then buffer.getD i 0
          else (buffer.getD i 0 + r.getD (i - spp) 0) % 256) ∧
    Predictor.predict .FloatingPoint buffer width bd spp =
      .ok (buffer, .error (.PredictorNotSupported .FloatingPoint)) := by
  have hspp : 0 < spp := by
    rcases Nat.eq_zero_or_pos spp with h | h
    · subst h
      simp at hrb
    · exact h
  refine ⟨⟨horizFold buffer (width * spp * bd / 8) spp buffer.length, ?_, ?_, ?_⟩, rfl⟩
  · unfold Predictor.predict
    rw [if_neg (by omega)]
    rw [if_neg (fun hcon => absurd hcon.2 (by omega))]
  · exact horizFold_length buffer _ spp buffer.length
  · intro i hi
    rw [horizFold_getD_stable buffer (width * spp * bd / 8) spp (i + 1)
        buffer.length i (by omega) (by omega)]
    rw [horizFold_succ]
    unfold horizStep
    split
    · exact horizFold_getD_of_le buffer _ spp i i (le_refl i)
    · rename_i hskip
      have hilen : i < (horizFold buffer (width * spp * bd / 8) spp i).length := by
        rw [horizFold_length]
        exact hi
      rw [getD_set_self _ _ _ hilen]
      have hisp : i - spp < i := by
        have h1 : spp ≤ i % (width * spp * bd / 8) := Nat.not_lt.mp hskip
        have h2 := Nat.mod_le i (width * spp * bd / 8)
        omega
      rw [horizFold_getD_of_le buffer (width * spp * bd / 8) spp i i (le_refl i)]
      rw [horizFold_getD_stable buffer (width * spp * bd / 8) spp (i - spp + 1)
          i (i - spp) (by omega) (by omega)]
      rw [horizFold_getD_stable buffer (width * spp * bd / 8) spp (i - spp + 1)
          buffer.length (i - spp) (by omega) (by omega)]

/-- Closed instance of `predict_spec` on a 2×1-pixel two-sample row. -/
theorem predict_spec_witness :
    (8 : Nat) ≤ 8 ∧ 0 < 2 * 2 * 8 / 8 ∧
    ((∃ r : List Nat,
      Predictor.predict .Horizontal [1, 2, 3, 4] 2 8 2 = .ok (r, .ok ()) ∧
      r.length = ([1, 2, 3, 4] : List Nat).length ∧
      ∀ i, i < ([1, 2, 3, 4] : List Nat).length →
        r.getD i 0 =
          if i % (2 * 2 * 8 / 8) < 2 then ([1, 2, 3, 4] : List Nat).getD i 0
          else (([1, 2, 3, 4] : List Nat).getD i 0 + r.getD (i - 2) 0) % 256) ∧
    Predictor.predict .FloatingPoint [1, 2, 3, 4] 2 8 2 =
      .ok ([1, 2, 3, 4], .error (.PredictorNotSupported .FloatingPoint))) :=
  ⟨by decide, by decide, predict_spec [1, 2, 3, 4] 2 8 2 (by decide) (by decide)⟩

/-! ## Claim C9: Raster::get_pixel / put_pixel (src/raster/mod.rs)

Bytes are `Nat`s below 256; `u8` masking uses `&&&`, `|||`, `>>>`,
`<<<` on `Nat` (`!mask` on a `u8` submask of `0xFF` is `255 - mask`).
`PhotometricInterpretation`, `SampleFormat` and `ExtraSamples` are
carried as raw codes; error strings are collapsed to `Unit`.  The
mutating `put_pixel` returns the new raster paired with its
`Result`. -/

/-- `struct Raster`. -/
structure Raster where
  dimensions : Nat × Nat
  buffer : List Nat
  bits_per_sample : List Nat
  interpretation : Nat
  sample_format : List Nat
  extra_samples : List Nat
  endian : Endian
  bits_per_pixel : Nat
deriving DecidableEq, Repr

/-- `Raster::blank`: zero-filled buffer of
`w * h * bits_per_pixel / 8` bytes. -/
def Raster.blank (dimensions : Nat × Nat) (bits_per_sample : List Nat)
    (interpretation : Nat) (sample_format : List Nat)
    (extra_samples : List Nat) (endian : Endian) : Raster :=
  let bits_per_pixel := bits_per_sample.sum
  let required_bytes := dimensions.1 * dimensions.2 * bits_per_pixel / 8
  ⟨dimensions, List.replicate required_bytes 0, bits_per_sample,
    interpretation, sample_format, extra_samples, endian, bits_per_pixel⟩

/-- `Raster::row_size`. -/
def Raster.row_size (r : Raster) : Nat :=
  (r.dimensions.1 * r.bits_per_pixel + 7) / 8

/-- `Raster::get_pixel`.  The slice `buffer[start..end]` panics when it
overruns the buffer, and `pixel[0]` / `pixel[n-1]` panic when the
pixel is empty (`bits_per_pixel = 0`). -/
def Raster.get_pixel (r : Raster) (x y : Nat) : PanicOr (Option (List Nat)) :=
  if x ≥ r.dimensions.1 ∨ y ≥ r.dimensions.2 then .ok none
  else
    let row_offset := y * r.row_size
    let start_col_offset_bits := x * r.bits_per_pixel
    let start_col_offset_bytes := start_col_offset_bits / 8
    let start := row_offset + start_col_offset_bytes
    let end_col_offset_bits := x * r.bits_per_pixel + r.bits_per_pixel
    let end_col_offset_bytes := (end_col_offset_bits + 7) / 8
    let endPos := row_offset + end_col_offset_bytes
    if endPos > r.buffer.length ∨ start > endPos then .panic
    else
      let pixel := (r.buffer.drop start).take (endPos - start)
      let n := endPos - start
      if n = 0 then .panic
      else
        let start_mask := 255 >>> (start_col_offset_bits - start_col_offset_bytes * 8)
        let pixel1 := pixel.set 0 (pixel.getD 0 0 &&& start_mask)
        let end_mask := (255 <<< (end_col_offset_bytes * 8 - end_col_offset_bits)) &&& 255
        .ok (some (pixel1.set (n - 1) (pixel1.getD (n - 1) 0 &&& end_mask)))

/-- The `for i in 0..n` copy loop at the end of `put_pixel`. -/
def listOverwrite (buf : List Nat) (start : Nat) (pixel : List Nat) : List Nat :=
  match pixel with
  | [] => buf
  | p :: ps => listOverwrite (buf.set start p) (start + 1) ps

/-- `Raster::put_pixel`.  Panics when the masked writes or the copy
loop index out of bounds, or when `pixel[0]` is read from an empty
pixel. -/
def Raster.put_pixel (r : Raster) (x y : Nat) (pixel : List Nat) :
    PanicOr (Raster × Except Unit Unit) :=
  if x ≥ r.dimensions.1 ∨ y ≥ r.dimensions.2 then .ok (r, .error ())
  else
    let row_offset := y * r.row_size
    let start_col_offset_bits := x * r.bits_per_pixel
    let start_col_offset_bytes := start_col_offset_bits / 8
    let start := row_offset + start_col_offset_bytes
    let end_col_offset_bits := x * r.bits_per_pixel + r.bits_per_pixel
    let end_col_offset_bytes := (end_col_offset_bits + 7) / 8
    let endPos := row_offset + end_col_offset_bytes
    let n := endPos - start
    if pixel.length ≠ n then .ok (r, .error ())
    else if n = 0 then .panic
    else if start ≥ r.buffer.length then .panic
    else
      let start_mask := 255 >>> (start_col_offset_bits - start_col_offset_bytes * 8)
      let buf1 := r.buffer.set start
        ((r.buffer.getD start 0 &&& (255 - start_mask)) ||| (pixel.getD 0 0 &&& start_mask))
      if 1 < n ∧ r.buffer.length ≤ start + n - 1 then .panic
      else
        let end_mask := (255 <<< (end_col_offset_bytes * 8 - end_col_offset_bits)) &&& 255
        let buf2 := if 1 < n then
            buf1.set (start + n - 1)
              ((buf1.getD (start + n - 1) 0 &&& (255 - end_mask)) |||
                (pixel.getD (n - 1) 0 &&& end_mask))
          else buf1
        if r.buffer.length < start + n then .panic
        else .ok ({ r with buffer := listOverwrite buf2 start pixel }, .ok ())

/-- Masking a byte with `0xFF` is the identity. -/
theorem and_255_of_lt (b : Nat) (h : b < 256) : b &&& 255 = b := by
  have h2 : b &&& 255 = b % 256 := by
    have h3 := Nat.and_pow_two_sub_one_eq_mod b 8
    simpa using h3
  rw [h2, Nat.mod_eq_of_lt h]

/-- Setting an index to its own value is the identity. -/
theorem set_getD_self (l : List Nat) (i : Nat) (h : i < l.length) :
    l.set i (l.getD i 0) = l := by
  induction l generalizing i with
  | nil => simp at h
  | cons a t ih =>
    cases i with
    | zero => rfl
    | succ j =>
      simp only [List.getD_cons_succ, List.set_cons_succ]
      rw [ih j (by simpa using h)]

/-- An element of a slice read through `getD`. -/
theorem slice_getD (l : List Nat) (s n i : Nat) (hi : i < n) :
    ((l.drop s).take n).getD i 0 = l.getD (s + i) 0 := by
  rw [List.getD_eq_getElem?_getD, List.getD_eq_getElem?_getD,
    List.getElem?_take, if_pos hi, List.getElem?_drop]

/-- A slice that fits has the requested length. -/
theorem slice_length (l : List Nat) (s n : Nat) (h : s + n ≤ l.length) :
    ((l.drop s).take n).length = n := by
  rw [List.length_take, List.length_drop]
  omega

/-- Copying a buffer's own slice back over itself changes nothing. -/
theorem listOverwrite_slice_self (buf : List Nat) (start n : Nat)
    (h : start + n ≤ buf.length) :
    listOverwrite buf start ((buf.drop start).take n) = buf := by
  induction n generalizing buf start with
  | zero => rfl
  | succ m ih =>
    have hs : start < buf.length := by omega
    rw [List.drop_eq_getElem_cons hs, List.take_succ_cons]
    show listOverwrite (buf.set start buf[start]) (start + 1) ((buf.drop (start + 1)).take m) = buf
    rw [show buf.set start buf[start] = buf from by
      rw [show (buf[start] : Nat) = buf.getD start 0 from
        (List.getD_eq_getElem buf 0 hs).symm]
      exact set_getD_self buf start hs]
    exact ih buf (start + 1) (by omega)

/-- An in-bounds `getD` of a byte buffer is a byte. -/
theorem getD_lt_of_bytes (l : List Nat) (i : Nat) (h : i < l.length)
    (hb : ∀ b ∈ l, b < 256) : l.getD i 0 < 256 := by
  apply hb
  rw [List.getD_eq_getElem l 0 h]
  exact List.getElem_mem h

/-- C9 counterexample: a blank raster with no samples has
`bits_per_pixel = 0`, a multiple of 8, yet `get_pixel` of the in-bounds
pixel `(0,0)` panics (it reads `pixel[0]` of an empty slice), so the
claimed get/put no-op round trip cannot even start. -/
theorem raster_counterexample :
    (Raster.blank (1, 1) [] 1 [] [] .Little).bits_per_pixel % 8 = 0 ∧
    (0 < (Raster.blank (1, 1) [] 1 [] [] .Little).dimensions.1 ∧
     0 < (Raster.blank (1, 1) [] 1 [] [] .Little).dimensions.2) ∧
    (Raster.blank (1, 1) [] 1 [] [] .Little).get_pixel 0 0 = .panic := by
  refine ⟨by decide, ⟨by decide, by decide⟩, by decide⟩

/-- C9 amended: for a raster whose `bits_per_pixel` is a positive
multiple of 8, whose buffer has the canonical
`w * h * (bits_per_pixel/8)` length and holds bytes, and for in-bounds
`(x, y)`, `get_pixel` returns the pixel's byte slice and `put_pixel`
of that same slice returns the raster unchanged; a zero
`bits_per_pixel` (also a multiple of 8) panics instead. -/
theorem raster_put_get_noop (r : Raster) (x y : Nat)
    (hpos : 0 < r.bits_per_pixel) (hdvd : r.bits_per_pixel % 8 = 0)
    (hlen : r.buffer.length =
      r.dimensions.1 * r.dimensions.2 * (r.bits_per_pixel / 8))
    (hbytes : ∀ b ∈ r.buffer, b < 256)
    (hx : x < r.dimensions.1) (hy : y < r.dimensions.2) :
    ∃ p, r.get_pixel x y = .ok (some p) ∧ r.put_pixel x y p = .ok (r, .ok ()) := by
  obtain ⟨k, hk⟩ : ∃ k, r.bits_per_pixel = 8 * k := ⟨r.bits_per_pixel / 8, by omega⟩
  have hkpos : 0 < k := by omega
  have hA1 : x * (8 * k) / 8 = x * k := by
    rw [show x * (8 * k) = 8 * (x * k) from by ring,
      Nat.mul_div_cancel_left _ (by norm_num : 0 < 8)]
  have hA2 : (x * (8 * k) + 8 * k + 7) / 8 = x * k + k := by
    rw [show x * (8 * k) + 8 * k + 7 = 7 + 8 * (x * k + k) from by ring,
      Nat.add_mul_div_left _ _ (by norm_num : 0 < 8)]
    norm_num
  have hA3 : (r.dimensions.1 * (8 * k) + 7) / 8 = r.dimensions.1 * k := by
    rw [show r.dimensions.1 * (8 * k) + 7 = 7 + 8 * (r.dimensions.1 * k) from by ring,
      Nat.add_mul_div_left _ _ (by norm_num : 0 < 8)]
    norm_num
  have hlen' : r.buffer.length = r.dimensions.1 * r.dimensions.2 * k := by
    rw [hlen]
    congr 1
    omega
  obtain ⟨h1, hh1⟩ : ∃ h1, r.dimensions.2 = h1 + 1 := ⟨r.dimensions.2 - 1, by omega⟩
  obtain ⟨w1, hw1⟩ : ∃ w1, r.dimensions.1 = w1 + 1 := ⟨r.dimensions.1 - 1, by omega⟩
  have hendle : y * (r.dimensions.1 * k) + (x * k + k) ≤ r.buffer.length := by
    rw [hlen', hh1]
    calc y * (r.dimensions.1 * k) + (x * k + k)
        ≤ h1 * (r.dimensions.1 * k) + (x * k + k) :=
          Nat.add_le_add_right (Nat.mul_le_mul_right _ (by omega)) _
      _ ≤ h1 * (r.dimensions.1 * k) + r.dimensions.1 * k := by
          apply Nat.add_le_add_left
          rw [hw1]
          calc x * k + k = (x + 1) * k := (Nat.succ_mul x k).symm
            _ ≤ (w1 + 1) * k := Nat.mul_le_mul_right _ (by omega)
      _ = r.dimensions.1 * (h1 + 1) * k := by ring
  have hcond1 : ¬(x ≥ r.dimensions.1 ∨ y ≥ r.dimensions.2) := by omega
  have hshift1 : x * (8 * k) - x * k * 8 = 0 := by
    rw [show x * (8 * k) = x * k * 8 from by ring, Nat.sub_self]
  have hshift2 : (x * k + k) * 8 - (x * (8 * k) + 8 * k) = 0 := by
    rw [show x * (8 * k) + 8 * k = (x * k + k) * 8 from by ring, Nat.sub_self]
  have hsub : y * (r.dimensions.1 * k) + (x * k + k) -
      (y * (r.dimensions.1 * k) + x * k) = k := by
    rw [Nat.add_sub_add_left]
    exact Nat.add_sub_cancel_left (x * k) k
  have hstartlt : y * (r.dimensions.1 * k) + x * k < r.buffer.length := by
    have := hendle
    omega
  have hPlen : ((r.buffer.drop (y * (r.dimensions.1 * k) + x * k)).take k).length = k := by
    apply slice_length
    omega
  have hPgetD : ∀ i, i < k →
      ((r.buffer.drop (y * (r.dimensions.1 * k) + x * k)).take k).getD i 0 =
        r.buffer.getD (y * (r.dimensions.1 * k) + x * k + i) 0 :=
    fun i hi => slice_getD _ _ _ _ hi
  have hPbyte : ∀ i, i < k →
      ((r.buffer.drop (y * (r.dimensions.1 * k) + x * k)).take k).getD i 0 < 256 := by
    intro i hi
    rw [hPgetD i hi]
    exact getD_lt_of_bytes _ _ (by omega) hbytes
  refine ⟨(r.buffer.drop (y * (r.dimensions.1 * k) + x * k)).take k, ?_, ?_⟩
  · simp only [Raster.get_pixel, Raster.row_size, hk]
    rw [if_neg hcond1, hA1, hA2, hA3, hshift1, hsub]
    rw [if_neg (by omega :
      ¬(y * (r.dimensions.1 * k) + (x * k + k) > r.buffer.length ∨
        y * (r.dimensions.1 * k) + x * k > y * (r.dimensions.1 * k) + (x * k + k)))]
    rw [if_neg (by omega : ¬k = 0)]
    rw [hshift2, Nat.shiftRight_zero, Nat.shiftLeft_zero,
      (show (255 : Nat) &&& 255 = 255 from rfl)]
    rw [and_255_of_lt _ (hPbyte 0 hkpos),
      set_getD_self _ _ (by rw [hPlen]; exact hkpos)]
    rw [and_255_of_lt _ (hPbyte (k - 1) (by omega)),
      set_getD_self _ _ (by rw [hPlen]; omega)]
  · simp only [Raster.put_pixel, Raster.row_size, hk]
    rw [if_neg hcond1, hA1, hA2, hA3, hsub]
    rw [if_neg (by rw [hPlen]; omega : ¬((r.buffer.drop
      (y * (r.dimensions.1 * k) + x * k)).take k).length ≠ k)]
    rw [if_neg (by omega : ¬k = 0)]
    rw [if_neg (by omega :
      ¬(y * (r.dimensions.1 * k) + x * k ≥ r.buffer.length))]
    rw [hshift1, hshift2, Nat.shiftRight_zero, Nat.shiftLeft_zero,
      (show (255 : Nat) &&& 255 = 255 from rfl),
      (show (255 : Nat) - 255 = 0 from rfl)]
    rw [Nat.and_zero, Nat.zero_or]
    rw [and_255_of_lt _ (hPbyte 0 hkpos), hPgetD 0 hkpos, Nat.add_zero]
    rw [set_getD_self _ _ hstartlt]
    rw [if_neg (by omega :
      ¬(1 < k ∧ r.buffer.length ≤ y * (r.dimensions.1 * k) + x * k + k - 1))]
    rw [Nat.and_zero, Nat.zero_or]
    rw [and_255_of_lt _ (hPbyte (k - 1) (by omega)), hPgetD (k - 1) (by omega)]
    rw [show y * (r.dimensions.1 * k) + x * k + (k - 1) =
      y * (r.dimensions.1 * k) + x * k + k - 1 from by omega]
    rw [set_getD_self _ _ (by omega)]
    rw [ite_self]
    rw [if_neg (by omega :
      ¬(r.buffer.length < y * (r.dimensions.1 * k) + x * k + k))]
    rw [listOverwrite_slice_self _ _ _ (by omega), ← hk]

/-- A 1×1 byte-aligned raster holding the single byte 7. -/
def c9Raster : Raster := ⟨(1, 1), [7], [8], 1, [1], [], .Little, 8⟩

/-- Closed instance of `raster_put_get_noop` on `c9Raster`. -/
theorem raster_put_get_noop_witness :
    (0 < c9Raster.bits_per_pixel ∧ c9Raster.bits_per_pixel % 8 = 0 ∧
     c9Raster.buffer.length =
       c9Raster.dimensions.1 * c9Raster.dimensions.2 * (c9Raster.bits_per_pixel / 8) ∧
     (∀ b ∈ c9Raster.buffer, b < 256) ∧
     0 < c9Raster.dimensions.1 ∧ 0 < c9Raster.dimensions.2) ∧
    ∃ p, c9Raster.get_pixel 0 0 = .ok (some p) ∧
      c9Raster.put_pixel 0 0 p = .ok (c9Raster, .ok ()) :=
  ⟨⟨by decide, by decide, by decide, by decide, by decide, by decide⟩,
    raster_put_get_noop c9Raster 0 0 (by decide) (by decide) (by decide)
      (by decide) (by decide) (by decide)⟩

/-! ## Claim C8: Encoder::encode overview-level IFD construction
(src/encode/mod.rs)

Only the `TagData` variants the overview loop uses are modelled in
full (`Short`, `Long`, `Long8`); every other variant is collapsed into
`Other`, carrying its `TagType` and raw bytes.  `f32` ratios are
modelled exactly: `(w as f32 / t as f32).log2().ceil() as usize`
becomes the least `e` with `w ≤ t * 2^e` (via `Nat.clog` of the
ceiling division), and tile counts reuse `natDivCeilCast`. -/

/-- The `TagData` variants used by the encoder's overview loop. -/
inductive TagData where
  | Short : List Nat → TagData
  | Long : List Nat → TagData
  | Long8 : List Nat → TagData
  | Other : TagType → List Nat → TagData
deriving DecidableEq, Repr

/-- `TagData::from_short`. -/
def TagData.from_short (v : Nat) : TagData := .Short [v]

/-- `TagData::from_long`. -/
def TagData.from_long (v : Nat) : TagData := .Long [v]

/-- `TagData::len` (element count; `Other` carries raw bytes, one
element each). -/
def TagData.len : TagData → Nat
  | .Short l => l.length
  | .Long l => l.length
  | .Long8 l => l.length
  | .Other _ l => l.length

/-- `TagData::tag_type`. -/
def TagData.tag_type : TagData → TagType
  | .Short _ => .Short
  | .Long _ => .Long
  | .Long8 _ => .Long8
  | .Other t _ => t

/-- `TagData::bytes`: each element encoded at its type's width. -/
def TagData.bytes : TagData → Endian → List Nat
  | .Short l, e => (l.map (e.encodeUint 2)).flatten
  | .Long l, e => (l.map (e.encodeUint 4)).flatten
  | .Long8 l, e => (l.map (e.encodeUint 8)).flatten
  | .Other _ l, _ => l

/-- `Tag::new`. -/
def Tag.new (code : Nat) (e : Endian) (d : TagData) : Tag :=
  ⟨code, d.tag_type, d.len, d.bytes e, e⟩

/-- `Ifd::set_tag`: replace the first tag with this code, else append
(`position` + replace, or `push`). -/
def Ifd.set_tag (ifd : Ifd) (code : Nat) (d : TagData) (e : Endian) : Ifd :=
  match ifd with
  | [] => [Tag.new code e d]
  | t :: ts =>
    if t.code = code then Tag.new code e d :: ts
    else t :: Ifd.set_tag ts code d e

/-- A sequence of `set_tag` calls, in order. -/
def Ifd.set_tags (ifd : Ifd) (e : Endian) (updates : List (Nat × TagData)) : Ifd :=
  updates.foldl (fun acc cd => Ifd.set_tag acc cd.1 cd.2 e) ifd

/-- `Ifd::get_tag_by_code` (a linear `find`). -/
def Ifd.get_tag_by_code (ifd : Ifd) (code : Nat) : Option Tag :=
  ifd.find? (fun t => t.code == code)

/-- No two tags share a code. -/
def CodeUnique (ifd : Ifd) : Prop :=
  ifd.Pairwise (fun a b => a.code ≠ b.code)

/-- `set_tag` inserts the new tag. -/
theorem set_tag_mem (ifd : Ifd) (c : Nat) (d : TagData) (e : Endian) :
    Tag.new c e d ∈ Ifd.set_tag ifd c d e := by
  induction ifd with
  | nil => exact List.mem_singleton.mpr rfl
  | cons t ts ih =>
    unfold Ifd.set_tag
    split
    · exact List.mem_cons_self _ _
    · exact List.mem_cons_of_mem _ ih

/-- `set_tag` keeps every tag with a different code. -/
theorem set_tag_preserve (ifd : Ifd) (c : Nat) (d : TagData) (e : Endian)
    (t : Tag) (ht : t ∈ ifd) (hne : t.code ≠ c) :
    t ∈ Ifd.set_tag ifd c d e := by
  induction ifd with
  | nil => simp at ht
  | cons u ts ih =>
    unfold Ifd.set_tag
    rcases List.mem_cons.mp ht with rfl | hts
    · rw [if_neg (by omega)]
      exact List.mem_cons_self _ _
    · split
      · exact List.mem_cons_of_mem _ hts
      · exact List.mem_cons_of_mem _ (ih hts)

/-- Every tag after `set_tag` is the new tag or an old one. -/
theorem set_tag_mem_or (ifd : Ifd) (c : Nat) (d : TagData) (e : Endian)
    (t : Tag) (ht : t ∈ Ifd.set_tag ifd c d e) :
    t = Tag.new c e d ∨ t ∈ ifd := by
  induction ifd with
  | nil => exact Or.inl (by simpa [Ifd.set_tag] using ht)
  | cons u ts ih =>
    unfold Ifd.set_tag at ht
    split at ht
    · rcases List.mem_cons.mp ht with rfl | hts
      · exact Or.inl rfl
      · exact Or.inr (List.mem_cons_of_mem _ hts)
    · rcases List.mem_cons.mp ht with rfl | hts
      · exact Or.inr (List.mem_cons_self _ _)
      · rcases ih hts with h | h
        · exact Or.inl h
        · exact Or.inr (List.mem_cons_of_mem _ h)

/-- On a code-unique IFD, the new tag is the only one with its code. -/
theorem set_tag_code_eq (ifd : Ifd) (c : Nat) (d : TagData) (e : Endian)
    (hu : CodeUnique ifd) (t : Tag) (ht : t ∈ Ifd.set_tag ifd c d e)
    (htc : t.code = c) : t = Tag.new c e d := by
  induction ifd with
  | nil => simpa [Ifd.set_tag] using ht
  | cons u ts ih =>
    unfold Ifd.set_tag at ht
    rcases List.pairwise_cons.mp hu with ⟨hu1, hu2⟩
    split at ht
    · rename_i hc
      rcases List.mem_cons.mp ht with rfl | hts
      · rfl
      · exact absurd (htc.trans hc.symm) (hu1 t hts).symm
    · rename_i hc
      rcases List.mem_cons.mp ht with rfl | hts
      · exact absurd htc hc
      · exact ih hu2 hts

/-- `set_tag` preserves code uniqueness. -/
theorem set_tag_unique (ifd : Ifd) (c : Nat) (d : TagData) (e : Endian)
    (hu : CodeUnique ifd) : CodeUnique (Ifd.set_tag ifd c d e) := by
  induction ifd with
  | nil => simp [Ifd.set_tag, CodeUnique]
  | cons u ts ih =>
    unfold Ifd.set_tag
    rcases List.pairwise_cons.mp hu with ⟨hu1, hu2⟩
    split
    · rename_i hc
      apply List.pairwise_cons.mpr
      refine ⟨fun t ht => ?_, hu2⟩
      show (Tag.new c e d).code ≠ t.code
      have : (Tag.new c e d).code = c := rfl
      rw [this, ← hc]
      exact hu1 t ht
    · apply List.pairwise_cons.mpr
      constructor
      · intro t ht
        rcases set_tag_mem_or ts c d e t ht with rfl | hmem
        · rename_i hc
          show u.code ≠ c
          exact hc
        · exact hu1 t hmem
      · exact ih hu2

/-- `set_tags` keeps tags whose code is never updated. -/
theorem set_tags_preserve (ifd : Ifd) (e : Endian) (updates : List (Nat × TagData))
    (t : Tag) (ht : t ∈ ifd) (hno : ∀ u ∈ updates, t.code ≠ u.1) :
    t ∈ Ifd.set_tags ifd e updates := by
  induction updates generalizing ifd with
  | nil => exact ht
  | cons u us ih =>
    exact ih _ (set_tag_preserve ifd u.1 u.2 e t ht (hno u (List.mem_cons_self _ _)))
      (fun v hv => hno v (List.mem_cons_of_mem _ hv))

/-- `set_tags` preserves code uniqueness. -/
theorem set_tags_unique (ifd : Ifd) (e : Endian) (updates : List (Nat × TagData))
    (hu : CodeUnique ifd) : CodeUnique (Ifd.set_tags ifd e updates) := by
  induction updates generalizing ifd with
  | nil => exact hu
  | cons u us ih => exact ih _ (set_tag_unique ifd u.1 u.2 e hu)

/-- Every tag after `set_tags` is one of the new tags or an old one. -/
theorem set_tags_mem_or (ifd : Ifd) (e : Endian) (updates : List (Nat × TagData))
    (t : Tag) (ht : t ∈ Ifd.set_tags ifd e updates) :
    (∃ u ∈ updates, t = Tag.new u.1 e u.2) ∨ t ∈ ifd := by
  induction updates generalizing ifd with
  | nil => exact Or.inr ht
  | cons u us ih =>
    rcases ih _ ht with ⟨v, hv, rfl⟩ | hmem
    · exact Or.inl ⟨v, List.mem_cons_of_mem _ hv, rfl⟩
    · rcases set_tag_mem_or ifd u.1 u.2 e t hmem with rfl | hold
      · exact Or.inl ⟨u, List.mem_cons_self _ _, rfl⟩
      · exact Or.inr hold

/-- A code-unique invariant survives updates that avoid the code. -/
theorem set_tags_code_inv (ifd : Ifd) (e : Endian) (updates : List (Nat × TagData))
    (c : Nat) (tg : Tag) (h0 : ∀ t ∈ ifd, t.code = c → t = tg)
    (hno : ∀ u ∈ updates, u.1 ≠ c) :
    ∀ t ∈ Ifd.set_tags ifd e updates, t.code = c → t = tg := by
  induction updates generalizing ifd with
  | nil => exact h0
  | cons u us ih =>
    apply ih
    · intro t ht htc
      rcases set_tag_mem_or ifd u.1 u.2 e t ht with rfl | hold
      · exact absurd htc (hno u (List.mem_cons_self _ _))
      · exact h0 t hold htc
    · exact fun v hv => hno v (List.mem_cons_of_mem _ hv)

/-- With pairwise-distinct update codes, each update's tag is present
after `set_tags`. -/
theorem set_tags_mem (ifd : Ifd) (e : Endian) (updates : List (Nat × TagData))
    (c : Nat) (d : TagData)
    (hu : updates.Pairwise (fun a b => a.1 ≠ b.1))
    (hcd : (c, d) ∈ updates) :
    Tag.new c e d ∈ Ifd.set_tags ifd e updates := by
  induction updates generalizing ifd with
  | nil => simp at hcd
  | cons u us ih =>
    rcases List.pairwise_cons.mp hu with ⟨hu1, hu2⟩
    rcases List.mem_cons.mp hcd with rfl | hus
    · exact set_tags_preserve _ e us _ (set_tag_mem ifd c d e)
        (fun v hv => hu1 v hv)
    · exact ih _ hu2 hus

/-- With a code-unique base and pairwise-distinct update codes, the
update's tag is the only one with its code after `set_tags`. -/
theorem set_tags_code_eq (ifd : Ifd) (e : Endian) (updates : List (Nat × TagData))
    (c : Nat) (d : TagData) (hifd : CodeUnique ifd)
    (hu : updates.Pairwise (fun a b => a.1 ≠ b.1))
    (hcd : (c, d) ∈ updates) :
    ∀ t ∈ Ifd.set_tags ifd e updates, t.code = c → t = Tag.new c e d := by
  induction updates generalizing ifd with
  | nil => simp at hcd
  | cons u us ih =>
    rcases List.pairwise_cons.mp hu with ⟨hu1, hu2⟩
    rcases List.mem_cons.mp hcd with rfl | hus
    · exact set_tags_code_inv _ e us c _
        (fun t ht htc => set_tag_code_eq ifd c d e hifd t ht htc)
        (fun v hv => (hu1 v hv).symm)
    · exact ih _ (set_tag_unique ifd u.1 u.2 e hifd) hu2 hus

/-- Looking a code up in the sorted IFD returns the unique tag with
that code. -/
theorem get_tag_sorted (ifd : Ifd) (c : Nat) (tg : Tag)
    (htg : tg ∈ ifd) (htgc : tg.code = c)
    (huniq : ∀ t ∈ ifd, t.code = c → t = tg) :
    Ifd.get_tag_by_code (ifd.mergeSort (fun a b => decide (a.code ≤ b.code))) c =
      some tg := by
  have hperm := List.mergeSort_perm ifd (fun a b => decide (a.code ≤ b.code))
  unfold Ifd.get_tag_by_code
  cases h : (ifd.mergeSort (fun a b => decide (a.code ≤ b.code))).find?
      (fun t => t.code == c) with
  | none =>
    exfalso
    have := List.find?_eq_none.mp h tg (hperm.mem_iff.mpr htg)
    simp [htgc] at this
  | some y =>
    have h1 : y.code = c := by
      have := List.find?_some h
      simpa using this
    have h2 : y ∈ ifd := hperm.mem_iff.mp (List.mem_of_find?_eq_some h)
    rw [huniq y h2 h1]

/-- No tag with the code at all means the sorted lookup misses. -/
theorem get_tag_sorted_none (ifd : Ifd) (c : Nat)
    (hnone : ∀ t ∈ ifd, t.code ≠ c) :
    Ifd.get_tag_by_code (ifd.mergeSort (fun a b => decide (a.code ≤ b.code))) c =
      none := by
  have hperm := List.mergeSort_perm ifd (fun a b => decide (a.code ≤ b.code))
  unfold Ifd.get_tag_by_code
  apply List.find?_eq_none.mpr
  intro t ht
  simpa using hnone t (hperm.mem_iff.mp ht)

/-- `(a as f32 / b as f32).log2().ceil() as usize` for positive `b`,
computed exactly: `Nat.clog 2` of the ceiling quotient, i.e. the least
`e` with `a ≤ b * 2^e` (0 when `a ≤ b`, matching the saturation of the
`as usize` cast on a nonpositive log). -/
def ceilLog2Ratio (a b : Nat) : Nat := Nat.clog 2 ((a + b - 1) / b)

/-- The encoder's overview-level count
(`max` of the two per-axis logs, ceiled). -/
def encoderOverviewLevels (full_dims tile_dims : Nat × Nat) : Nat :=
  max (ceilLog2Ratio full_dims.1 tile_dims.1) (ceilLog2Ratio full_dims.2 tile_dims.2)

/-- The `TileOffsets` payload: `Long` zeros for Normal TIFF, `Long8`
zeros for BigTIFF. -/
def levelTileOffsetsData (v : TiffVariant) (n : Nat) : TagData :=
  match v with
  | .Normal => .Long (List.replicate n 0)
  | .Big => .Long8 (List.replicate n 0)

/-- The ordered `set_tag` calls of one iteration of the per-level
loop in `Encoder::encode`. -/
def levelUpdates (v : TiffVariant) (width height tile_width tile_height : Nat)
    (bps : List Nat) (compression interpretation planar predictor : Nat)
    (sample_format extra_samples : List Nat) : List (Nat × TagData) :=
  let number_of_tiles := natDivCeilCast width tile_width * natDivCeilCast height tile_height
  let tile_offsets : TagData := levelTileOffsetsData v number_of_tiles
  [(256, .from_long width), (257, .from_long height), (258, .Short bps),
   (259, .from_short compression), (262, .from_short interpretation),
   (277, .from_short bps.length), (284, .from_short planar),
   (317, .from_short predictor), (322, .from_short tile_width),
   (323, .from_short tile_height), (324, tile_offsets),
   (325, .Long (List.replicate number_of_tiles 0)),
   (339, .Short sample_format)] ++
  (if 0 < extra_samples.length then [(338, .Short extra_samples)] else [])

/-- One level's IFD: the base IFD, the loop's tag updates in order,
then the final sort by tag code. -/
def buildLevelIfd (base : Ifd) (e : Endian) (updates : List (Nat × TagData)) : Ifd :=
  (Ifd.set_tags base e updates).mergeSort (fun a b => decide (a.code ≤ b.code))

/-- The list of IFDs Encoder::encode builds: level 0 reuses `ifd0`,
levels `1..=N` start from a fresh IFD holding `SubfileType = 1`, and
level `i` uses dimensions `(w / 2^i, h / 2^i)`. -/
def encoderIfds (ifd0 : Ifd) (e : Endian) (v : TiffVariant)
    (full_dims tile_dims : Nat × Nat) (bps : List Nat)
    (compression interpretation planar predictor : Nat)
    (sample_format extra_samples : List Nat) : List Ifd :=
  (List.range (encoderOverviewLevels full_dims tile_dims + 1)).map (fun i =>
    let base : Ifd := if i = 0 then ifd0 else Ifd.set_tag [] 254 (.from_long 1) e
    buildLevelIfd base e
      (levelUpdates v (full_dims.1 / 2 ^ i) (full_dims.2 / 2 ^ i)
        tile_dims.1 tile_dims.2 bps compression interpretation planar predictor
        sample_format extra_samples))

/-- `ceilLog2Ratio a b` is the least `e` with `a ≤ b * 2^e`. -/
theorem ceilLog2Ratio_le_iff (a b m : Nat) (hb : 0 < b) :
    ceilLog2Ratio a b ≤ m ↔ a ≤ b * 2 ^ m := by
  unfold ceilLog2Ratio
  rw [← Nat.le_pow_iff_clog_le (by norm_num : 1 < 2)]
  rw [Nat.div_le_iff_le_mul_add_pred hb]
  omega

/-- The codes written by one level iteration, in order. -/
theorem levelUpdates_fst (v : TiffVariant) (w h tw th : Nat) (bps : List Nat)
    (c ip pl pr : Nat) (sf es : List Nat) :
    (levelUpdates v w h tw th bps c ip pl pr sf es).map Prod.fst =
      [256, 257, 258, 259, 262, 277, 284, 317, 322, 323, 324, 325, 339] ++
        (if 0 < es.length then [338] else []) := by
  unfold levelUpdates
  split <;> simp

/-- The level update codes are pairwise distinct. -/
theorem levelUpdates_pairwise (v : TiffVariant) (w h tw th : Nat) (bps : List Nat)
    (c ip pl pr : Nat) (sf es : List Nat) :
    (levelUpdates v w h tw th bps c ip pl pr sf es).Pairwise (fun a b => a.1 ≠ b.1) := by
  rw [show (fun (a b : Nat × TagData) => a.1 ≠ b.1) =
    (fun a b => Prod.fst a ≠ Prod.fst b) from rfl, ← List.pairwise_map]
  rw [levelUpdates_fst]
  by_cases hes : 0 < es.length <;> simp [hes]

/-- The level loop never writes `SubfileType` (code 254). -/
theorem levelUpdates_no254 (v : TiffVariant) (w h tw th : Nat) (bps : List Nat)
    (c ip pl pr : Nat) (sf es : List Nat) :
    ∀ u ∈ levelUpdates v w h tw th bps c ip pl pr sf es, u.1 ≠ 254 := by
  intro u hu
  have hm : u.1 ∈ (levelUpdates v w h tw th bps c ip pl pr sf es).map Prod.fst :=
    List.mem_map_of_mem _ hu
  rw [levelUpdates_fst] at hm
  rcases List.mem_append.mp hm with hm | hm
  · simp at hm
    omega
  · split at hm <;> simp at hm
    omega

/-- C8: `Encoder::encode` builds `N = ceil(max(log2(w/tile_w),
log2(h/tile_h)))` overview levels in addition to level 0 — `N` is
exactly the least `e` with `w ≤ tile_w * 2^e` and `h ≤ tile_h * 2^e` —
one IFD per level `i ∈ 0..=N` with `ImageWidth`/`ImageHeight` equal to
`w / 2^i` and `h / 2^i`, `SubfileType = 1` present only for `i > 0`,
and `TileOffsets`/`TileByteCounts` pre-sized to
`tile_cols * tile_rows` and zero-filled. -/
theorem encoder_ifds_spec (ifd0 : Ifd) (e : Endian) (v : TiffVariant)
    (fd td : Nat × Nat) (bps : List Nat)
    (compression interpretation planar predictor : Nat)
    (sf es : List Nat)
    (htw : 0 < td.1) (hth : 0 < td.2)
    (hifd0 : CodeUnique ifd0)
    (h254 : ∀ t ∈ ifd0, t.code ≠ 254) :
    (encoderIfds ifd0 e v fd td bps compression interpretation planar
        predictor sf es).length = encoderOverviewLevels fd td + 1 ∧
    (fd.1 ≤ td.1 * 2 ^ encoderOverviewLevels fd td ∧
     fd.2 ≤ td.2 * 2 ^ encoderOverviewLevels fd td) ∧
    (∀ m, fd.1 ≤ td.1 * 2 ^ m → fd.2 ≤ td.2 * 2 ^ m →
      encoderOverviewLevels fd td ≤ m) ∧
    (∀ i ifd_i,
      (encoderIfds ifd0 e v fd td bps compression interpretation planar
          predictor sf es)[i]? = some ifd_i →
      Ifd.get_tag_by_code ifd_i 256 =
        some (Tag.new 256 e (.from_long (fd.1 / 2 ^ i))) ∧
      Ifd.get_tag_by_code ifd_i 257 =
        some (Tag.new 257 e (.from_long (fd.2 / 2 ^ i))) ∧
      (0 < i → Ifd.get_tag_by_code ifd_i 254 =
        some (Tag.new 254 e (.from_long 1))) ∧
      (i = 0 → Ifd.get_tag_by_code ifd_i 254 = none) ∧
      Ifd.get_tag_by_code ifd_i 324 =
        some (Tag.new 324 e (levelTileOffsetsData v
          (natDivCeilCast (fd.1 / 2 ^ i) td.1 *
            natDivCeilCast (fd.2 / 2 ^ i) td.2))) ∧
      Ifd.get_tag_by_code ifd_i 325 =
        some (Tag.new 325 e (.Long (List.replicate
          (natDivCeilCast (fd.1 / 2 ^ i) td.1 *
            natDivCeilCast (fd.2 / 2 ^ i) td.2) 0)))) := by
  refine ⟨?_, ⟨?_, ?_⟩, ?_, ?_⟩
  · unfold encoderIfds
    rw [List.length_map, List.length_range]
  · exact (ceilLog2Ratio_le_iff fd.1 td.1 _ htw).mp (le_max_left _ _)
  · exact (ceilLog2Ratio_le_iff fd.2 td.2 _ hth).mp (le_max_right _ _)
  · intro m h1 h2
    exact max_le ((ceilLog2Ratio_le_iff fd.1 td.1 m htw).mpr h1)
      ((ceilLog2Ratio_le_iff fd.2 td.2 m hth).mpr h2)
  · intro i ifd_i h
    unfold encoderIfds at h
    rw [List.getElem?_map] at h
    by_cases hi : i < encoderOverviewLevels fd td + 1
    · simp only [List.getElem?_range, hi, if_pos, Option.map_some] at h
      have hifd : ifd_i = buildLevelIfd
          (if i = 0 then ifd0 else Ifd.set_tag [] 254 (.from_long 1) e) e
          (levelUpdates v (fd.1 / 2 ^ i) (fd.2 / 2 ^ i) td.1 td.2 bps
            compression interpretation planar predictor sf es) := by
        cases h
        rfl
      subst hifd
      have hpw := levelUpdates_pairwise v (fd.1 / 2 ^ i) (fd.2 / 2 ^ i)
        td.1 td.2 bps compression interpretation planar predictor sf es
      have hno := levelUpdates_no254 v (fd.1 / 2 ^ i) (fd.2 / 2 ^ i)
        td.1 td.2 bps compression interpretation planar predictor sf es
      have hbase : CodeUnique
          (if i = 0 then ifd0 else Ifd.set_tag [] 254 (.from_long 1) e) := by
        split
        · exact hifd0
        · exact List.pairwise_singleton _ _
      refine ⟨?_, ?_, ?_, ?_, ?_, ?_⟩
      · exact get_tag_sorted _ 256 _
          (set_tags_mem _ e _ 256 _ hpw (by simp [levelUpdates])) rfl
          (set_tags_code_eq _ e _ 256 _ hbase hpw (by simp [levelUpdates]))
      · exact get_tag_sorted _ 257 _
          (set_tags_mem _ e _ 257 _ hpw (by simp [levelUpdates])) rfl
          (set_tags_code_eq _ e _ 257 _ hbase hpw (by simp [levelUpdates]))
      · intro hi0
        have hbeq : (if i = 0 then ifd0 else Ifd.set_tag [] 254 (.from_long 1) e) =
            [Tag.new 254 e (.from_long 1)] := by
          rw [if_neg (by omega)]
          rfl
        unfold buildLevelIfd
        rw [hbeq]
        exact get_tag_sorted _ 254 _
          (set_tags_preserve _ e _ _ (List.mem_singleton.mpr rfl)
            (fun u hu => Ne.symm (hno u hu))) rfl
          (set_tags_code_inv _ e _ 254 _
            (fun t ht _ => List.mem_singleton.mp ht)
            (fun u hu => hno u hu))
      · intro hi0
        have hbeq : (if i = 0 then ifd0 else Ifd.set_tag [] 254 (.from_long 1) e) =
            ifd0 := by rw [if_pos hi0]
        unfold buildLevelIfd
        rw [hbeq]
        apply get_tag_sorted_none
        intro t ht
        rcases set_tags_mem_or _ e _ t ht with ⟨u, hu, rfl⟩ | hmem
        · exact hno u hu
        · exact h254 t hmem
      · exact get_tag_sorted _ 324 _
          (set_tags_mem _ e _ 324 _ hpw (by simp [levelUpdates])) rfl
          (set_tags_code_eq _ e _ 324 _ hbase hpw (by simp [levelUpdates]))
      · exact get_tag_sorted _ 325 _
          (set_tags_mem _ e _ 325 _ hpw (by simp [levelUpdates])) rfl
          (set_tags_code_eq _ e _ 325 _ hbase hpw (by simp [levelUpdates]))
    · rw [List.getElem?_eq_none (by rw [List.length_range]; omega)] at h
      simp at h

/-- Closed instance of `encoder_ifds_spec`: a 512×256 raster with
256×256 tiles, empty initial IFD. -/
theorem encoder_ifds_spec_witness :
    (0 < ((256 : Nat), (256 : Nat)).1 ∧ 0 < ((256 : Nat), (256 : Nat)).2 ∧
     CodeUnique [] ∧ (∀ t ∈ ([] : Ifd), t.code ≠ 254)) ∧
    (encoderIfds [] .Little .Normal (512, 256) (256, 256) [8] 1 1 1 2 [1] []).length =
      encoderOverviewLevels (512, 256) (256, 256) + 1 :=
  ⟨⟨by decide, by decide, List.Pairwise.nil, by simp⟩,
    (encoder_ifds_spec [] .Little .Normal (512, 256) (256, 256) [8] 1 1 1 2 [1] []
      (by decide) (by decide) List.Pairwise.nil (by simp)).1⟩

/-! ## Claim C10: the synchronous InputCrop render pipeline
(src/render/renderer.rs, src/render/tiles.rs, src/cog/level.rs)

The byte reader and the external LZW / zlib decoders are oracle
parameters.  `HashMap` tile caches are association lists.  The `f64`
accumulations `x += dxdi` are exact in `ℚ`. -/

/-- `u as u32` for a nonnegative `f64`: truncate and saturate. -/
def ratToU32 (q : ℚ) : Nat := min (⌊q⌋.toNat) 4294967295

/-- `HashMap::get` on the association-list tile cache. -/
def cacheGet (cache : List (Nat × Raster)) (i : Nat) : Option Raster :=
  (cache.find? (fun p => p.1 == i)).map Prod.snd

/-- `Compression::decode`, with the LZW and zlib decoders passed in as
oracles. -/
def Compression.decode (c : Compression)
    (lzw inflate : List Nat → Except DecompressError (List Nat))
    (bytes : List Nat) : Except DecompressError (List Nat) :=
  match c with
  | .Uncompressed => .ok bytes
  | .Lzw => lzw bytes
  | .DeflateAdobe => inflate bytes
  | .Other code => .error (.CompressionNotSupported (.Other code))

/-- `Raster::new`: rejects a buffer that is not exactly
`w * h * (bits_per_pixel / 8)` bytes. -/
def Raster.new (dimensions : Nat × Nat) (buffer : List Nat)
    (bits_per_sample : List Nat) (interpretation : Nat)
    (sample_format : List Nat) (extra_samples : List Nat)
    (endian : Endian) : Except RasterError Raster :=
  let bits_per_pixel := bits_per_sample.sum
  let bytes_per_pixel := bits_per_pixel / 8
  let required_bytes := dimensions.1 * dimensions.2 * bytes_per_pixel
  if buffer.length ≠ required_bytes then .error .BufferSize
  else .ok ⟨dimensions, buffer, bits_per_sample, interpretation,
    sample_format, extra_samples, endian, bits_per_pixel⟩

/-- `Level::extract_tile_from_bytes`: decompress, apply the predictor
(`bits_per_sample[0]` panics when the sample list is empty), then
rasterize. -/
def extract_tile_from_bytes
    (lzw inflate : List Nat → Except DecompressError (List Nat))
    (level : Level) (bytes : List Nat) :
    PanicOr (Except CloudTiffError Raster) :=
  match Compression.decode level.compression lzw inflate bytes with
  | .error e => .ok (.error (.Decompress e))
  | .ok buffer =>
    match level.bits_per_sample with
    | [] => .panic
    | bd0 :: _ =>
      match Predictor.predict level.predictor buffer level.tile_width bd0
          level.bits_per_sample.length with
      | .panic => .panic
      | .ok (_, .error e) => .ok (.error (.Decompress e))
      | .ok (buf2, .ok ()) =>
        match Raster.new (level.tile_width, level.tile_height) buf2
            level.bits_per_sample level.interpretation level.sample_format
            level.extra_samples level.endian with
        | .error e => .ok (.error (.RasterizationError e))
        | .ok raster => .ok (.ok raster)

/-- `tile_info_from_indices`: keep the indices whose byte-range lookup
succeeds (the lookup itself panics on empty tile arrays). -/
def tile_info_from_indices (level : Level) :
    List Nat → PanicOr (List (Nat × (Nat × Nat)))
  | [] => .ok []
  | i :: rest =>
    match Level.tile_byte_range level i with
    | .panic => .panic
    | .ok (.error _) => tile_info_from_indices level rest
    | .ok (.ok range) =>
      match tile_info_from_indices level rest with
      | .panic => .panic
      | .ok l => .ok ((i, range) :: l)

/-- The body of `get_tiles`: read each range, extract, and silently
drop tiles whose read or extraction fails. -/
def get_tilesAux (reader : Nat → Nat → Option (List Nat))
    (lzw inflate : List Nat → Except DecompressError (List Nat))
    (level : Level) : List (Nat × (Nat × Nat)) → PanicOr (List (Nat × Raster))
  | [] => .ok []
  | (index, (start, endp)) :: rest =>
    match reader start (endp - start) with
    | none => get_tilesAux reader lzw inflate level rest
    | some buf =>
      match extract_tile_from_bytes lzw inflate level buf with
      | .panic => .panic
      | .ok (.error _) => get_tilesAux reader lzw inflate level rest
      | .ok (.ok tile) =>
        match get_tilesAux reader lzw inflate level rest with
        | .panic => .panic
        | .ok l => .ok ((index, tile) :: l)

/-- `get_tiles`. -/
def get_tiles (reader : Nat → Nat → Option (List Nat))
    (lzw inflate : List Nat → Except DecompressError (List Nat))
    (level : Level) (indices : List Nat) : PanicOr (List (Nat × Raster)) :=
  match tile_info_from_indices level indices with
  | .panic => .panic
  | .ok infos => get_tilesAux reader lzw inflate level infos

/-- One iteration of the pixel loop in
`render_image_crop_from_tile_cache`. -/
def renderPixel (cache : List (Nat × Raster)) (level : Level)
    (raster : Raster) (i j : Nat) (x y : ℚ) : PanicOr Raster :=
  match Level.index_from_image_coords level x y with
  | .error _ => .ok raster
  | .ok (tile_index, u, v) =>
    match cacheGet cache tile_index with
    | none => .ok raster
    | some tile =>
      match Raster.get_pixel tile (ratToU32 u) (ratToU32 v) with
      | .panic => .panic
      | .ok none => .ok raster
      | .ok (some pixel) =>
        match Raster.put_pixel raster i j pixel with
        | .panic => .panic
        | .ok (r2, _) => .ok r2

/-- `render_image_crop_from_tile_cache`: a blank raster, then the
row-major pixel loop with exact coordinate accumulation. -/
def render_image_crop_from_tile_cache (cache : List (Nat × Raster))
    (level : Level) (crop : RegionQ) (dims : Nat × Nat) : PanicOr Raster :=
  let blank := Raster.blank dims level.bits_per_sample level.interpretation
    level.sample_format level.extra_samples level.endian
  let dxdi := (crop.x.max - crop.x.min) / (dims.1 : ℚ)
  let dydj := (crop.y.max - crop.y.min) / (dims.2 : ℚ)
  (List.range dims.2).foldl (fun acc j =>
    match acc with
    | .panic => .panic
    | .ok r =>
      (List.range dims.1).foldl (fun acc2 i =>
        match acc2 with
        | .panic => .panic
        | .ok r2 =>
          renderPixel cache level r2 i j (crop.x.min + (i : ℚ) * dxdi)
            (crop.y.min + (j : ℚ) * dydj)) (.ok r)) (.ok blank)

/-- `RenderBuilder::render` for an `InputCrop` region. -/
def renderCrop (reader : Nat → Nat → Option (List Nat))
    (lzw inflate : List Nat → Except DecompressError (List Nat))
    (cog : CloudTiff) (crop : RegionQ) (dims : Nat × Nat) : PanicOr Raster :=
  match render_level_from_crop cog crop dims with
  | .panic => .panic
  | .ok level =>
    match get_tiles reader lzw inflate level
        (level.tile_indices_within_image_crop crop) with
    | .panic => .panic
    | .ok cache => render_image_crop_from_tile_cache cache level crop dims

/-- Whether the output pixel probing image coordinates `(x, y)` maps
into a cached tile with a readable source pixel; when this test fails
the render loop leaves the output pixel untouched. -/
def pixelMapsToCachedTile (cache : List (Nat × Raster)) (level : Level)
    (x y : ℚ) : Bool :=
  match Level.index_from_image_coords level x y with
  | .error _ => false
  | .ok (tile_index, u, v) =>
    match cacheGet cache tile_index with
    | none => false
    | some tile =>
      match Raster.get_pixel tile (ratToU32 u) (ratToU32 v) with
      | .ok (some _) => true
      | _ => false

/-- Every output pixel that does not map into a cached tile still has
all `k` of its buffer bytes equal to zero; `cx + i * dx` and
`cy + j * dy` are the image coordinates probed for output pixel
`(i, j)`. -/
def unmappedPixelsZero (cache : List (Nat × Raster)) (level : Level)
    (r : Raster) (dims : Nat × Nat) (k : Nat) (cx dx cy dy : ℚ) : Prop :=
  ∀ i j, i < dims.1 → j < dims.2 →
    pixelMapsToCachedTile cache level (cx + (i : ℚ) * dx) (cy + (j : ℚ) * dy) = false →
    ∀ t, t < k → r.buffer.getD (j * (dims.1 * k) + i * k + t) 0 = 0

/-- A 1×1 COG level with one 16-bit sample and the Horizontal
predictor; its single tile is 2 bytes at offset 0. -/
def c10Level : Level :=
  ⟨none, (1, 1), 1, 1, .Uncompressed, .Horizontal, 1, [16], [1], [], .Little, [0], [2]⟩

/-- A single-level COG around `c10Level`. -/
def c10Cog : CloudTiff := ⟨[c10Level], ⟨4326, (0, 0, 0), (1, 1, 1)⟩⟩

/-- A reader that always succeeds with zero bytes. -/
def c10Reader : Nat → Nat → Option (List Nat) := fun _ n => some (List.replicate n 0)

/-- A decoder oracle (never reached in the counterexample). -/
def c10Oracle : List Nat → Except DecompressError (List Nat) :=
  fun _ => .error .LzwDecodeError

/-- C10 counterexample: rendering the unit crop of a COG whose level
stores 16-bit samples with the Horizontal predictor panics — the tile
is read and decompressed fine, but `Predictor::predict` hits
`assert!(bit_depth <= 8)` inside `get_tiles`, so the synchronous
render neither returns `Ok` nor an error. -/
theorem render_counterexample :
    renderCrop c10Reader c10Oracle c10Oracle c10Cog RegionQ.unit (1, 1) = .panic := by
  have hw : ceilDivCastU32 1 (RegionQ.unit.x.max - RegionQ.unit.x.min) = 1 := by
    show ceilDivCastU32 1 ((1 : ℚ) - 0) = 1
    exact ceilDivCastU32_eq_of_ceil 1 _ 1 (by norm_num) (by norm_num)
      (by norm_num) (by norm_num)
  have hh : ceilDivCastU32 1 (RegionQ.unit.y.min - RegionQ.unit.y.max) = 0 := by
    show ceilDivCastU32 1 ((0 : ℚ) - 1) = 0
    exact ceilDivCastU32_of_ceil_nonpos 1 _ (by norm_num) (Int.ceil_le.mpr (by norm_num))
  have hlev : render_level_from_crop c10Cog RegionQ.unit (1, 1) = .ok c10Level := by
    unfold render_level_from_crop
    simp only [c10Cog]
    simp only [hw, hh]
    simp [c10Level, List.find?]
  have hind : c10Level.tile_indices_within_image_crop RegionQ.unit = [0] := by
    unfold Level.tile_indices_within_image_crop Level.tile_coord_from_image_coord
      Level.col_count Level.row_count natDivCeilCast Level.width Level.height
    norm_num [c10Level, RegionQ.unit]
  unfold renderCrop
  simp only [hlev, hind]
  decide

/-- The copy loop preserves the buffer length. -/
theorem listOverwrite_length (pixel : List Nat) : ∀ (buf : List Nat) (start : Nat),
    (listOverwrite buf start pixel).length = buf.length := by
  induction pixel with
  | nil => intro buf start; rfl
  | cons p ps ih =>
    intro buf start
    show (listOverwrite (buf.set start p) (start + 1) ps).length = buf.length
    rw [ih, List.length_set]

/-- Reading a zero-filled buffer through `getD` always yields zero. -/
theorem replicate_getD_zero (n b : Nat) : (List.replicate n (0 : Nat)).getD b 0 = 0 := by
  induction n generalizing b with
  | zero => cases b <;> rfl
  | succ m ih =>
    cases b with
    | zero => rfl
    | succ b' =>
      rw [List.replicate_succ, List.getD_cons_succ]
      exact ih b'

/-- The copy loop only changes bytes in `[start, start + pixel.length)`. -/
theorem listOverwrite_getD_frame : ∀ (pixel buf : List Nat) (start b : Nat),
    b < start ∨ start + pixel.length ≤ b →
    (listOverwrite buf start pixel).getD b 0 = buf.getD b 0 := by
  intro pixel
  induction pixel with
  | nil => intro buf start b hb; rfl
  | cons p ps ih =>
    intro buf start b hb
    have hb2 : b < start ∨ start + (ps.length + 1) ≤ b := by simpa using hb
    show (listOverwrite (buf.set start p) (start + 1) ps).getD b 0 = buf.getD b 0
    rw [ih (buf.set start p) (start + 1) b (by omega)]
    exact getD_set_ne buf start b p (by omega)

/-- Byte slots of distinct output pixels are disjoint in the row-major
byte-aligned buffer layout. -/
theorem pixel_slot_disjoint (W k i j i0 j0 t : Nat) (_hkpos : 0 < k)
    (hi : i < W) (hi0 : i0 < W) (ht : t < k)
    (hne : i ≠ i0 ∨ j ≠ j0) :
    j * (W * k) + i * k + t < j0 * (W * k) + i0 * k ∨
    j0 * (W * k) + i0 * k + k ≤ j * (W * k) + i * k + t := by
  have hik : i * k + k ≤ W * k := by
    calc i * k + k = (i + 1) * k := (Nat.succ_mul i k).symm
      _ ≤ W * k := Nat.mul_le_mul_right _ (by omega)
  have hik0 : i0 * k + k ≤ W * k := by
    calc i0 * k + k = (i0 + 1) * k := (Nat.succ_mul i0 k).symm
      _ ≤ W * k := Nat.mul_le_mul_right _ (by omega)
  rcases Nat.lt_trichotomy j j0 with hj | hj | hj
  · left
    have hjj : j * (W * k) + W * k ≤ j0 * (W * k) := by
      calc j * (W * k) + W * k = (j + 1) * (W * k) := (Nat.succ_mul j (W * k)).symm
        _ ≤ j0 * (W * k) := Nat.mul_le_mul_right _ (by omega)
    omega
  · subst hj
    rcases hne with hne | hne
    · rcases Nat.lt_trichotomy i i0 with hi2 | hi2 | hi2
      · left
        have hii : i * k + k ≤ i0 * k := by
          calc i * k + k = (i + 1) * k := (Nat.succ_mul i k).symm
            _ ≤ i0 * k := Nat.mul_le_mul_right _ (by omega)
        omega
      · exact absurd hi2 hne
      · right
        have hii : i0 * k + k ≤ i * k := by
          calc i0 * k + k = (i0 + 1) * k := (Nat.succ_mul i0 k).symm
            _ ≤ i * k := Nat.mul_le_mul_right _ (by omega)
        omega
    · exact absurd rfl hne
  · right
    have hjj : j0 * (W * k) + W * k ≤ j * (W * k) := by
      calc j0 * (W * k) + W * k = (j0 + 1) * (W * k) := (Nat.succ_mul j0 (W * k)).symm
        _ ≤ j * (W * k) := Nat.mul_le_mul_right _ (by omega)
    omega

/-- On a byte-aligned raster of canonical buffer length, `get_pixel`
never panics: it returns `none` out of bounds and a pixel of
`bits_per_pixel / 8` bytes in bounds. -/
theorem get_pixel_ok (r : Raster) (x y k : Nat) (hk : r.bits_per_pixel = 8 * k)
    (hkpos : 0 < k)
    (hlen : r.buffer.length = r.dimensions.1 * r.dimensions.2 * k) :
    r.get_pixel x y = .ok none ∨
    ∃ p, r.get_pixel x y = .ok (some p) ∧ p.length = k := by
  by_cases hin : x < r.dimensions.1 ∧ y < r.dimensions.2
  · right
    obtain ⟨hx, hy⟩ := hin
    have hA1 : x * (8 * k) / 8 = x * k := by
      rw [show x * (8 * k) = 8 * (x * k) from by ring,
        Nat.mul_div_cancel_left _ (by norm_num : 0 < 8)]
    have hA2 : (x * (8 * k) + 8 * k + 7) / 8 = x * k + k := by
      rw [show x * (8 * k) + 8 * k + 7 = 7 + 8 * (x * k + k) from by ring,
        Nat.add_mul_div_left _ _ (by norm_num : 0 < 8)]
      norm_num
    have hA3 : (r.dimensions.1 * (8 * k) + 7) / 8 = r.dimensions.1 * k := by
      rw [show r.dimensions.1 * (8 * k) + 7 = 7 + 8 * (r.dimensions.1 * k) from by ring,
        Nat.add_mul_div_left _ _ (by norm_num : 0 < 8)]
      norm_num
    obtain ⟨h1, hh1⟩ : ∃ h1, r.dimensions.2 = h1 + 1 := ⟨r.dimensions.2 - 1, by omega⟩
    obtain ⟨w1, hw1⟩ : ∃ w1, r.dimensions.1 = w1 + 1 := ⟨r.dimensions.1 - 1, by omega⟩
    have hendle : y * (r.dimensions.1 * k) + (x * k + k) ≤ r.buffer.length := by
      rw [hlen, hh1]
      calc y * (r.dimensions.1 * k) + (x * k + k)
          ≤ h1 * (r.dimensions.1 * k) + (x * k + k) :=
            Nat.add_le_add_right (Nat.mul_le_mul_right _ (by omega)) _
        _ ≤ h1 * (r.dimensions.1 * k) + r.dimensions.1 * k := by
            apply Nat.add_le_add_left
            rw [hw1]
            calc x * k + k = (x + 1) * k := (Nat.succ_mul x k).symm
              _ ≤ (w1 + 1) * k := Nat.mul_le_mul_right _ (by omega)
        _ = r.dimensions.1 * (h1 + 1) * k := by ring
    have hshift1 : x * (8 * k) - x * k * 8 = 0 := by
      rw [show x * (8 * k) = x * k * 8 from by ring, Nat.sub_self]
    have hshift2 : (x * k + k) * 8 - (x * (8 * k) + 8 * k) = 0 := by
      rw [show x * (8 * k) + 8 * k = (x * k + k) * 8 from by ring, Nat.sub_self]
    have hsub : y * (r.dimensions.1 * k) + (x * k + k) -
        (y * (r.dimensions.1 * k) + x * k) = k := by
      rw [Nat.add_sub_add_left]
      exact Nat.add_sub_cancel_left (x * k) k
    have hPlen : ((r.buffer.drop (y * (r.dimensions.1 * k) + x * k)).take k).length = k := by
      apply slice_length
      omega
    simp only [Raster.get_pixel, Raster.row_size, hk]
    rw [if_neg (by omega : ¬(x ≥ r.dimensions.1 ∨ y ≥ r.dimensions.2))]
    rw [hA1, hA2, hA3, hshift1, hsub]
    rw [if_neg (by omega :
      ¬(y * (r.dimensions.1 * k) + (x * k + k) > r.buffer.length ∨
        y * (r.dimensions.1 * k) + x * k > y * (r.dimensions.1 * k) + (x * k + k)))]
    rw [if_neg (by omega : ¬k = 0)]
    exact ⟨_, rfl, by rw [List.length_set, List.length_set, hPlen]⟩
  · left
    unfold Raster.get_pixel
    rw [if_pos (by omega)]

/-- The byte range of an in-bounds pixel fits the canonical buffer. -/
theorem raster_arith (w h x y k : Nat) (hx : x < w) (hy : y < h) :
    y * (w * k) + (x * k + k) ≤ w * h * k := by
  obtain ⟨h1, hh1⟩ : ∃ h1, h = h1 + 1 := ⟨h - 1, by omega⟩
  obtain ⟨w1, hw1⟩ : ∃ w1, w = w1 + 1 := ⟨w - 1, by omega⟩
  rw [hh1]
  calc y * (w * k) + (x * k + k)
      ≤ h1 * (w * k) + (x * k + k) :=
        Nat.add_le_add_right (Nat.mul_le_mul_right _ (by omega)) _
    _ ≤ h1 * (w * k) + w * k := by
        apply Nat.add_le_add_left
        rw [hw1]
        calc x * k + k = (x + 1) * k := (Nat.succ_mul x k).symm
          _ ≤ (w1 + 1) * k := Nat.mul_le_mul_right _ (by omega)
    _ = w * (h1 + 1) * k := by ring

/-- On a byte-aligned raster of canonical buffer length, `put_pixel`
of a correctly sized pixel never panics, preserves the raster's shape,
writes only inside the target pixel's byte slot, and is the identity
out of bounds. -/
theorem put_pixel_ok (r : Raster) (x y k : Nat) (pixel : List Nat)
    (hk : r.bits_per_pixel = 8 * k) (hkpos : 0 < k)
    (hlen : r.buffer.length = r.dimensions.1 * r.dimensions.2 * k)
    (hplen : pixel.length = k) :
    ∃ r' res, Raster.put_pixel r x y pixel = .ok (r', res) ∧
      r'.dimensions = r.dimensions ∧ r'.bits_per_sample = r.bits_per_sample ∧
      r'.bits_per_pixel = r.bits_per_pixel ∧
      r'.buffer.length = r.buffer.length ∧
      (∀ b, b < y * (r.dimensions.1 * k) + x * k ∨
        y * (r.dimensions.1 * k) + x * k + k ≤ b →
        r'.buffer.getD b 0 = r.buffer.getD b 0) ∧
      (x ≥ r.dimensions.1 ∨ y ≥ r.dimensions.2 → r' = r) := by
  by_cases hin : x < r.dimensions.1 ∧ y < r.dimensions.2
  · obtain ⟨hx, hy⟩ := hin
    have hA1 : x * (8 * k) / 8 = x * k := by
      rw [show x * (8 * k) = 8 * (x * k) from by ring,
        Nat.mul_div_cancel_left _ (by norm_num : 0 < 8)]
    have hA2 : (x * (8 * k) + 8 * k + 7) / 8 = x * k + k := by
      rw [show x * (8 * k) + 8 * k + 7 = 7 + 8 * (x * k + k) from by ring,
        Nat.add_mul_div_left _ _ (by norm_num : 0 < 8)]
      norm_num
    have hA3 : (r.dimensions.1 * (8 * k) + 7) / 8 = r.dimensions.1 * k := by
      rw [show r.dimensions.1 * (8 * k) + 7 = 7 + 8 * (r.dimensions.1 * k) from by ring,
        Nat.add_mul_div_left _ _ (by norm_num : 0 < 8)]
      norm_num
    have hsub : y * (r.dimensions.1 * k) + (x * k + k) -
        (y * (r.dimensions.1 * k) + x * k) = k := by
      rw [Nat.add_sub_add_left]
      exact Nat.add_sub_cancel_left (x * k) k
    have hendle : y * (r.dimensions.1 * k) + (x * k + k) ≤ r.buffer.length := by
      rw [hlen]
      exact raster_arith _ _ x y k hx hy
    simp only [Raster.put_pixel, Raster.row_size, hk]
    rw [if_neg (by omega : ¬(x ≥ r.dimensions.1 ∨ y ≥ r.dimensions.2))]
    rw [hA1, hA2, hA3, hsub]
    rw [if_neg (by omega : ¬pixel.length ≠ k)]
    rw [if_neg (by omega : ¬k = 0)]
    rw [if_neg (by omega :
      ¬(y * (r.dimensions.1 * k) + x * k ≥ r.buffer.length))]
    rw [if_neg (by omega :
      ¬(1 < k ∧ r.buffer.length ≤ y * (r.dimensions.1 * k) + x * k + k - 1))]
    rw [if_neg (by omega :
      ¬(r.buffer.length < y * (r.dimensions.1 * k) + x * k + k))]
    refine ⟨_, _, rfl, rfl, rfl, rfl, ?_, ?_, ?_⟩
    · show (listOverwrite _ _ pixel).length = r.buffer.length
      rw [listOverwrite_length]
      split
      · rw [List.length_set, List.length_set]
      · rw [List.length_set]
    · intro b hb
      have hcond : b < y * (r.dimensions.1 * k) + x * k ∨
          y * (r.dimensions.1 * k) + x * k + pixel.length ≤ b := by
        rw [hplen]; exact hb
      show (listOverwrite _ (y * (r.dimensions.1 * k) + x * k) pixel).getD b 0 =
        r.buffer.getD b 0
      rw [listOverwrite_getD_frame pixel _ _ b hcond]
      split
      · exact Eq.trans (getD_set_ne _ _ _ _ (by omega)) (getD_set_ne _ _ _ _ (by omega))
      · exact getD_set_ne _ _ _ _ (by omega)
    · intro hcon
      exact absurd hcon (by omega)
  · refine ⟨r, .error (), ?_, rfl, rfl, rfl, rfl, fun _ _ => rfl, fun _ => rfl⟩
    unfold Raster.put_pixel
    rw [if_pos (by omega)]

/-- `Predictor::predict` never panics when the Horizontal preconditions
hold, and preserves the buffer length. -/
theorem predict_ok (p : Predictor) (buffer : List Nat) (w bd spp : Nat)
    (hp : p = .Horizontal → bd ≤ 8 ∧ 0 < w * spp * bd / 8) :
    ∃ buf2 res, Predictor.predict p buffer w bd spp = .ok (buf2, res) ∧
      buf2.length = buffer.length := by
  cases p with
  | No => exact ⟨buffer, .ok (), rfl, rfl⟩
  | Horizontal =>
    obtain ⟨h1, h2⟩ := hp rfl
    refine ⟨horizFold buffer (w * spp * bd / 8) spp buffer.length, .ok (), ?_,
      horizFold_length _ _ _ _⟩
    unfold Predictor.predict
    rw [if_neg (by omega), if_neg (fun hcon => absurd hcon.2 (by omega))]
  | FloatingPoint => exact ⟨buffer, _, rfl, rfl⟩
  | Unknown => exact ⟨buffer, _, rfl, rfl⟩

/-- `Raster::new` succeeds exactly on a buffer of the required size. -/
theorem raster_new_ok (dims : Nat × Nat) (buffer bps : List Nat)
    (ip : Nat) (sf es : List Nat) (en : Endian)
    (hb : buffer.length = dims.1 * dims.2 * (bps.sum / 8)) :
    Raster.new dims buffer bps ip sf es en =
      .ok ⟨dims, buffer, bps, ip, sf, es, en, bps.sum⟩ := by
  simp only [Raster.new]
  rw [if_neg (by omega)]

/-- `Raster::new` rejects a buffer of the wrong size. -/
theorem raster_new_err (dims : Nat × Nat) (buffer bps : List Nat)
    (ip : Nat) (sf es : List Nat) (en : Endian)
    (hb : buffer.length ≠ dims.1 * dims.2 * (bps.sum / 8)) :
    Raster.new dims buffer bps ip sf es en = .error .BufferSize := by
  simp only [Raster.new]
  rw [if_pos hb]

/-- `extract_tile_from_bytes` never panics for a level with nonempty,
byte-aligned samples and a satisfiable predictor; a produced tile has
the canonical byte-aligned shape. -/
theorem extract_ok (lzw inflate : List Nat → Except DecompressError (List Nat))
    (level : Level) (bytes : List Nat) (k : Nat)
    (hbps : level.bits_per_sample ≠ [])
    (hsum : level.bits_per_sample.sum = 8 * k)
    (hpred : level.predictor = .Horizontal →
      level.bits_per_sample.headD 0 ≤ 8 ∧
      0 < level.tile_width * level.bits_per_sample.length *
        level.bits_per_sample.headD 0 / 8) :
    (∃ e, extract_tile_from_bytes lzw inflate level bytes = .ok (.error e)) ∨
    (∃ t, extract_tile_from_bytes lzw inflate level bytes = .ok (.ok t) ∧
      t.bits_per_pixel = 8 * k ∧
      t.buffer.length = t.dimensions.1 * t.dimensions.2 * k) := by
  unfold extract_tile_from_bytes
  cases hdec : Compression.decode level.compression lzw inflate bytes with
  | error e => exact Or.inl ⟨.Decompress e, rfl⟩
  | ok buffer =>
    cases hbl : level.bits_per_sample with
    | nil => exact absurd hbl hbps
    | cons bd0 bds =>
      obtain ⟨buf2, res, hpeq, hplen⟩ :=
        predict_ok level.predictor buffer level.tile_width bd0 (bd0 :: bds).length
          (by
            intro hh
            have h3 := hpred hh
            rw [hbl] at h3
            simpa using h3)
      cases res with
      | error e =>
        simp only [hpeq]
        exact Or.inl ⟨.Decompress e, rfl⟩
      | ok u =>
        cases u
        simp only [hpeq]
        have hsum2 : (bd0 :: bds).sum = 8 * k := by
          rw [← hbl]
          exact hsum
        by_cases hreq : buf2.length =
            level.tile_width * level.tile_height * ((bd0 :: bds).sum / 8)
        · rw [raster_new_ok (level.tile_width, level.tile_height) buf2 (bd0 :: bds)
            level.interpretation level.sample_format level.extra_samples level.endian
            (by simpa using hreq)]
          refine Or.inr ⟨_, rfl, ?_, ?_⟩
          · show (bd0 :: bds).sum = 8 * k
            exact hsum2
          · show buf2.length =
              (level.tile_width, level.tile_height).1 *
                (level.tile_width, level.tile_height).2 * k
            rw [hreq, hsum2, Nat.mul_div_cancel_left _ (by norm_num : 0 < 8)]
        · rw [raster_new_err (level.tile_width, level.tile_height) buf2 (bd0 :: bds)
            level.interpretation level.sample_format level.extra_samples level.endian
            (by simpa using hreq)]
          exact Or.inl ⟨.RasterizationError .BufferSize, rfl⟩
  
/-- `tile_info_from_indices` never panics when at least one tile is
indexed by both arrays. -/
theorem tile_info_ok (level : Level)
    (h : 0 < level.offsets.length.min level.byte_counts.length) :
    ∀ indices, ∃ infos, tile_info_from_indices level indices = .ok infos := by
  intro indices
  have hnp : ∀ i res, Level.tile_byte_range level i = res → res ≠ .panic := by
    intro i res hres
    unfold Level.tile_byte_range at hres
    rw [if_neg (by omega)] at hres
    dsimp only at hres
    split at hres <;> simp [← hres]
  induction indices with
  | nil => exact ⟨[], rfl⟩
  | cons i rest ih =>
    obtain ⟨infos, hinfos⟩ := ih
    cases hbr : Level.tile_byte_range level i with
    | panic => exact absurd rfl (hnp i _ hbr)
    | ok res =>
      cases res with
      | error e =>
        exact ⟨infos, by unfold tile_info_from_indices; simp only [hbr, hinfos]⟩
      | ok range =>
        exact ⟨(i, range) :: infos,
          by unfold tile_info_from_indices; simp only [hbr, hinfos]⟩

/-- `get_tilesAux` never panics under the per-level side conditions;
its tiles are byte-aligned and canonical, and a reader that always
fails yields an empty cache. -/
theorem get_tilesAux_ok (reader : Nat → Nat → Option (List Nat))
    (lzw inflate : List Nat → Except DecompressError (List Nat))
    (level : Level) (k : Nat)
    (hbps : level.bits_per_sample ≠ [])
    (hsum : level.bits_per_sample.sum = 8 * k)
    (hpred : level.predictor = .Horizontal →
      level.bits_per_sample.headD 0 ≤ 8 ∧
      0 < level.tile_width * level.bits_per_sample.length *
        level.bits_per_sample.headD 0 / 8) :
    ∀ infos, ∃ cache,
      get_tilesAux reader lzw inflate level infos = .ok cache ∧
      (∀ pr ∈ cache, pr.2.bits_per_pixel = 8 * k ∧
        pr.2.buffer.length = pr.2.dimensions.1 * pr.2.dimensions.2 * k) ∧
      ((∀ s n, reader s n = none) → cache = []) := by
  intro infos
  induction infos with
  | nil => exact ⟨[], rfl, by simp, fun _ => rfl⟩
  | cons info rest ih =>
    obtain ⟨cache, hcache, hgoodc, hnone⟩ := ih
    obtain ⟨index, start, endp⟩ := info
    cases hr : reader start (endp - start) with
    | none =>
      exact ⟨cache, by unfold get_tilesAux; simp only [hr, hcache], hgoodc, hnone⟩
    | some buf =>
      rcases extract_ok lzw inflate level buf k hbps hsum hpred with
        ⟨e, hext⟩ | ⟨t, hext, ht1, ht2⟩
      · exact ⟨cache, by unfold get_tilesAux; simp only [hr, hext, hcache], hgoodc,
          fun hn => absurd hr (by rw [hn start (endp - start)]; simp)⟩
      · refine ⟨(index, t) :: cache,
          by unfold get_tilesAux; simp only [hr, hext, hcache], ?_,
          fun hn => absurd hr (by rw [hn start (endp - start)]; simp)⟩
        intro pr hpr
        rcases List.mem_cons.mp hpr with rfl | hpr2
        · exact ⟨ht1, ht2⟩
        · exact hgoodc pr hpr2

/-- `get_tiles` never panics under the side conditions. -/
theorem get_tiles_ok (reader : Nat → Nat → Option (List Nat))
    (lzw inflate : List Nat → Except DecompressError (List Nat))
    (level : Level) (k : Nat) (indices : List Nat)
    (harr : 0 < level.offsets.length.min level.byte_counts.length)
    (hbps : level.bits_per_sample ≠ [])
    (hsum : level.bits_per_sample.sum = 8 * k)
    (hpred : level.predictor = .Horizontal →
      level.bits_per_sample.headD 0 ≤ 8 ∧
      0 < level.tile_width * level.bits_per_sample.length *
        level.bits_per_sample.headD 0 / 8) :
    ∃ cache, get_tiles reader lzw inflate level indices = .ok cache ∧
      (∀ pr ∈ cache, pr.2.bits_per_pixel = 8 * k ∧
        pr.2.buffer.length = pr.2.dimensions.1 * pr.2.dimensions.2 * k) ∧
      ((∀ s n, reader s n = none) → cache = []) := by
  obtain ⟨infos, hinfos⟩ := tile_info_ok level harr indices
  obtain ⟨cache, hcache, hgoodc, hnone⟩ :=
    get_tilesAux_ok reader lzw inflate level k hbps hsum hpred infos
  exact ⟨cache, by unfold get_tiles; simp only [hinfos, hcache], hgoodc, hnone⟩

/-- One pixel iteration never panics, preserves the render raster's
shape, and keeps every unmapped output pixel's bytes zero. -/
theorem renderPixel_ok (cache : List (Nat × Raster)) (level : Level)
    (raster : Raster) (i0 j0 : Nat) (k : Nat) (dims : Nat × Nat)
    (cx dx cy dy : ℚ) (hkpos : 0 < k)
    (hc : ∀ pr ∈ cache, pr.2.bits_per_pixel = 8 * k ∧
      pr.2.buffer.length = pr.2.dimensions.1 * pr.2.dimensions.2 * k)
    (hr : raster.dimensions = dims ∧ raster.bits_per_sample = level.bits_per_sample ∧
      raster.bits_per_pixel = 8 * k ∧
      raster.buffer.length = dims.1 * dims.2 * k ∧
      unmappedPixelsZero cache level raster dims k cx dx cy dy) :
    ∃ r', renderPixel cache level raster i0 j0 (cx + (i0 : ℚ) * dx)
        (cy + (j0 : ℚ) * dy) = .ok r' ∧
      (r'.dimensions = dims ∧ r'.bits_per_sample = level.bits_per_sample ∧
       r'.bits_per_pixel = 8 * k ∧
       r'.buffer.length = dims.1 * dims.2 * k ∧
       unmappedPixelsZero cache level r' dims k cx dx cy dy) := by
  obtain ⟨hrd, hrb, hrbp, hrlen, hrzero⟩ := hr
  unfold renderPixel
  cases hidx : Level.index_from_image_coords level (cx + (i0 : ℚ) * dx)
      (cy + (j0 : ℚ) * dy) with
  | error e =>
    refine ⟨raster, ?_, hrd, hrb, hrbp, hrlen, hrzero⟩
    simp only [hidx]
  | ok tuv =>
    obtain ⟨ti, u, v⟩ := tuv
    simp only [hidx]
    cases hcg : cacheGet cache ti with
    | none =>
      refine ⟨raster, ?_, hrd, hrb, hrbp, hrlen, hrzero⟩
      simp only [hcg]
    | some tile =>
      simp only [hcg]
      have htile : tile.bits_per_pixel = 8 * k ∧
          tile.buffer.length = tile.dimensions.1 * tile.dimensions.2 * k := by
        unfold cacheGet at hcg
        cases hf : cache.find? (fun p => p.1 == ti) with
        | none => rw [hf] at hcg; simp at hcg
        | some pr =>
          rw [hf] at hcg
          simp at hcg
          rw [← hcg]
          exact hc pr (List.mem_of_find?_eq_some hf)
      rcases get_pixel_ok tile (ratToU32 u) (ratToU32 v) k htile.1 hkpos htile.2 with
        hnone | ⟨p, hsome, hplen⟩
      · refine ⟨raster, ?_, hrd, hrb, hrbp, hrlen, hrzero⟩
        simp only [hnone]
      · have hmapped : pixelMapsToCachedTile cache level (cx + (i0 : ℚ) * dx)
            (cy + (j0 : ℚ) * dy) = true := by
          unfold pixelMapsToCachedTile
          simp only [hidx, hcg, hsome]
        obtain ⟨r', res, hput, hd, hb, hbp, hblen, hframe, hoob⟩ :=
          put_pixel_ok raster i0 j0 k p hrbp hkpos (by rw [hrd]; exact hrlen) hplen
        refine ⟨r', ?_, by rw [hd, hrd], by rw [hb, hrb],
          by rw [hbp, hrbp], by rw [hblen]; exact hrlen, ?_⟩
        · simp only [hsome, hput]
        · unfold unmappedPixelsZero
          intro i j hij hjj hun t ht
          by_cases hin0 : i0 < dims.1 ∧ j0 < dims.2
          · have hne : i ≠ i0 ∨ j ≠ j0 := by
              by_contra hcon
              push_neg at hcon
              obtain ⟨rfl, rfl⟩ := hcon
              rw [hun] at hmapped
              exact absurd hmapped (by simp)
            have hdisj := pixel_slot_disjoint dims.1 k i j i0 j0 t hkpos hij hin0.1 ht hne
            have hb2 : j * (dims.1 * k) + i * k + t <
                j0 * (raster.dimensions.1 * k) + i0 * k ∨
                j0 * (raster.dimensions.1 * k) + i0 * k + k ≤
                j * (dims.1 * k) + i * k + t := by
              rw [hrd]
              exact hdisj
            rw [hframe _ hb2]
            exact hrzero i j hij hjj hun t ht
          · have hreq : r' = raster := hoob (by rw [hrd]; omega)
            rw [hreq]
            exact hrzero i j hij hjj hun t ht

/-- A panic-propagating fold whose step preserves `P` and never
panics on an `ok` state. -/
theorem foldl_panic_ok {α : Type} (P : α → Prop) (f : PanicOr α → Nat → PanicOr α)
    (hf : ∀ r i, P r → ∃ r', f (PanicOr.ok r) i = PanicOr.ok r' ∧ P r') :
    ∀ (l : List Nat) (b : α), P b →
      ∃ r, l.foldl f (PanicOr.ok b) = PanicOr.ok r ∧ P r := by
  intro l
  induction l with
  | nil => exact fun b hb => ⟨b, rfl, hb⟩
  | cons a t ih =>
    intro b hb
    obtain ⟨r1, hr1, hP1⟩ := hf b a hb
    rw [List.foldl_cons, hr1]
    exact ih r1 hP1

/-- A panic-propagating fold whose step is the identity on `ok`
states. -/
theorem foldl_panic_id {α : Type} (f : PanicOr α → Nat → PanicOr α)
    (hf : ∀ r i, f (PanicOr.ok r) i = PanicOr.ok r) :
    ∀ (l : List Nat) (b : α), l.foldl f (PanicOr.ok b) = PanicOr.ok b := by
  intro l
  induction l with
  | nil => exact fun b => rfl
  | cons a t ih =>
    intro b
    rw [List.foldl_cons, hf b a]
    exact ih b

/-- The reversed `find?` with fallback stays inside the list. -/
theorem find_getD_mem {α : Type} (l : List α) (p : α → Bool) (d : α) (hd : d ∈ l) :
    ((l.reverse.find? p).getD d) ∈ l := by
  cases hf : l.reverse.find? p with
  | none => simpa using hd
  | some x =>
    have hx := List.mem_of_find?_eq_some hf
    simpa using List.mem_reverse.mp hx

/-- `render_level_from_crop` picks one of the COG's levels. -/
theorem render_level_mem (cog : CloudTiff) (crop : RegionQ) (dims : Nat × Nat)
    (l0 : Level) (rest : List Level) (hlev : cog.levels = l0 :: rest) :
    ∃ l ∈ cog.levels, render_level_from_crop cog crop dims = .ok l := by
  unfold render_level_from_crop
  rw [hlev]
  refine ⟨_, ?_, rfl⟩
  exact find_getD_mem (l0 :: rest) _ l0 (List.mem_cons_self _ _)

/-- The shape of `Raster::blank` for byte-aligned samples. -/
theorem blank_shape (dims : Nat × Nat) (bps : List Nat) (ip : Nat)
    (sf es : List Nat) (en : Endian) (k : Nat) (hsum : bps.sum = 8 * k) :
    (Raster.blank dims bps ip sf es en).dimensions = dims ∧
    (Raster.blank dims bps ip sf es en).bits_per_sample = bps ∧
    (Raster.blank dims bps ip sf es en).bits_per_pixel = 8 * k ∧
    (Raster.blank dims bps ip sf es en).buffer.length = dims.1 * dims.2 * k := by
  refine ⟨rfl, rfl, hsum, ?_⟩
  show (List.replicate (dims.1 * dims.2 * bps.sum / 8) 0).length =
    dims.1 * dims.2 * k
  rw [List.length_replicate, hsum,
    show dims.1 * dims.2 * (8 * k) = 8 * (dims.1 * dims.2 * k) from by ring,
    Nat.mul_div_cancel_left _ (by norm_num : 0 < 8)]

/-- C10 amended: with a nonempty level list and, for every level,
nonempty tile arrays, nonempty byte-aligned samples, and a satisfiable
predictor configuration, the synchronous InputCrop render returns `Ok`
with a raster of the requested dimensions; tiles whose byte-range
lookup, read or decode fails are silently omitted, every output pixel
that is unmapped or whose tile is missing from the cache keeps all of
its bytes zero, and if every read fails the output is exactly the
blank (all-zero) raster.  Outside these conditions the pipeline can
panic instead. -/
theorem renderCrop_spec (reader : Nat → Nat → Option (List Nat))
    (lzw inflate : List Nat → Except DecompressError (List Nat))
    (cog : CloudTiff) (crop : RegionQ) (dims : Nat × Nat)
    (l0 : Level) (rest : List Level) (hlev : cog.levels = l0 :: rest)
    (hgood : ∀ l ∈ cog.levels,
      0 < l.offsets.length.min l.byte_counts.length ∧
      l.bits_per_sample ≠ [] ∧
      (∃ k, 0 < k ∧ l.bits_per_sample.sum = 8 * k) ∧
      (l.predictor = .Horizontal →
        l.bits_per_sample.headD 0 ≤ 8 ∧
        0 < l.tile_width * l.bits_per_sample.length *
          l.bits_per_sample.headD 0 / 8)) :
    ∃ l ∈ cog.levels, ∃ cache, ∃ r : Raster,
      render_level_from_crop cog crop dims = .ok l ∧
      get_tiles reader lzw inflate l (l.tile_indices_within_image_crop crop) =
        .ok cache ∧
      renderCrop reader lzw inflate cog crop dims = .ok r ∧
      r.dimensions = dims ∧ r.bits_per_sample = l.bits_per_sample ∧
      unmappedPixelsZero cache l r dims (l.bits_per_sample.sum / 8)
        crop.x.min ((crop.x.max - crop.x.min) / (dims.1 : ℚ))
        crop.y.min ((crop.y.max - crop.y.min) / (dims.2 : ℚ)) ∧
      ((∀ s n, reader s n = none) →
        r = Raster.blank dims l.bits_per_sample l.interpretation
          l.sample_format l.extra_samples l.endian) := by
  obtain ⟨l, hlm, hsel⟩ := render_level_mem cog crop dims l0 rest hlev
  obtain ⟨harr, hbps, ⟨k, hkpos, hsum⟩, hpredg⟩ := hgood l hlm
  obtain ⟨cache, hcache, hgoodc, hcnone⟩ :=
    get_tiles_ok reader lzw inflate l k (l.tile_indices_within_image_crop crop)
      harr hbps hsum hpredg
  have hred : renderCrop reader lzw inflate cog crop dims =
      render_image_crop_from_tile_cache cache l crop dims := by
    unfold renderCrop
    simp only [hsel, hcache]
  have hbl := blank_shape dims l.bits_per_sample l.interpretation
    l.sample_format l.extra_samples l.endian k hsum
  have hblz : unmappedPixelsZero cache l
      (Raster.blank dims l.bits_per_sample l.interpretation
        l.sample_format l.extra_samples l.endian) dims k
      crop.x.min ((crop.x.max - crop.x.min) / (dims.1 : ℚ))
      crop.y.min ((crop.y.max - crop.y.min) / (dims.2 : ℚ)) := by
    unfold unmappedPixelsZero
    intro i j hij hjj hun t ht
    show (List.replicate (dims.1 * dims.2 * l.bits_per_sample.sum / 8) (0 : Nat)).getD
      (j * (dims.1 * k) + i * k + t) 0 = 0
    exact replicate_getD_zero _ _
  have hmain : ∃ r, render_image_crop_from_tile_cache cache l crop dims = .ok r ∧
      (r.dimensions = dims ∧ r.bits_per_sample = l.bits_per_sample ∧
       r.bits_per_pixel = 8 * k ∧ r.buffer.length = dims.1 * dims.2 * k ∧
       unmappedPixelsZero cache l r dims k
         crop.x.min ((crop.x.max - crop.x.min) / (dims.1 : ℚ))
         crop.y.min ((crop.y.max - crop.y.min) / (dims.2 : ℚ))) := by
    unfold render_image_crop_from_tile_cache
    dsimp only
    apply foldl_panic_ok
    · intro b j hb
      dsimp only
      apply foldl_panic_ok
      · intro r2 i hP2
        dsimp only
        exact renderPixel_ok cache l r2 i j k dims _ _ _ _ hkpos hgoodc hP2
      · exact hb
    · exact ⟨hbl.1, hbl.2.1, hbl.2.2.1, hbl.2.2.2, hblz⟩
  obtain ⟨r, hloop, hP⟩ := hmain
  have hk8 : l.bits_per_sample.sum / 8 = k := by
    rw [hsum]
    exact Nat.mul_div_cancel_left k (by norm_num)
  refine ⟨l, hlm, cache, r, hsel, hcache, hred.trans hloop, hP.1, hP.2.1, ?_, ?_⟩
  · rw [hk8]
    exact hP.2.2.2.2
  intro hn
  have hce : cache = [] := hcnone hn
  subst hce
  have hpix : ∀ (r2 : Raster) (i j : Nat) (x y : ℚ),
      renderPixel [] l r2 i j x y = .ok r2 := by
    intro r2 i j x y
    unfold renderPixel
    cases Level.index_from_image_coords l x y with
    | error e => rfl
    | ok tuv =>
      obtain ⟨ti, u, v⟩ := tuv
      rfl
  have hid : render_image_crop_from_tile_cache [] l crop dims =
      .ok (Raster.blank dims l.bits_per_sample l.interpretation
        l.sample_format l.extra_samples l.endian) := by
    unfold render_image_crop_from_tile_cache
    dsimp only
    apply foldl_panic_id
    intro b j
    dsimp only
    apply foldl_panic_id
    intro r2 i
    dsimp only
    exact hpix r2 i j _ _
  have h2 : PanicOr.ok r = PanicOr.ok (Raster.blank dims l.bits_per_sample
      l.interpretation l.sample_format l.extra_samples l.endian) :=
    hloop.symm.trans hid
  cases h2
  rfl

/-- Closed instance of `renderCrop_spec` on the two-level `c2Cog` with
a reader that always fails. -/
theorem renderCrop_spec_witness :
    c2Cog.levels = c2Level0 :: [c2Level1] ∧
    (∃ l ∈ c2Cog.levels, ∃ cache, ∃ r : Raster,
      render_level_from_crop c2Cog RegionQ.unit (1, 1) = .ok l ∧
      get_tiles (fun _ _ : Nat => (none : Option (List Nat))) c10Oracle c10Oracle l
        (l.tile_indices_within_image_crop RegionQ.unit) = .ok cache ∧
      renderCrop (fun _ _ : Nat => (none : Option (List Nat))) c10Oracle
        c10Oracle c2Cog RegionQ.unit (1, 1) = .ok r ∧
      r.dimensions = (1, 1) ∧ r.bits_per_sample = l.bits_per_sample ∧
      unmappedPixelsZero cache l r (1, 1) (l.bits_per_sample.sum / 8)
        RegionQ.unit.x.min
        ((RegionQ.unit.x.max - RegionQ.unit.x.min) / ((1 : Nat) : ℚ))
        RegionQ.unit.y.min
        ((RegionQ.unit.y.max - RegionQ.unit.y.min) / ((1 : Nat) : ℚ)) ∧
      ((∀ s n : Nat, (fun _ _ : Nat => (none : Option (List Nat))) s n = none) →
        r = Raster.blank (1, 1) l.bits_per_sample l.interpretation
          l.sample_format l.extra_samples l.endian)) :=
  ⟨rfl, renderCrop_spec (fun _ _ : Nat => (none : Option (List Nat)))
    c10Oracle c10Oracle c2Cog RegionQ.unit (1, 1) c2Level0 [c2Level1] rfl
    (by
      intro l hl
      rcases List.mem_cons.mp hl with rfl | hl2
      · exact ⟨by decide, by decide, ⟨1, by decide, by decide⟩,
          fun h => absurd h (by decide)⟩
      · rcases List.mem_cons.mp hl2 with rfl | hl3
        · exact ⟨by decide, by decide, ⟨1, by decide, by decide⟩,
            fun h => absurd h (by decide)⟩
        · exact absurd hl3 (List.not_mem_nil l))⟩
